import Mathlib

/-!
# PulseAudio sample utilities: mixing and volume scaling

A shallow embedding of `src/pulsecore/sample-util.c`.  Memory blocks are lists of
bytes, pointers into a block are byte offsets, machine integers are `Int` values that
are reduced to their width wherever the C code stores them, and IEEE floats are carried
as their 32-bit patterns with the arithmetic supplied by the platform.
-/

namespace PulseAudio

/-! ## Machine integers -/

/-- One byte of a memory block. -/
abbrev Byte := Fin 256

/-- Conversion to `uint8_t`. -/
def uint8_t (x : Int) : Byte := ⟨(x % 256).toNat, by omega⟩

/-- Conversion to `uint16_t`. -/
def uint16_t (x : Int) : Int := x % 0x10000

/-- Conversion to `uint32_t`. -/
def uint32_t (x : Int) : Int := x % 0x100000000

/-- Conversion to `int16_t` (two's complement). -/
def int16_t (x : Int) : Int := (x + 0x8000) % 0x10000 - 0x8000

/-- Conversion to `int32_t` (two's complement). -/
def int32_t (x : Int) : Int := (x + 0x80000000) % 0x100000000 - 0x80000000

/-- Conversion to `int64_t` (two's complement). -/
def int64_t (x : Int) : Int :=
  (x + 0x8000000000000000) % 0x10000000000000000 - 0x8000000000000000

/-- The macro `PA_CLAMP_UNLIKELY(x, low, high)`. -/
def PA_CLAMP_UNLIKELY (x low high : Int) : Int :=
  if x > high then high else if x < low then low else x

/-- Byte swap of a 16-bit pattern. -/
def bswap16 (u : Int) : Int := (u % 0x100) * 0x100 + (u / 0x100) % 0x100

/-- Byte swap of a 32-bit pattern. -/
def bswap32 (u : Int) : Int :=
  (u % 0x100) * 0x1000000 + ((u / 0x100) % 0x100) * 0x10000
    + ((u / 0x10000) % 0x100) * 0x100 + (u / 0x1000000) % 0x100

/-- The macro `PA_INT16_SWAP`. -/
def PA_INT16_SWAP (x : Int) : Int := int16_t (bswap16 (uint16_t x))

/-- The macro `PA_INT32_SWAP`. -/
def PA_INT32_SWAP (x : Int) : Int := int32_t (bswap32 (uint32_t x))

/-- The macro `PA_FLOAT32_SWAP`, on the 32-bit pattern of the float. -/
def PA_FLOAT32_SWAP (x : Int) : Int := bswap32 (uint32_t x)

/-! ## Raw memory -/

/-- The byte at offset `i` of a block, as an unsigned value.  An offset past the end of
the block, where the C code would read foreign memory, reads as 0. -/
def peek (p : List Byte) (i : Nat) : Int := ((p.getD i 0).val : Int)

/-- A native 16-bit load at offset `i`; `be` is the byte order of the host. -/
def load_u16 (be : Bool) (p : List Byte) (i : Nat) : Int :=
  if be then 0x100 * peek p i + peek p (i + 1)
  else peek p i + 0x100 * peek p (i + 1)

/-- A native 32-bit load at offset `i`; `be` is the byte order of the host. -/
def load_u32 (be : Bool) (p : List Byte) (i : Nat) : Int :=
  if be then
    0x1000000 * peek p i + 0x10000 * peek p (i + 1) + 0x100 * peek p (i + 2) + peek p (i + 3)
  else
    peek p i + 0x100 * peek p (i + 1) + 0x10000 * peek p (i + 2) + 0x1000000 * peek p (i + 3)

/-- The bytes of a native 16-bit store. -/
def store_u16 (be : Bool) (x : Int) : List Byte :=
  if be then [uint8_t (uint16_t x / 0x100), uint8_t (uint16_t x)]
  else [uint8_t (uint16_t x), uint8_t (uint16_t x / 0x100)]

/-- The bytes of a native 32-bit store. -/
def store_u32 (be : Bool) (x : Int) : List Byte :=
  if be then
    [uint8_t (uint32_t x / 0x1000000), uint8_t (uint32_t x / 0x10000),
     uint8_t (uint32_t x / 0x100), uint8_t (uint32_t x)]
  else
    [uint8_t (uint32_t x), uint8_t (uint32_t x / 0x100),
     uint8_t (uint32_t x / 0x10000), uint8_t (uint32_t x / 0x1000000)]

/-- Writes the bytes `xs` into the block starting at offset `off`; bytes that would fall
past the end of the block are not kept. -/
def poke : List Byte → Nat → List Byte → List Byte
  | [], _, _ => []
  | b :: p, _, [] => b :: p
  | _ :: p, 0, x :: xs => x :: poke p 0 xs
  | b :: p, off + 1, x :: xs => b :: poke p off (x :: xs)

/-- The libc `memset(p + off, c, n)` on a block; bytes that would fall past the end of
the block are not kept. -/
def memset : List Byte → Nat → Byte → Nat → List Byte
  | [], _, _, _ => []
  | b :: p, 0, _, 0 => b :: p
  | _ :: p, 0, c, n + 1 => c :: memset p 0 c n
  | b :: p, off + 1, c, n => b :: memset p off c n

/-! ## Data model -/

/-- The sample encodings; `PA_SAMPLE_MAX` is the upper bound of the enumeration and
names no encoding. -/
inductive pa_sample_format_t where
  | PA_SAMPLE_U8
  | PA_SAMPLE_ALAW
  | PA_SAMPLE_ULAW
  | PA_SAMPLE_S16LE
  | PA_SAMPLE_S16BE
  | PA_SAMPLE_FLOAT32LE
  | PA_SAMPLE_FLOAT32BE
  | PA_SAMPLE_S32LE
  | PA_SAMPLE_S32BE
  | PA_SAMPLE_MAX
  deriving DecidableEq

open pa_sample_format_t

/-- A sample specification. -/
structure pa_sample_spec where
  format : pa_sample_format_t
  rate : Nat
  channels : Nat
  deriving DecidableEq

/-- A per-channel volume: `values` is the array `values[PA_CHANNELS_MAX]`. -/
structure pa_cvolume where
  channels : Nat
  values : Nat → Nat

/-- A memory block: its bytes and the flag read by `pa_memblock_is_silence`. -/
structure pa_memblock where
  data : List Byte
  is_silence : Bool
  deriving DecidableEq

/-- A chunk of a memory block. -/
structure pa_memchunk where
  memblock : pa_memblock
  index : Nat
  length : Nat
  deriving DecidableEq

/-- One input of the mixer.  `linear` is the per-channel gain cache (a union of an
`int32_t` and a `float`, held here as one integer), `ptr` the read cursor as an offset
into the acquired block. -/
structure pa_mix_info where
  chunk : pa_memchunk
  volume : pa_cvolume
  linear : List Int
  ptr : Nat

/-- What the file takes from its environment: the byte order of the host, the two
volume sentinels and the volume law of `volume.h`, `pa_frame_size` of `sample.h`, the
float unit, and the companding tables of `g711.h`.  `pa_sw_volume_to_linear_fixed v`
stands for `pa_sw_volume_to_linear(v) * 0x10000` truncated to an integer,
`pa_sw_volume_to_linear_float v` for the pattern of `(float) pa_sw_volume_to_linear(v)`. -/
structure Platform where
  WORDS_BIGENDIAN : Bool
  PA_VOLUME_NORM : Nat
  PA_VOLUME_MUTED : Nat
  pa_frame_size : pa_sample_spec → Nat
  pa_sw_volume_to_linear_fixed : Nat → Int
  pa_sw_volume_to_linear_float : Nat → Int
  float_add : Int → Int → Int
  float_mul : Int → Int → Int
  float_le_zero : Int → Bool
  st_ulaw2linear16 : Byte → Int
  st_alaw2linear16 : Byte → Int
  st_14linear2ulaw : Int → Int
  st_13linear2alaw : Int → Int

/-- The macro `PA_SAMPLE_S16NE`. -/
def PA_SAMPLE_S16NE (P : Platform) : pa_sample_format_t :=
  if P.WORDS_BIGENDIAN then PA_SAMPLE_S16BE else PA_SAMPLE_S16LE

/-- The macro `PA_SAMPLE_S16RE`. -/
def PA_SAMPLE_S16RE (P : Platform) : pa_sample_format_t :=
  if P.WORDS_BIGENDIAN then PA_SAMPLE_S16LE else PA_SAMPLE_S16BE

/-- The macro `PA_SAMPLE_S32NE`. -/
def PA_SAMPLE_S32NE (P : Platform) : pa_sample_format_t :=
  if P.WORDS_BIGENDIAN then PA_SAMPLE_S32BE else PA_SAMPLE_S32LE

/-- The macro `PA_SAMPLE_S32RE`. -/
def PA_SAMPLE_S32RE (P : Platform) : pa_sample_format_t :=
  if P.WORDS_BIGENDIAN then PA_SAMPLE_S32LE else PA_SAMPLE_S32BE

/-- The macro `PA_SAMPLE_FLOAT32NE`. -/
def PA_SAMPLE_FLOAT32NE (P : Platform) : pa_sample_format_t :=
  if P.WORDS_BIGENDIAN then PA_SAMPLE_FLOAT32BE else PA_SAMPLE_FLOAT32LE

/-- The macro `PA_SAMPLE_FLOAT32RE`. -/
def PA_SAMPLE_FLOAT32RE (P : Platform) : pa_sample_format_t :=
  if P.WORDS_BIGENDIAN then PA_SAMPLE_FLOAT32LE else PA_SAMPLE_FLOAT32BE

/-- Modelled from the spec: `pa_cvolume_reset` of `volume.h`, which is not part of
this file; it yields the volume that is unity on each of the given channels. -/
def pa_cvolume_reset (P : Platform) (channels : Nat) : pa_cvolume :=
  { channels := channels, values := fun _ => P.PA_VOLUME_NORM }

/-- Modelled from the spec: `pa_cvolume_channels_equal_to` of `volume.h`, which is not
part of this file; it tells whether the volume has the value `v` on every channel. -/
def pa_cvolume_channels_equal_to (a : pa_cvolume) (v : Nat) : Bool :=
  (List.range a.channels).all (fun c => a.values c == v)

/-! ## Silence -/

/-- The static function `silence_byte`; `none` is `pa_assert_not_reached()`. -/
def silence_byte (format : pa_sample_format_t) : Option Byte :=
  match format with
  | PA_SAMPLE_U8 => some 0x80
  | PA_SAMPLE_S16LE => some 0
  | PA_SAMPLE_S16BE => some 0
  | PA_SAMPLE_S32LE => some 0
  | PA_SAMPLE_S32BE => some 0
  | PA_SAMPLE_FLOAT32LE => some 0
  | PA_SAMPLE_FLOAT32BE => some 0
  | PA_SAMPLE_ALAW => some 0xd5
  | PA_SAMPLE_ULAW => some 0xff
  | PA_SAMPLE_MAX => none

/-- The function `pa_silence_memory` on the block that holds `p`, which starts at offset
`off`; `none` is a failed assertion. -/
def pa_silence_memory (p : List Byte) (off length : Nat) (spec : pa_sample_spec) :
    Option (List Byte) :=
  if length = 0 then none
  else
    match silence_byte spec.format with
    | none => none
    | some c => some (memset p off c length)

/-- The function `pa_silence_memchunk`. -/
def pa_silence_memchunk (c : pa_memchunk) (spec : pa_sample_spec) : Option pa_memchunk :=
  match pa_silence_memory c.memblock.data c.index c.length spec with
  | none => none
  | some data => some { c with memblock := { c.memblock with data := data } }

/-! ## Linear gains -/

/-- The static function `calc_linear_integer_stream_volumes`: fills the gain cache of
each stream for the channels of `spec`. -/
def calc_linear_integer_stream_volumes (P : Platform) (streams : List pa_mix_info)
    (spec : pa_sample_spec) : List pa_mix_info :=
  streams.map (fun m =>
    { m with linear := (List.range spec.channels).map (fun channel =>
        int32_t (P.pa_sw_volume_to_linear_fixed (m.volume.values channel))) })

/-- The static function `calc_linear_integer_volume`: the entries of `linear[]` it
assigns, one per channel of `volume`. -/
def calc_linear_integer_volume (P : Platform) (volume : pa_cvolume) : List Int :=
  (List.range volume.channels).map (fun channel =>
    int32_t (P.pa_sw_volume_to_linear_fixed (volume.values channel)))

/-- The static function `calc_linear_float_stream_volumes`. -/
def calc_linear_float_stream_volumes (P : Platform) (streams : List pa_mix_info)
    (spec : pa_sample_spec) : List pa_mix_info :=
  streams.map (fun m =>
    { m with linear := (List.range spec.channels).map (fun channel =>
        P.pa_sw_volume_to_linear_float (m.volume.values channel)) })

/-- The static function `calc_linear_float_volume`. -/
def calc_linear_float_volume (P : Platform) (volume : pa_cvolume) : List Int :=
  (List.range volume.channels).map (fun channel =>
    P.pa_sw_volume_to_linear_float (volume.values channel))

/-! ## The mixer -/

/-- The parts in which the nine loops of `pa_mix` differ: the sample width, the test
`x <= 0` on a gain, the decoding of the sample under the cursor, the scaling by the
gain of the stream, the accumulation, and the statements that turn the accumulated sum
and the master gain into the bytes of the output sample. -/
structure mix_codec where
  width : Nat
  le_zero : Int → Bool
  read : List Byte → Nat → Int
  scale : Int → Int → Int
  add : Int → Int → Int
  write : Int → Int → List Byte

/-- The statement `v = (v * cv) / 0x10000` on `int32_t` operands. -/
def scale_int32 (v cv : Int) : Int := Int.tdiv (int32_t (v * cv)) 0x10000

/-- The statement `v = (v * cv) / 0x10000` on an `int64_t` sample. -/
def scale_int64 (v cv : Int) : Int := Int.tdiv (int64_t (v * cv)) 0x10000

/-- The case `PA_SAMPLE_S16NE` of `pa_mix`. -/
def mix_s16ne (P : Platform) : mix_codec where
  width := 2
  le_zero := fun x => decide (x ≤ 0)
  read := fun p ptr => int16_t (load_u16 P.WORDS_BIGENDIAN p ptr)
  scale := scale_int32
  add := fun sum v => int32_t (sum + v)
  write := fun sum linear =>
    let sum := PA_CLAMP_UNLIKELY sum (-0x8000) 0x7FFF
    let sum := scale_int32 sum linear
    store_u16 P.WORDS_BIGENDIAN (int16_t sum)

/-- The case `PA_SAMPLE_S16RE` of `pa_mix`. -/
def mix_s16re (P : Platform) : mix_codec where
  width := 2
  le_zero := fun x => decide (x ≤ 0)
  read := fun p ptr => PA_INT16_SWAP (int16_t (load_u16 P.WORDS_BIGENDIAN p ptr))
  scale := scale_int32
  add := fun sum v => int32_t (sum + v)
  write := fun sum linear =>
    let sum := PA_CLAMP_UNLIKELY sum (-0x8000) 0x7FFF
    let sum := scale_int32 sum linear
    store_u16 P.WORDS_BIGENDIAN (PA_INT16_SWAP (int16_t sum))

/-- The case `PA_SAMPLE_S32NE` of `pa_mix`. -/
def mix_s32ne (P : Platform) : mix_codec where
  width := 4
  le_zero := fun x => decide (x ≤ 0)
  read := fun p ptr => int32_t (load_u32 P.WORDS_BIGENDIAN p ptr)
  scale := scale_int64
  add := fun sum v => int64_t (sum + v)
  write := fun sum linear =>
    let sum := PA_CLAMP_UNLIKELY sum (-0x80000000) 0x7FFFFFFF
    let sum := scale_int64 sum linear
    store_u32 P.WORDS_BIGENDIAN (int32_t sum)

/-- The case `PA_SAMPLE_S32RE` of `pa_mix`. -/
def mix_s32re (P : Platform) : mix_codec where
  width := 4
  le_zero := fun x => decide (x ≤ 0)
  read := fun p ptr => PA_INT32_SWAP (int32_t (load_u32 P.WORDS_BIGENDIAN p ptr))
  scale := scale_int64
  add := fun sum v => int64_t (sum + v)
  write := fun sum linear =>
    let sum := PA_CLAMP_UNLIKELY sum (-0x80000000) 0x7FFFFFFF
    let sum := scale_int64 sum linear
    store_u32 P.WORDS_BIGENDIAN (PA_INT32_SWAP (int32_t sum))

/-- The case `PA_SAMPLE_U8` of `pa_mix`. -/
def mix_u8 : mix_codec where
  width := 1
  le_zero := fun x => decide (x ≤ 0)
  read := fun p ptr => peek p ptr - 0x80
  scale := scale_int32
  add := fun sum v => int32_t (sum + v)
  write := fun sum linear =>
    let sum := scale_int32 sum linear
    let sum := PA_CLAMP_UNLIKELY sum (-0x80) 0x7F
    [uint8_t (sum + 0x80)]

/-- The case `PA_SAMPLE_ULAW` of `pa_mix`. -/
def mix_ulaw (P : Platform) : mix_codec where
  width := 1
  le_zero := fun x => decide (x ≤ 0)
  read := fun p ptr => int16_t (P.st_ulaw2linear16 (p.getD ptr 0))
  scale := scale_int32
  add := fun sum v => int32_t (sum + v)
  write := fun sum linear =>
    let sum := PA_CLAMP_UNLIKELY sum (-0x8000) 0x7FFF
    let sum := scale_int32 sum linear
    [uint8_t (P.st_14linear2ulaw (Int.fdiv sum 4))]

/-- The case `PA_SAMPLE_ALAW` of `pa_mix`. -/
def mix_alaw (P : Platform) : mix_codec where
  width := 1
  le_zero := fun x => decide (x ≤ 0)
  read := fun p ptr => int16_t (P.st_alaw2linear16 (p.getD ptr 0))
  scale := scale_int32
  add := fun sum v => int32_t (sum + v)
  write := fun sum linear =>
    let sum := PA_CLAMP_UNLIKELY sum (-0x8000) 0x7FFF
    let sum := scale_int32 sum linear
    [uint8_t (P.st_13linear2alaw (Int.fdiv sum 8))]

/-- The case `PA_SAMPLE_FLOAT32NE` of `pa_mix`. -/
def mix_float32ne (P : Platform) : mix_codec where
  width := 4
  le_zero := P.float_le_zero
  read := fun p ptr => load_u32 P.WORDS_BIGENDIAN p ptr
  scale := P.float_mul
  add := P.float_add
  write := fun sum linear => store_u32 P.WORDS_BIGENDIAN (P.float_mul sum linear)

/-- The case `PA_SAMPLE_FLOAT32RE` of `pa_mix`. -/
def mix_float32re (P : Platform) : mix_codec where
  width := 4
  le_zero := P.float_le_zero
  read := fun p ptr => PA_FLOAT32_SWAP (load_u32 P.WORDS_BIGENDIAN p ptr)
  scale := P.float_mul
  add := P.float_add
  write := fun sum linear =>
    store_u32 P.WORDS_BIGENDIAN (PA_FLOAT32_SWAP (P.float_mul sum linear))

/-- The statement `if (++channel >= spec->channels) channel = 0;`. -/
def next_channel (channels channel : Nat) : Nat :=
  if channel + 1 ≥ channels then 0 else channel + 1

/-- The value `v` that one stream adds to the sum of an output sample of `channel`:
zero when its gain or the master gain is not positive or when `mute` is set, the
scaled sample under its cursor otherwise. -/
def mix_term (K : mix_codec) (mute : Bool) (linear : Int) (channel : Nat)
    (m : pa_mix_info) : Int :=
  let cv := m.linear.getD channel 0
  if K.le_zero cv || mute || K.le_zero linear then 0
  else K.scale (K.read m.chunk.memblock.data m.ptr) cv

/-- The inner loop `for (i = 0; i < nstreams; i++)` of `pa_mix` at output offset `d`:
the accumulated sum and the streams with their cursors advanced, or `none` when a
stream is exhausted (`goto finish`). -/
def mix_streams (K : mix_codec) (mute : Bool) (linear : Int) (channel d : Nat) :
    List pa_mix_info → Int → Option (Int × List pa_mix_info)
  | [], sum => some (sum, [])
  | m :: ms, sum =>
    if d ≥ m.chunk.length then none
    else
      match mix_streams K mute linear channel d ms (K.add sum (mix_term K mute linear channel m)) with
      | none => none
      | some (sum, ms) => some (sum, { m with ptr := m.ptr + K.width } :: ms)

/-- The outer loop `for (d = 0;; d += width)` of `pa_mix`, run for at most the given
number of iterations: the offset `d` reached at `finish` and the bytes written to
`data`, or `none` when the iterations do not suffice. -/
def mix_loop (K : mix_codec) (mute : Bool) (linear : List Int) (channels length : Nat) :
    Nat → List pa_mix_info → Nat → Nat → List Byte → Option (Nat × List Byte)
  | 0, _, _, _, _ => none
  | fuel + 1, streams, d, channel, data =>
    if d ≥ length then some (d, data)
    else
      match mix_streams K mute (linear.getD channel 0) channel d streams 0 with
      | none => some (d, data)
      | some (sum, streams) =>
        mix_loop K mute linear channels length fuel streams (d + K.width)
          (next_channel channels channel) (data ++ K.write sum (linear.getD channel 0))

/-- The result of `pa_mix`: the returned length `d` and the bytes written to `data`,
in the order of their addresses. -/
structure mix_result where
  d : Nat
  data : List Byte
  deriving DecidableEq

/-- The `switch (spec->format)` of `pa_mix`: the case taken, with whether it is one of
the two float cases; `none` is the `default` case, which ends in
`pa_assert_not_reached()`. -/
def mix_case (P : Platform) (format : pa_sample_format_t) : Option (Bool × mix_codec) :=
  if format = PA_SAMPLE_S16NE P then some (false, mix_s16ne P)
  else if format = PA_SAMPLE_S16RE P then some (false, mix_s16re P)
  else if format = PA_SAMPLE_S32NE P then some (false, mix_s32ne P)
  else if format = PA_SAMPLE_S32RE P then some (false, mix_s32re P)
  else if format = PA_SAMPLE_U8 then some (false, mix_u8)
  else if format = PA_SAMPLE_ULAW then some (false, mix_ulaw P)
  else if format = PA_SAMPLE_ALAW then some (false, mix_alaw P)
  else if format = PA_SAMPLE_FLOAT32NE P then some (true, mix_float32ne P)
  else if format = PA_SAMPLE_FLOAT32RE P then some (true, mix_float32re P)
  else none

/-- The master gains `linear[]` that a case of `pa_mix` computes. -/
def mix_linear (P : Platform) (float : Bool) (volume : pa_cvolume) : List Int :=
  if float then calc_linear_float_volume P volume else calc_linear_integer_volume P volume

/-- The streams as a case of `pa_mix` sets them up: cursors at the start of the chunks
and gain caches filled. -/
def mix_setup (P : Platform) (float : Bool) (streams : List pa_mix_info)
    (spec : pa_sample_spec) : List pa_mix_info :=
  let streams := streams.map (fun m => { m with ptr := m.chunk.index })
  if float then calc_linear_float_stream_volumes P streams spec
  else calc_linear_integer_stream_volumes P streams spec

/-- The volume `pa_mix` works with: `full_volume` when the argument is a null pointer. -/
def mix_volume (P : Platform) (spec : pa_sample_spec) (volume : Option pa_cvolume) :
    pa_cvolume :=
  volume.getD (pa_cvolume_reset P spec.channels)

/-- The function `pa_mix`.  `volume` is `none` for a null pointer; the result is `none`
when an assertion fails. -/
def pa_mix (P : Platform) (streams : List pa_mix_info) (length : Nat)
    (spec : pa_sample_spec) (volume : Option pa_cvolume) (mute : Bool) :
    Option mix_result :=
  if length = 0 then none
  else
    match mix_case P spec.format with
    | none => none
    | some (float, K) =>
      (mix_loop K mute (mix_linear P float (mix_volume P spec volume)) spec.channels length
        (length + 1) (mix_setup P float streams spec) 0 0 []).map
        (fun r => { d := r.1, data := r.2 })

/-! ## The chunk volume scaler -/

/-- The sample loops `for (channel = 0, d = ptr; d < e; d++)` of `pa_volume_memchunk`:
`step` gives the bytes stored over the sample at the cursor, from the block, the cursor
and the gain of the current channel; the first argument counts the samples up to `e`. -/
def volume_loop (width : Nat) (step : List Byte → Nat → Int → List Byte)
    (linear : List Int) (channels : Nat) : Nat → List Byte → Nat → Nat → List Byte
  | 0, p, _, _ => p
  | n + 1, p, d, channel =>
    volume_loop width step linear channels n (poke p d (step p d (linear.getD channel 0)))
      (d + width) (next_channel channels channel)

/-- The body of the case `PA_SAMPLE_S16NE` of `pa_volume_memchunk`. -/
def volume_s16ne (P : Platform) (p : List Byte) (d : Nat) (linear : Int) : List Byte :=
  let t := int16_t (load_u16 P.WORDS_BIGENDIAN p d)
  let t := scale_int32 t linear
  let t := PA_CLAMP_UNLIKELY t (-0x8000) 0x7FFF
  store_u16 P.WORDS_BIGENDIAN (int16_t t)

/-- The body of the case `PA_SAMPLE_S16RE` of `pa_volume_memchunk`. -/
def volume_s16re (P : Platform) (p : List Byte) (d : Nat) (linear : Int) : List Byte :=
  let t := PA_INT16_SWAP (int16_t (load_u16 P.WORDS_BIGENDIAN p d))
  let t := scale_int32 t linear
  let t := PA_CLAMP_UNLIKELY t (-0x8000) 0x7FFF
  store_u16 P.WORDS_BIGENDIAN (PA_INT16_SWAP (int16_t t))

/-- The body of the case `PA_SAMPLE_S32NE` of `pa_volume_memchunk`. -/
def volume_s32ne (P : Platform) (p : List Byte) (d : Nat) (linear : Int) : List Byte :=
  let t := int32_t (load_u32 P.WORDS_BIGENDIAN p d)
  let t := scale_int64 t linear
  let t := PA_CLAMP_UNLIKELY t (-0x80000000) 0x7FFFFFFF
  store_u32 P.WORDS_BIGENDIAN (int32_t t)

/-- The body of the case `PA_SAMPLE_S32RE` of `pa_volume_memchunk`. -/
def volume_s32re (P : Platform) (p : List Byte) (d : Nat) (linear : Int) : List Byte :=
  let t := PA_INT32_SWAP (int32_t (load_u32 P.WORDS_BIGENDIAN p d))
  let t := scale_int64 t linear
  let t := PA_CLAMP_UNLIKELY t (-0x80000000) 0x7FFFFFFF
  store_u32 P.WORDS_BIGENDIAN (PA_INT32_SWAP (int32_t t))

/-- The body of the case `PA_SAMPLE_U8` of `pa_volume_memchunk`. -/
def volume_u8 (p : List Byte) (d : Nat) (linear : Int) : List Byte :=
  let t := peek p d - 0x80
  let t := scale_int32 t linear
  let t := PA_CLAMP_UNLIKELY t (-0x80) 0x7F
  [uint8_t (t + 0x80)]

/-- The body of the case `PA_SAMPLE_ULAW` of `pa_volume_memchunk`. -/
def volume_ulaw (P : Platform) (p : List Byte) (d : Nat) (linear : Int) : List Byte :=
  let t := int16_t (P.st_ulaw2linear16 (p.getD d 0))
  let t := scale_int32 t linear
  let t := PA_CLAMP_UNLIKELY t (-0x8000) 0x7FFF
  [uint8_t (P.st_14linear2ulaw (Int.fdiv t 4))]

/-- The body of the case `PA_SAMPLE_ALAW` of `pa_volume_memchunk`. -/
def volume_alaw (P : Platform) (p : List Byte) (d : Nat) (linear : Int) : List Byte :=
  let t := int16_t (P.st_alaw2linear16 (p.getD d 0))
  let t := scale_int32 t linear
  let t := PA_CLAMP_UNLIKELY t (-0x8000) 0x7FFF
  [uint8_t (P.st_13linear2alaw (Int.fdiv t 8))]

/-- The body of the case `PA_SAMPLE_FLOAT32RE` of `pa_volume_memchunk`. -/
def volume_float32re (P : Platform) (p : List Byte) (d : Nat) (linear : Int) : List Byte :=
  let t := PA_FLOAT32_SWAP (load_u32 P.WORDS_BIGENDIAN p d)
  let t := P.float_mul t linear
  store_u32 P.WORDS_BIGENDIAN (PA_FLOAT32_SWAP t)

/-- Modelled from the spec: the liboil primitive `oil_scalarmult_f32(t, skip, t, skip,
&v, n)`, which is not part of this file; it multiplies by `v` each of the `n` floats
found from offset `t` on at a stride of `skip` bytes. -/
def oil_scalarmult_f32 (P : Platform) (skip : Nat) (v : Int) :
    Nat → List Byte → Nat → List Byte
  | 0, p, _ => p
  | n + 1, p, t =>
    oil_scalarmult_f32 P skip v n
      (poke p t (store_u32 P.WORDS_BIGENDIAN (P.float_mul (load_u32 P.WORDS_BIGENDIAN p t) v)))
      (t + skip)

/-- The channel loop of the case `PA_SAMPLE_FLOAT32NE` of `pa_volume_memchunk`; the
first argument counts the channels still to be visited. -/
def volume_float32ne (P : Platform) (volume : pa_cvolume) (ptr skip n : Nat) :
    Nat → Nat → List Byte → List Byte
  | 0, _, p => p
  | k + 1, channel, p =>
    if volume.values channel = P.PA_VOLUME_NORM then
      volume_float32ne P volume ptr skip n k (channel + 1) p
    else
      volume_float32ne P volume ptr skip n k (channel + 1)
        (oil_scalarmult_f32 P skip (P.pa_sw_volume_to_linear_float (volume.values channel))
          n p (ptr + channel * 4))

/-- The `switch` of `pa_volume_memchunk`: the bytes of the block after the general
scaling path has run over the chunk. -/
def volume_switch (P : Platform) (c : pa_memchunk) (spec : pa_sample_spec)
    (volume : pa_cvolume) : List Byte :=
  let p := c.memblock.data
  let integer (width : Nat) (step : List Byte → Nat → Int → List Byte) : List Byte :=
    volume_loop width step (calc_linear_integer_volume P volume) spec.channels
      (c.length / width) p c.index 0
  if spec.format = PA_SAMPLE_S16NE P then integer 2 (volume_s16ne P)
  else if spec.format = PA_SAMPLE_S16RE P then integer 2 (volume_s16re P)
  else if spec.format = PA_SAMPLE_S32NE P then integer 4 (volume_s32ne P)
  else if spec.format = PA_SAMPLE_S32RE P then integer 4 (volume_s32re P)
  else if spec.format = PA_SAMPLE_U8 then integer 1 volume_u8
  else if spec.format = PA_SAMPLE_ULAW then integer 1 (volume_ulaw P)
  else if spec.format = PA_SAMPLE_ALAW then integer 1 (volume_alaw P)
  else if spec.format = PA_SAMPLE_FLOAT32NE P then
    volume_float32ne P volume c.index (spec.channels * 4) (c.length / 4 / spec.channels)
      spec.channels 0 p
  else if spec.format = PA_SAMPLE_FLOAT32RE P then
    volume_loop 4 (volume_float32re P) (calc_linear_float_volume P volume) spec.channels
      (c.length / 4) p c.index 0
  else p

/-- The function `pa_volume_memchunk`: the chunk after the call, or `none` when an
assertion fails. -/
def pa_volume_memchunk (P : Platform) (c : pa_memchunk) (spec : pa_sample_spec)
    (volume : pa_cvolume) : Option pa_memchunk :=
  if c.length % P.pa_frame_size spec ≠ 0 then none
  else if c.memblock.is_silence then some c
  else if pa_cvolume_channels_equal_to volume P.PA_VOLUME_NORM then some c
  else if pa_cvolume_channels_equal_to volume P.PA_VOLUME_MUTED then pa_silence_memchunk c spec
  else some { c with memblock := { c.memblock with data := volume_switch P c spec volume } }

/-! ## A concrete platform -/

/-- The width in bytes of one sample of the given encoding. -/
def sample_width (format : pa_sample_format_t) : Nat :=
  match format with
  | PA_SAMPLE_U8 => 1
  | PA_SAMPLE_ALAW => 1
  | PA_SAMPLE_ULAW => 1
  | PA_SAMPLE_S16LE => 2
  | PA_SAMPLE_S16BE => 2
  | PA_SAMPLE_FLOAT32LE => 4
  | PA_SAMPLE_FLOAT32BE => 4
  | PA_SAMPLE_S32LE => 4
  | PA_SAMPLE_S32BE => 4
  | PA_SAMPLE_MAX => 0

/-- A little-endian host on which a volume is its own 16.16 gain, unity is `0x10000`
and mute is `0`; the float unit and the companding tables are trivial. -/
def little_endian_host : Platform where
  WORDS_BIGENDIAN := false
  PA_VOLUME_NORM := 0x10000
  PA_VOLUME_MUTED := 0
  pa_frame_size := fun spec => sample_width spec.format * spec.channels
  pa_sw_volume_to_linear_fixed := fun v => (v : Int)
  pa_sw_volume_to_linear_float := fun v => (v : Int)
  float_add := fun a _ => a
  float_mul := fun a _ => a
  float_le_zero := fun a => decide (a ≤ 0)
  st_ulaw2linear16 := fun _ => 0
  st_alaw2linear16 := fun _ => 0
  st_14linear2ulaw := fun _ => 0xff
  st_13linear2alaw := fun _ => 0xd5

/-- A 16-bit stereo sample specification. -/
def stereo_s16le : pa_sample_spec :=
  { format := PA_SAMPLE_S16LE, rate := 44100, channels := 2 }

/-- A stream over the given bytes with the same volume on every channel. -/
def stream_of (bytes : List Byte) (length volume : Nat) : pa_mix_info :=
  { chunk := { memblock := { data := bytes, is_silence := false }, index := 0, length := length },
    volume := { channels := 2, values := fun _ => volume },
    linear := [],
    ptr := 0 }

/-! ## Closed forms

The definitions below are not in the source; they describe what the loops compute and
are related to the loops by the theorems further down. -/

/-- The sum that the inner loop of `pa_mix` accumulates over the streams. -/
def mix_sum (K : mix_codec) (mute : Bool) (linear : Int) (channel : Nat)
    (streams : List pa_mix_info) : Int :=
  streams.foldl (fun sum m => K.add sum (mix_term K mute linear channel m)) 0

/-- The streams with every cursor moved forward by `k` samples of `width` bytes. -/
def shift_streams (width k : Nat) (streams : List pa_mix_info) : List pa_mix_info :=
  streams.map (fun m => { m with ptr := m.ptr + k * width })

/-- The least of the output length and the chunk lengths of the streams. -/
def mix_limit (length : Nat) (streams : List pa_mix_info) : Nat :=
  streams.foldr (fun m a => min m.chunk.length a) length

/-- The number of samples of `width` bytes needed to cover `mix_limit` bytes. -/
def mix_count (width length : Nat) (streams : List pa_mix_info) : Nat :=
  (mix_limit length streams + width - 1) / width

/-- The channel of the `k`-th sample of an interleaved buffer. -/
def channel_at (channels k : Nat) : Nat :=
  if channels = 0 then 0 else k % channels

/-- The bytes of the `k`-th output sample of the mixer. -/
def mix_sample (K : mix_codec) (mute : Bool) (linear : List Int) (channels : Nat)
    (streams : List pa_mix_info) (k : Nat) : List Byte :=
  K.write
    (mix_sum K mute (linear.getD (channel_at channels k) 0) (channel_at channels k)
      (shift_streams K.width k streams))
    (linear.getD (channel_at channels k) 0)

/-- The `k`-th sample of `width` bytes of a buffer. -/
def sample_at (width : Nat) (data : List Byte) (k : Nat) : List Byte :=
  (data.drop (k * width)).take width

/-- The gain `m->linear[channel].i` that `calc_linear_integer_stream_volumes` caches for
a stream. -/
def stream_gain (P : Platform) (m : pa_mix_info) (channel : Nat) : Int :=
  int32_t (P.pa_sw_volume_to_linear_fixed (m.volume.values channel))

/-- The master gain `linear[channel]` of the integer cases of `pa_mix`. -/
def master_gain (P : Platform) (spec : pa_sample_spec) (volume : Option pa_cvolume)
    (channel : Nat) : Int :=
  (calc_linear_integer_volume P (mix_volume P spec volume)).getD channel 0

/-- The `k`-th sample of a stream as a case of `pa_mix` decodes it. -/
def stream_sample (K : mix_codec) (m : pa_mix_info) (k : Nat) : Int :=
  K.read m.chunk.memblock.data (m.chunk.index + k * K.width)

/-- The integer PCM encodings: unsigned 8 bit and signed 16 and 32 bit of either byte
order. -/
def integer_pcm (format : pa_sample_format_t) : Bool :=
  match format with
  | PA_SAMPLE_U8 => true
  | PA_SAMPLE_S16LE => true
  | PA_SAMPLE_S16BE => true
  | PA_SAMPLE_S32LE => true
  | PA_SAMPLE_S32BE => true
  | _ => false

/-- The `k`-th sample of a stream, decoded as the case of `pa_mix` for the given
encoding decodes it (zero for an encoding without a case). -/
def pcm_sample (P : Platform) (format : pa_sample_format_t) (m : pa_mix_info) (k : Nat) :
    Int :=
  match mix_case P format with
  | some (_, K) => stream_sample K m k
  | none => 0

/-- The least sample value of an integer PCM encoding. -/
def native_min (format : pa_sample_format_t) : Int :=
  match format with
  | PA_SAMPLE_U8 => -0x80
  | PA_SAMPLE_S16LE => -0x8000
  | PA_SAMPLE_S16BE => -0x8000
  | PA_SAMPLE_S32LE => -0x80000000
  | PA_SAMPLE_S32BE => -0x80000000
  | _ => 0

/-- The greatest sample value of an integer PCM encoding. -/
def native_max (format : pa_sample_format_t) : Int :=
  match format with
  | PA_SAMPLE_U8 => 0x7F
  | PA_SAMPLE_S16LE => 0x7FFF
  | PA_SAMPLE_S16BE => 0x7FFF
  | PA_SAMPLE_S32LE => 0x7FFFFFFF
  | PA_SAMPLE_S32BE => 0x7FFFFFFF
  | _ => 0

/-- A 32-bit stereo sample specification. -/
def stereo_s32le : pa_sample_spec :=
  { format := PA_SAMPLE_S32LE, rate := 44100, channels := 2 }

/-- An 8-bit stereo sample specification. -/
def stereo_u8 : pa_sample_spec :=
  { format := PA_SAMPLE_U8, rate := 44100, channels := 2 }

/-- A volume with the same value on each of two channels. -/
def stereo_volume (volume : Nat) : pa_cvolume :=
  { channels := 2, values := fun _ => volume }

/-- A chunk over the given bytes, in a block that is not flagged as silence. -/
def chunk_of (bytes : List Byte) (index length : Nat) : pa_memchunk :=
  { memblock := { data := bytes, is_silence := false }, index := index, length := length }

/-- Two 16-bit stereo streams at unity gain, of two frames and of one frame. -/
def two_streams : List pa_mix_info :=
  [stream_of [1, 0, 2, 0, 3, 0, 4, 0] 8 0x10000, stream_of [5, 0, 6, 0] 4 0x10000]

/-- Three 16-bit streams at unity gain whose first sample is +32767. -/
def three_loud_streams : List pa_mix_info :=
  [stream_of [0xff, 0x7f] 2 0x10000, stream_of [0xff, 0x7f] 2 0x10000,
   stream_of [0xff, 0x7f] 2 0x10000]

/-- Two silent 16-bit stereo streams of one frame, at different gains. -/
def two_silent_streams : List pa_mix_info :=
  [stream_of [0, 0, 0, 0] 4 0x10000, stream_of [0, 0, 0, 0] 4 0x8000]

/-- A 16-bit stereo stream of four frames at unity gain. -/
def four_frames_unity : pa_mix_info :=
  stream_of [1, 0, 2, 0, 3, 0, 4, 0, 5, 0, 6, 0, 7, 0, 8, 0] 16 0x10000

/-- A 16-bit stereo stream of four frames at half-scale gain. -/
def four_frames_half : pa_mix_info :=
  stream_of [3, 0, 0xfd, 0xff, 5, 0, 7, 0, 9, 0, 11, 0, 13, 0, 15, 0] 16 0x8000

/-! ## Frame alignment -/

/-- The function `pa_frame_align`: `(l/fs) * fs` for the frame size `fs` of the spec.
A frame size of 0, on which the C code divides by zero, is outside the domain of the
theorems below. -/
def pa_frame_align (P : Platform) (l : Nat) (ss : pa_sample_spec) : Nat :=
  (l / P.pa_frame_size ss) * P.pa_frame_size ss

/-- The function `pa_frame_aligned`. -/
def pa_frame_aligned (P : Platform) (l : Nat) (ss : pa_sample_spec) : Bool :=
  l % P.pa_frame_size ss == 0

/-- A host like `little_endian_host` on which `pa_frame_size` answers 1 for every
spec, also for one whose encoding it does not know. -/
def byte_frame_host : Platform :=
  { little_endian_host with pa_frame_size := fun _ => 1 }

/-- A stereo spec whose encoding is none of the supported ones. -/
def stereo_unsupported : pa_sample_spec :=
  { format := PA_SAMPLE_MAX, rate := 44100, channels := 2 }

/-- An A-law mono sample specification. -/
def mono_alaw : pa_sample_spec :=
  { format := PA_SAMPLE_ALAW, rate := 8000, channels := 1 }

/-! ## The legacy file `src/sample-util.c` -/

namespace Legacy

/-- The sample encodings of the legacy file; `PA_SAMPLE_MAX` stands for every value
that takes the `default` branch of its switches. -/
inductive pa_sample_format where
  | PA_SAMPLE_U8
  | PA_SAMPLE_ALAW
  | PA_SAMPLE_ULAW
  | PA_SAMPLE_S16LE
  | PA_SAMPLE_S16BE
  | PA_SAMPLE_FLOAT32
  | PA_SAMPLE_MAX
  deriving DecidableEq

/-- The legacy function `silence_memory` on the block that holds `p`, which starts at
offset `off`; `none` is a failed `assert`.  The fill value is the `char c` of the
source: 127 for unsigned 8 bit, 0 for the 16-bit and float encodings, 80 for the two
companded ones. -/
def silence_memory (p : List Byte) (off length : Nat) (format : pa_sample_format) :
    Option (List Byte) :=
  if length = 0 then none
  else
    match format with
    | .PA_SAMPLE_U8 => some (memset p off 127 length)
    | .PA_SAMPLE_S16LE => some (memset p off 0 length)
    | .PA_SAMPLE_S16BE => some (memset p off 0 length)
    | .PA_SAMPLE_FLOAT32 => some (memset p off 0 length)
    | .PA_SAMPLE_ALAW => some (memset p off 80 length)
    | .PA_SAMPLE_ULAW => some (memset p off 80 length)
    | .PA_SAMPLE_MAX => none

/-- The legacy function `volume_multiply`; `VOLUME_NORM` is a constant of the legacy
header, which is not part of the sources.  The arguments are converted to `uint32_t`,
the product is taken in a `uint64_t` and the quotient is converted to `uint32_t`. -/
def volume_multiply (VOLUME_NORM : Nat) (a b : Nat) : Nat :=
  (((a % 0x100000000) * (b % 0x100000000)) % 0x10000000000000000 / VOLUME_NORM)
    % 0x100000000

end Legacy

/-! ## The silence cache -/

/-- A block allocated from a pool, with its reference count. -/
structure pool_block where
  block : pa_memblock
  refs : Nat
  deriving DecidableEq

/-- Modelled from the spec: the memory pool of `memblock.h`, which is not part of this
file; it owns the blocks allocated from it and knows its maximum block size.  A
`pa_memblock*` obtained from the pool is the position of the block in `blocks`. -/
structure pa_mempool where
  block_size_max : Nat
  blocks : List pool_block
  deriving DecidableEq

/-- A chunk that refers to a block of a pool by its pointer. -/
structure pa_memchunk_ptr where
  memblock : Nat
  index : Nat
  length : Nat
  deriving DecidableEq

/-- The silence cache: the array `blocks[PA_SAMPLE_MAX]` of block pointers, `none` for
a null pointer. -/
structure pa_silence_cache where
  blocks : pa_sample_format_t → Option Nat

/-- The assignment `cache->blocks[format] = b`. -/
def cache_set (cache : pa_silence_cache) (format : pa_sample_format_t) (b : Nat) :
    pa_silence_cache :=
  { blocks := fun f => if f = format then some b else cache.blocks f }

/-- Modelled from the spec: `pa_mempool_block_size_max` of `memblock.h`. -/
def pa_mempool_block_size_max (pool : pa_mempool) : Nat := pool.block_size_max

/-- Modelled from the spec: `pa_memblock_new` of `memblock.h`; it allocates a block of
the given length, referenced once, and returns the pool with the pointer to the block. -/
def pa_memblock_new (pool : pa_mempool) (length : Nat) : pa_mempool × Nat :=
  ({ pool with blocks := pool.blocks ++
      [{ block := { data := List.replicate length 0, is_silence := false }, refs := 1 }] },
   pool.blocks.length)

/-- The pool after the block behind the pointer `b` has been replaced. -/
def pool_set (pool : pa_mempool) (b : Nat) (x : pool_block) : pa_mempool :=
  { pool with blocks := pool.blocks.set b x }

/-- Modelled from the spec: `pa_memblock_ref` of `memblock.h`; it adds one reference to
the block. -/
def pa_memblock_ref (pool : pa_mempool) (b : Nat) : pa_mempool :=
  match pool.blocks.get? b with
  | some x => pool_set pool b { block := x.block, refs := x.refs + 1 }
  | none => pool

/-- Modelled from the spec: `pa_memblock_get_length` of `memblock.h`. -/
def pa_memblock_get_length (pool : pa_mempool) (b : Nat) : Nat :=
  match pool.blocks.get? b with
  | some x => x.block.data.length
  | none => 0

/-- Modelled from the spec: `pa_sample_spec_valid` of `sample.h`, which is not part of
this file; a spec is valid when its encoding is one of the supported set and its
channel count is positive. -/
def pa_sample_spec_valid (spec : pa_sample_spec) : Bool :=
  decide (spec.format ≠ PA_SAMPLE_MAX) && decide (0 < spec.channels)

/-- The macro `PA_SILENCE_MAX`; the page size is a constant of `macro.h`, which is not
part of this file. -/
def PA_SILENCE_MAX (PA_PAGE_SIZE : Nat) : Nat := PA_PAGE_SIZE * 16

/-- The static function `silence_memblock_new`: a new block of the pool, filled with
the byte `c` and flagged as silence. -/
def silence_memblock_new (PA_PAGE_SIZE : Nat) (pool : pa_mempool) (c : Byte) :
    pa_mempool × Nat :=
  let length := min (pa_mempool_block_size_max pool) (PA_SILENCE_MAX PA_PAGE_SIZE)
  let r := pa_memblock_new pool length
  match r.1.blocks.get? r.2 with
  | some x =>
    (pool_set r.1 r.2
      { block := { data := memset x.block.data 0 c length, is_silence := true },
        refs := x.refs }, r.2)
  | none => r

/-- The function `pa_silence_cache_init`. -/
def pa_silence_cache_init : pa_silence_cache := { blocks := fun _ => none }

/-- The encodings whose silence is the zero byte, which share one cached block. -/
def zero_pattern (format : pa_sample_format_t) : Bool :=
  match format with
  | PA_SAMPLE_S16LE => true
  | PA_SAMPLE_S16BE => true
  | PA_SAMPLE_S32LE => true
  | PA_SAMPLE_S32BE => true
  | PA_SAMPLE_FLOAT32LE => true
  | PA_SAMPLE_FLOAT32BE => true
  | _ => false

/-- The `switch` of `pa_silence_memchunk_get`, taken when the slot of the encoding is
empty: the cache, the pool and the block `b` after it; `none` is
`pa_assert_not_reached()`. -/
def silence_cache_fill (PA_PAGE_SIZE : Nat) (cache : pa_silence_cache) (pool : pa_mempool)
    (format : pa_sample_format_t) : Option (pa_silence_cache × pa_mempool × Nat) :=
  let zero : Option (pa_silence_cache × pa_mempool × Nat) :=
    let r := silence_memblock_new PA_PAGE_SIZE pool 0
    let cache := cache_set cache PA_SAMPLE_S16LE r.2
    let pool := pa_memblock_ref r.1 r.2
    let cache := cache_set cache PA_SAMPLE_S16BE r.2
    let pool := pa_memblock_ref pool r.2
    let cache := cache_set cache PA_SAMPLE_S32LE r.2
    let pool := pa_memblock_ref pool r.2
    let cache := cache_set cache PA_SAMPLE_S32BE r.2
    let pool := pa_memblock_ref pool r.2
    let cache := cache_set cache PA_SAMPLE_FLOAT32LE r.2
    let pool := pa_memblock_ref pool r.2
    let cache := cache_set cache PA_SAMPLE_FLOAT32BE r.2
    some (cache, pool, r.2)
  match format with
  | PA_SAMPLE_U8 =>
    let r := silence_memblock_new PA_PAGE_SIZE pool 0x80
    some (cache_set cache PA_SAMPLE_U8 r.2, r.1, r.2)
  | PA_SAMPLE_S16LE => zero
  | PA_SAMPLE_S16BE => zero
  | PA_SAMPLE_S32LE => zero
  | PA_SAMPLE_S32BE => zero
  | PA_SAMPLE_FLOAT32LE => zero
  | PA_SAMPLE_FLOAT32BE => zero
  | PA_SAMPLE_ALAW =>
    let r := silence_memblock_new PA_PAGE_SIZE pool 0xd5
    some (cache_set cache PA_SAMPLE_ALAW r.2, r.1, r.2)
  | PA_SAMPLE_ULAW =>
    let r := silence_memblock_new PA_PAGE_SIZE pool 0xff
    some (cache_set cache PA_SAMPLE_ULAW r.2, r.1, r.2)
  | PA_SAMPLE_MAX => none

/-- The function `pa_silence_memchunk_get`: the cache and the pool after the call and
the chunk stored in `ret`; `none` is a failed assertion. -/
def pa_silence_memchunk_get (P : Platform) (PA_PAGE_SIZE : Nat) (cache : pa_silence_cache)
    (pool : pa_mempool) (spec : pa_sample_spec) (length : Nat) :
    Option (pa_silence_cache × pa_mempool × pa_memchunk_ptr) :=
  if pa_sample_spec_valid spec = false then none
  else
    let found : Option (pa_silence_cache × pa_mempool × Nat) :=
      match cache.blocks spec.format with
      | some b => some (cache, pool, b)
      | none => silence_cache_fill PA_PAGE_SIZE cache pool spec.format
    match found with
    | none => none
    | some (cache, pool, b) =>
      let pool := pa_memblock_ref pool b
      let l := pa_memblock_get_length pool b
      let length := if length > l ∨ length = 0 then l else length
      some (cache, pool, { memblock := b, index := 0, length := pa_frame_align P length spec })

/-- A sequence of calls of `pa_silence_memchunk_get`, each given by its spec and its
requested length: the cache and the pool after the last call and the chunks returned,
in order. -/
def silence_cache_run (P : Platform) (PA_PAGE_SIZE : Nat) :
    pa_silence_cache → pa_mempool → List (pa_sample_spec × Nat) →
      Option (pa_silence_cache × pa_mempool × List pa_memchunk_ptr)
  | cache, pool, [] => some (cache, pool, [])
  | cache, pool, r :: rest =>
    match pa_silence_memchunk_get P PA_PAGE_SIZE cache pool r.1 r.2 with
    | none => none
    | some (cache, pool, chunk) =>
      match silence_cache_run P PA_PAGE_SIZE cache pool rest with
      | none => none
      | some (cache, pool, chunks) => some (cache, pool, chunk :: chunks)

/-- A pool of blocks of at most 8 bytes that holds no block yet. -/
def small_pool : pa_mempool := { block_size_max := 8, blocks := [] }

/-- A 16-bit big-endian stereo sample specification. -/
def stereo_s16be : pa_sample_spec :=
  { format := PA_SAMPLE_S16BE, rate := 44100, channels := 2 }

/-- Whether the slot of the encoding `g` is assigned when the slot of `format` is
filled: the slot itself, and all six zero-pattern slots together. -/
def same_slot (format g : pa_sample_format_t) : Bool :=
  (zero_pattern format && zero_pattern g) || decide (g = format)

/-- Every pointer held by the cache points to a block of the pool. -/
def cache_wf (cache : pa_silence_cache) (pool : pa_mempool) : Prop :=
  ∀ f b, cache.blocks f = some b → b < pool.blocks.length

/-- The six zero-pattern slots hold the same pointer, which no other slot holds. -/
def cache_aliased (cache : pa_silence_cache) : Prop :=
  (∀ f g, zero_pattern f = true → zero_pattern g = true → cache.blocks f = cache.blocks g) ∧
  (∀ f g b, zero_pattern f = true → zero_pattern g = false → cache.blocks f = some b →
    cache.blocks g ≠ some b)

/-! ## Layout utilities -/

/-- Modelled from the spec: the liboil primitive `oil_memcpy(dst + d, src + s, n)`,
which is not part of this file; it copies `n` bytes. -/
def oil_memcpy (dst : List Byte) (d : Nat) (src : List Byte) (s n : Nat) : List Byte :=
  poke dst d ((List.range n).map (fun i => src.getD (s + i) 0))

/-- The inner loops `for (j = 0; j < n; j ++)` of `pa_interleave` and `pa_deinterleave`:
each turn copies `ss` bytes from the source cursor `s` to the destination cursor `d`
and advances the cursors by `sstep` and `dstep`; the first argument counts the turns
left. -/
def copy_frames (src : List Byte) (ss sstep dstep : Nat) :
    Nat → List Byte → Nat → Nat → List Byte
  | 0, dst, _, _ => dst
  | j + 1, dst, s, d =>
    copy_frames src ss sstep dstep j (oil_memcpy dst d src s ss) (s + sstep) (d + dstep)

/-- The outer loop `for (c = 0; c < channels; c++)` of `pa_interleave`; the first
argument counts the channels left. -/
def interleave_channels (src : List (List Byte)) (ss n fs : Nat) :
    Nat → Nat → List Byte → List Byte
  | 0, _, dst => dst
  | r + 1, c, dst =>
    interleave_channels src ss n fs r (c + 1)
      (copy_frames (src.getD c []) ss ss fs n dst 0 (c * ss))

/-- The function `pa_interleave`: the buffer `dst` after the call; `src` holds the
per-channel buffers; `none` is a failed assertion. -/
def pa_interleave (src : List (List Byte)) (channels : Nat) (dst : List Byte) (ss n : Nat) :
    Option (List Byte) :=
  if channels = 0 ∨ ss = 0 ∨ n = 0 then none
  else some (interleave_channels src ss n (ss * channels) channels 0 dst)

/-- The outer loop `for (c = 0; c < channels; c++)` of `pa_deinterleave`; the first
argument counts the channels left. -/
def deinterleave_channels (src : List Byte) (ss n fs : Nat) :
    Nat → Nat → List (List Byte) → List (List Byte)
  | 0, _, dst => dst
  | r + 1, c, dst =>
    deinterleave_channels src ss n fs r (c + 1)
      (dst.set c (copy_frames src ss fs ss n (dst.getD c []) (c * ss) 0))

/-- The function `pa_deinterleave`: the per-channel buffers `dst` after the call;
`none` is a failed assertion. -/
def pa_deinterleave (src : List Byte) (dst : List (List Byte)) (channels ss n : Nat) :
    Option (List (List Byte)) :=
  if channels = 0 ∨ ss = 0 ∨ n = 0 then none
  else some (deinterleave_channels src ss n (ss * channels) channels 0 dst)

/-- The one-entry stream array that hands a chunk and a volume to `pa_mix`; the gain
cache and the cursor are scratch fields that `pa_mix` fills itself. -/
def single_stream (c : pa_memchunk) (volume : pa_cvolume) : pa_mix_info :=
  { chunk := c, volume := volume, linear := [], ptr := 0 }

/-! ## Memory accesses of the mixer -/

/-- One access of `pa_mix` to sample memory: the load of a sample through the cursor
`m->ptr` of the stream at the given position of the array (the cursor as an offset in
the block of the stream), or the store of a sample through `data` (as an offset from
the start of the output). -/
inductive mix_access where
  | read (stream : Nat) (ptr : Nat)
  | write (offset : Nat)
  deriving DecidableEq

/-- The loads of the inner loop `for (i = 0; i < nstreams; i++)` of `pa_mix` at output
offset `d`, from stream `i` on: a stream is read through its cursor unless its gain or
the master gain is not positive or `mute` is set; the loop ends at the first exhausted
stream (`goto finish`). -/
def mix_streams_reads (K : mix_codec) (mute : Bool) (linear : Int) (channel d : Nat) :
    Nat → List pa_mix_info → List mix_access
  | _, [] => []
  | i, m :: ms =>
    if d ≥ m.chunk.length then []
    else
      (if K.le_zero (m.linear.getD channel 0) || mute || K.le_zero linear then []
        else [mix_access.read i m.ptr])
        ++ mix_streams_reads K mute linear channel d (i + 1) ms

/-- The outer loop of `pa_mix` as in `mix_loop`, together with the accesses made: the
loads of each turn of the inner loop and, when no stream is exhausted, the store at the
output cursor, which has advanced by the bytes written so far. -/
def mix_loop_traced (K : mix_codec) (mute : Bool) (linear : List Int)
    (channels length : Nat) :
    Nat → List pa_mix_info → Nat → Nat → List Byte → List mix_access →
      Option (Nat × List Byte × List mix_access)
  | 0, _, _, _, _, _ => none
  | fuel + 1, streams, d, channel, data, trace =>
    if d ≥ length then some (d, data, trace)
    else
      match mix_streams K mute (linear.getD channel 0) channel d streams 0 with
      | none =>
        some (d, data,
          trace ++ mix_streams_reads K mute (linear.getD channel 0) channel d 0 streams)
      | some (sum, next) =>
        mix_loop_traced K mute linear channels length fuel next (d + K.width)
          (next_channel channels channel) (data ++ K.write sum (linear.getD channel 0))
          (trace ++ mix_streams_reads K mute (linear.getD channel 0) channel d 0 streams
            ++ [mix_access.write data.length])

/-- The function `pa_mix` as in the definition `pa_mix`, together with the accesses it
makes to the blocks of the streams and to the output. -/
def pa_mix_traced (P : Platform) (streams : List pa_mix_info) (length : Nat)
    (spec : pa_sample_spec) (volume : Option pa_cvolume) (mute : Bool) :
    Option (mix_result × List mix_access) :=
  if length = 0 then none
  else
    match mix_case P spec.format with
    | none => none
    | some (float, K) =>
      (mix_loop_traced K mute (mix_linear P float (mix_volume P spec volume)) spec.channels
        length (length + 1) (mix_setup P float streams spec) 0 0 [] []).map
        (fun r => ({ d := r.1, data := r.2.1 }, r.2.2))

/-- An access stays within the declared lengths: a load of `width` bytes lies inside
the chunk of its stream, a store of `width` bytes inside the first `length` bytes of
the output. -/
def access_in_bounds (width length : Nat) (streams : List pa_mix_info) :
    mix_access → Prop
  | .read i ptr =>
    ∃ m, streams[i]? = some m ∧ m.chunk.index ≤ ptr
      ∧ ptr + width ≤ m.chunk.index + m.chunk.length
  | .write offset => offset + width ≤ length

/-! ## Byte-swapped streams -/

/-- The block in which each of the `n` samples of `width` bytes that start at offset
`index` has its bytes in reverse order; the other bytes stay. -/
def swap_samples (width : Nat) (data : List Byte) (index n : Nat) : List Byte :=
  (List.range data.length).map (fun i =>
    if index ≤ i ∧ i < index + n * width then
      data.getD (index + (i - index) / width * width + (width - 1 - (i - index) % width)) 0
    else data.getD i 0)

/-- The stream whose chunk holds the samples of the chunk of `m`, each with its bytes in
reverse order. -/
def swap_stream (width : Nat) (m : pa_mix_info) : pa_mix_info :=
  { chunk :=
      { memblock :=
          { data := swap_samples width m.chunk.memblock.data m.chunk.index
              (m.chunk.length / width),
            is_silence := m.chunk.memblock.is_silence },
        index := m.chunk.index,
        length := m.chunk.length },
    volume := m.volume,
    linear := m.linear,
    ptr := m.ptr }

/-- The result of the mixer with the bytes of each output sample in reverse order. -/
def swap_result (width : Nat) (r : mix_result) : mix_result :=
  { d := r.d, data := swap_samples width r.data 0 (r.d / width) }

/-! ## Reference counts of the silence cache -/

/-- Modelled from the spec: `pa_memblock_unref` of `memblock.h`, which is not part of
this file; it drops one reference to the block. -/
def pa_memblock_unref (pool : pa_mempool) (b : Nat) : pa_mempool :=
  match pool.blocks.get? b with
  | some x => pool_set pool b { block := x.block, refs := x.refs - 1 }
  | none => pool

/-- The values `f = 0 .. PA_SAMPLE_MAX - 1` of the sample format, in order: the indices
of the array `blocks[PA_SAMPLE_MAX]`. -/
def all_formats : List pa_sample_format_t :=
  [PA_SAMPLE_U8, PA_SAMPLE_ALAW, PA_SAMPLE_ULAW, PA_SAMPLE_S16LE, PA_SAMPLE_S16BE,
   PA_SAMPLE_FLOAT32LE, PA_SAMPLE_FLOAT32BE, PA_SAMPLE_S32LE, PA_SAMPLE_S32BE]

/-- The loop `for (f = 0; f < PA_SAMPLE_MAX; f++)` of `pa_silence_cache_done` over the
given slots: each block held by a slot loses one reference. -/
def silence_cache_unref (cache : pa_silence_cache) :
    List pa_sample_format_t → pa_mempool → pa_mempool
  | [], pool => pool
  | f :: fs, pool =>
    match cache.blocks f with
    | some b => silence_cache_unref cache fs (pa_memblock_unref pool b)
    | none => silence_cache_unref cache fs pool

/-- The function `pa_silence_cache_done`: the cache, zeroed by the `memset`, and the
pool after the call. -/
def pa_silence_cache_done (cache : pa_silence_cache) (pool : pa_mempool) :
    pa_silence_cache × pa_mempool :=
  ({ blocks := fun _ => none }, silence_cache_unref cache all_formats pool)

/-- The reference count of the block behind the pointer `b`. -/
def refs_of (pool : pa_mempool) (b : Nat) : Nat :=
  match pool.blocks.get? b with
  | some x => x.refs
  | none => 0

/-- The number of slots among the given ones that hold the block `b`. -/
def slots_holding (cache : pa_silence_cache) (b : Nat) (fs : List pa_sample_format_t) : Nat :=
  (fs.filter (fun f => decide (cache.blocks f = some b))).length

/-- The number of cache slots that hold the block `b`. -/
def slot_count (cache : pa_silence_cache) (b : Nat) : Nat :=
  slots_holding cache b all_formats

/-- The number of the chunks returned that refer to the block `b`. -/
def chunk_count (chunks : List pa_memchunk_ptr) (b : Nat) : Nat :=
  (chunks.filter (fun ch => decide (ch.memblock = b))).length

/-- The reference counts agree with the cache and the chunks handed out: each cached
block is referenced once by each slot that holds it and once by each chunk returned for
it, and every chunk returned refers to a block of the pool. -/
def cache_refs_ok (cache : pa_silence_cache) (pool : pa_mempool)
    (chunks : List pa_memchunk_ptr) : Prop :=
  (∀ f b, cache.blocks f = some b →
    refs_of pool b = slot_count cache b + chunk_count chunks b) ∧
  (∀ ch ∈ chunks, ch.memblock < pool.blocks.length)

/-! ## The loops of the mixer -/

theorem next_channel_channel_at (channels k : Nat) :
    next_channel channels (channel_at channels k) = channel_at channels (k + 1) := by
  unfold next_channel channel_at
  by_cases h0 : channels = 0
  · simp [h0]
  · have hpos : 0 < channels := Nat.pos_of_ne_zero h0
    have hlt : k % channels < channels := Nat.mod_lt _ hpos
    simp only [h0, if_false]
    by_cases h1 : k % channels + 1 ≥ channels
    · have heq : k % channels + 1 = channels := by omega
      have : (k + 1) % channels = 0 := by
        rw [Nat.add_mod]
        by_cases hc1 : channels = 1
        · subst hc1; exact Nat.mod_one _
        · have h1m : 1 % channels = 1 := Nat.mod_eq_of_lt (by omega)
          rw [h1m, heq, Nat.mod_self]
      simp [h1, this]
    · have : (k + 1) % channels = k % channels + 1 := by
        rw [Nat.add_mod]
        have h1m : 1 % channels = 1 := Nat.mod_eq_of_lt (by omega)
        rw [h1m]
        exact Nat.mod_eq_of_lt (by omega)
      simp [h1, this]

theorem channel_at_zero (channels : Nat) : channel_at channels 0 = 0 := by
  unfold channel_at; split <;> simp

theorem channel_at_lt (channels k : Nat) (h : 0 < channels) :
    channel_at channels k < channels := by
  unfold channel_at
  rw [if_neg (by omega)]
  exact Nat.mod_lt _ h

theorem lt_mix_limit (d length : Nat) (streams : List pa_mix_info) :
    d < mix_limit length streams ↔ d < length ∧ ∀ m ∈ streams, d < m.chunk.length := by
  induction streams with
  | nil => simp [mix_limit]
  | cons m ms ih =>
    have : mix_limit length (m :: ms) = min m.chunk.length (mix_limit length ms) := rfl
    rw [this, Nat.lt_min, ih]
    simp only [List.mem_cons, forall_eq_or_imp]
    tauto

theorem mix_limit_le (length : Nat) (streams : List pa_mix_info) :
    mix_limit length streams ≤ length := by
  by_contra h
  have := (lt_mix_limit length length streams).1 (by omega)
  omega

theorem mix_limit_shift (width k length : Nat) (streams : List pa_mix_info) :
    mix_limit length (shift_streams width k streams) = mix_limit length streams := by
  induction streams with
  | nil => rfl
  | cons m ms ih =>
    simp only [shift_streams, List.map_cons, mix_limit, List.foldr_cons] at ih ⊢
    rw [ih]

theorem lt_mix_count (width j lim : Nat) (hw : 0 < width) :
    j < (lim + width - 1) / width ↔ j * width < lim := by
  rw [Nat.lt_iff_add_one_le, Nat.le_div_iff_mul_le hw, Nat.add_mul]
  omega

theorem shift_streams_zero (width : Nat) (streams : List pa_mix_info) :
    shift_streams width 0 streams = streams := by
  simp [shift_streams]

theorem shift_streams_succ (width k : Nat) (streams : List pa_mix_info) :
    (shift_streams width k streams).map (fun m => { m with ptr := m.ptr + width })
      = shift_streams width (k + 1) streams := by
  simp only [shift_streams, List.map_map]
  apply List.map_congr_left
  intro m _
  simp only [Function.comp]
  congr 1
  rw [Nat.succ_mul]; omega

theorem mix_streams_some (K : mix_codec) (mute : Bool) (linear : Int) (channel d : Nat)
    (streams : List pa_mix_info) (sum : Int)
    (h : ∀ m ∈ streams, d < m.chunk.length) :
    mix_streams K mute linear channel d streams sum
      = some (streams.foldl (fun s m => K.add s (mix_term K mute linear channel m)) sum,
          streams.map (fun m => { m with ptr := m.ptr + K.width })) := by
  induction streams generalizing sum with
  | nil => rfl
  | cons m ms ih =>
    have hm : ¬ d ≥ m.chunk.length := by
      have := h m (List.mem_cons_self _ _); omega
    simp only [mix_streams, hm, if_false]
    rw [ih _ (fun x hx => h x (List.mem_cons_of_mem _ hx))]
    rfl

theorem mix_streams_none (K : mix_codec) (mute : Bool) (linear : Int) (channel d : Nat)
    (streams : List pa_mix_info) (sum : Int)
    (h : ∃ m ∈ streams, m.chunk.length ≤ d) :
    mix_streams K mute linear channel d streams sum = none := by
  induction streams generalizing sum with
  | nil => simp at h
  | cons m ms ih =>
    by_cases hm : d ≥ m.chunk.length
    · simp [mix_streams, hm]
    · simp only [mix_streams, hm, if_false]
      have : ∃ x ∈ ms, x.chunk.length ≤ d := by
        obtain ⟨x, hx, hxd⟩ := h
        rcases List.mem_cons.1 hx with rfl | hx
        · omega
        · exact ⟨x, hx, hxd⟩
      rw [ih _ this]

theorem mix_loop_from (K : mix_codec) (mute : Bool) (linear : List Int)
    (channels length : Nat) (streams : List pa_mix_info) (hw : 0 < K.width) :
    ∀ (fuel j : Nat) (data : List Byte),
      j ≤ mix_count K.width length streams →
      mix_count K.width length streams - j < fuel →
      mix_loop K mute linear channels length fuel (shift_streams K.width j streams)
          (j * K.width) (channel_at channels j) data
        = some (mix_count K.width length streams * K.width,
            data ++ (List.range' j (mix_count K.width length streams - j)).flatMap
              (mix_sample K mute linear channels streams)) := by
  intro fuel
  induction fuel with
  | zero => intro j data _ h; omega
  | succ fuel ih =>
    intro j data hj hfuel
    by_cases hlt : j < mix_count K.width length streams
    · have hd : j * K.width < mix_limit length streams :=
        (lt_mix_count K.width j _ hw).1 hlt
      obtain ⟨hlen, hall⟩ := (lt_mix_limit _ _ _).1 hd
      have hall2 : ∀ m ∈ shift_streams K.width j streams, j * K.width < m.chunk.length := by
        intro m hm
        simp only [shift_streams, List.mem_map] at hm
        obtain ⟨m0, hm0, rfl⟩ := hm
        exact hall m0 hm0
      have hge : ¬ j * K.width ≥ length := by omega
      simp only [mix_loop, hge, if_false]
      rw [mix_streams_some K mute _ _ _ _ _ hall2]
      simp only []
      rw [shift_streams_succ, next_channel_channel_at]
      have hstep : j * K.width + K.width = (j + 1) * K.width := by rw [Nat.succ_mul]
      rw [hstep, ih (j + 1) _ (by omega) (by omega)]
      have hn : mix_count K.width length streams - j
          = (mix_count K.width length streams - (j + 1)) + 1 := by omega
      rw [hn, List.range'_succ, List.flatMap_cons, List.append_assoc]
      rfl
    · have hjeq : j = mix_count K.width length streams := by omega
      have hd : ¬ j * K.width < mix_limit length streams := by
        intro h
        exact hlt ((lt_mix_count K.width j _ hw).2 h)
      have hz : mix_count K.width length streams - j = 0 := by omega
      rw [hz]
      simp only [List.range'_zero, List.flatMap_nil, List.append_nil]
      rw [← hjeq]
      by_cases hge : j * K.width ≥ length
      · simp [mix_loop, hge]
      · simp only [mix_loop, hge, if_false]
        have hex : ∃ m ∈ shift_streams K.width j streams, m.chunk.length ≤ j * K.width := by
          by_contra hne
          apply hd
          rw [lt_mix_limit]
          refine ⟨by omega, fun m hm => ?_⟩
          by_contra hmm
          apply hne
          refine ⟨{ m with ptr := m.ptr + j * K.width }, ?_, by simp; omega⟩
          simp only [shift_streams, List.mem_map]
          exact ⟨m, hm, rfl⟩
        rw [mix_streams_none K mute _ _ _ _ _ hex]

theorem mix_count_le (width length : Nat) (streams : List pa_mix_info) (hw : 0 < width) :
    mix_count width length streams ≤ length := by
  unfold mix_count
  have h1 := mix_limit_le length streams
  have h2 : (mix_limit length streams + width - 1) / width ≤ (length + width - 1) / width :=
    Nat.div_le_div_right (by omega)
  have h3 : (length + width - 1) / width ≤ length := by
    by_cases hl : length = 0
    · subst hl
      simp only [Nat.zero_add]
      rw [Nat.div_eq_of_lt (by omega)]
    · rw [Nat.div_le_iff_le_mul_add_pred hw]
      have : length ≤ width * length := Nat.le_mul_of_pos_left _ hw
      omega
  omega

theorem mix_loop_eq (K : mix_codec) (mute : Bool) (linear : List Int)
    (channels length : Nat) (streams : List pa_mix_info) (hw : 0 < K.width) :
    mix_loop K mute linear channels length (length + 1) streams 0 0 []
      = some (mix_count K.width length streams * K.width,
          (List.range (mix_count K.width length streams)).flatMap
            (mix_sample K mute linear channels streams)) := by
  have h := mix_loop_from K mute linear channels length streams hw (length + 1) 0 []
    (Nat.zero_le _) (by have := mix_count_le K.width length streams hw; omega)
  rw [shift_streams_zero, channel_at_zero, Nat.zero_mul] at h
  rw [h, List.range_eq_range']
  simp

/-! ## The function `pa_mix` in closed form -/

theorem mix_case_supported (P : Platform) (format : pa_sample_format_t)
    (h : format ≠ PA_SAMPLE_MAX) :
    ∃ float K, mix_case P format = some (float, K) ∧ K.width = sample_width format := by
  unfold mix_case PA_SAMPLE_S16NE PA_SAMPLE_S16RE PA_SAMPLE_S32NE PA_SAMPLE_S32RE
    PA_SAMPLE_FLOAT32NE PA_SAMPLE_FLOAT32RE
  cases hb : P.WORDS_BIGENDIAN <;> cases format <;>
    first
      | exact absurd rfl h
      | exact ⟨_, _, rfl, rfl⟩

theorem mix_case_width (P : Platform) (format : pa_sample_format_t) (float : Bool)
    (K : mix_codec) (h : mix_case P format = some (float, K)) :
    K.width = sample_width format ∧ 0 < K.width := by
  have hne : format ≠ PA_SAMPLE_MAX := by
    rintro rfl
    revert h
    unfold mix_case PA_SAMPLE_S16NE PA_SAMPLE_S16RE PA_SAMPLE_S32NE PA_SAMPLE_S32RE
      PA_SAMPLE_FLOAT32NE PA_SAMPLE_FLOAT32RE
    cases P.WORDS_BIGENDIAN <;> simp
  obtain ⟨fl, K2, h2, hw⟩ := mix_case_supported P format hne
  rw [h] at h2
  cases h2
  refine ⟨hw, ?_⟩
  rw [hw]
  cases format <;> first | exact absurd rfl hne | decide

theorem mix_limit_setup (P : Platform) (float : Bool) (streams : List pa_mix_info)
    (spec : pa_sample_spec) (length : Nat) :
    mix_limit length (mix_setup P float streams spec) = mix_limit length streams := by
  unfold mix_setup calc_linear_float_stream_volumes calc_linear_integer_stream_volumes
  induction streams with
  | nil => cases float <;> rfl
  | cons m ms ih =>
    cases float <;>
      simp only [List.map_cons, mix_limit, List.foldr_cons, if_true, Bool.false_eq_true,
        if_false] at ih ⊢ <;> rw [ih]

theorem pa_mix_eq (P : Platform) (streams : List pa_mix_info) (length : Nat)
    (spec : pa_sample_spec) (volume : Option pa_cvolume) (mute : Bool)
    (float : Bool) (K : mix_codec) (hl : 0 < length)
    (hc : mix_case P spec.format = some (float, K)) :
    pa_mix P streams length spec volume mute
      = some
        { d := mix_count K.width length streams * K.width,
          data := (List.range (mix_count K.width length streams)).flatMap
            (mix_sample K mute (mix_linear P float (mix_volume P spec volume)) spec.channels
              (mix_setup P float streams spec)) } := by
  have hw := (mix_case_width P spec.format float K hc).2
  unfold pa_mix
  rw [if_neg (by omega), hc]
  simp only []
  rw [mix_loop_eq K mute _ _ _ _ hw]
  simp only [Option.map_some', mix_count, mix_limit_setup]

theorem length_flatMap_const {α : Type} (f : Nat → List α) (w : Nat)
    (hf : ∀ j, (f j).length = w) (n : Nat) :
    ((List.range n).flatMap f).length = n * w := by
  induction n with
  | zero => simp
  | succ n ih =>
    rw [List.range_succ, List.flatMap_append, List.length_append, ih]
    simp [hf, Nat.succ_mul]

theorem take_drop_flatMap_const {α : Type} (f : Nat → List α) (w : Nat)
    (hf : ∀ j, (f j).length = w) (n k : Nat) (hk : k < n) :
    (((List.range n).flatMap f).drop (k * w)).take w = f k := by
  induction n with
  | zero => omega
  | succ n ih =>
    rw [List.range_succ, List.flatMap_append]
    have hlen := length_flatMap_const f w hf n
    by_cases hkn : k < n
    · have h1 : k * w + w ≤ n * w := by
        have : (k + 1) * w ≤ n * w := Nat.mul_le_mul_right _ hkn
        rw [Nat.succ_mul] at this; exact this
      rw [List.drop_append_of_le_length (by omega),
        List.take_append_of_le_length (by rw [List.length_drop]; omega)]
      exact ih hkn
    · have hkeq : k = n := by omega
      subst hkeq
      rw [List.drop_left' hlen]
      simp [hf]

theorem mix_sample_at (K : mix_codec) (f : Nat → List Byte)
    (hf : ∀ j, (f j).length = K.width) (n k : Nat) (hk : k < n) :
    sample_at K.width ((List.range n).flatMap f) k = f k :=
  take_drop_flatMap_const f K.width hf n k hk

theorem mix_count_bounds (width length : Nat) (streams : List pa_mix_info) (hw : 0 < width) :
    mix_limit length streams ≤ mix_count width length streams * width ∧
    mix_count width length streams * width < mix_limit length streams + width ∧
    (width ∣ mix_limit length streams →
      mix_count width length streams * width = mix_limit length streams) := by
  unfold mix_count
  generalize mix_limit length streams = lim
  have h1 := Nat.div_add_mod (lim + width - 1) width
  have h2 : (lim + width - 1) % width < width := Nat.mod_lt _ hw
  have h3 : (lim + width - 1) / width * width = width * ((lim + width - 1) / width) :=
    Nat.mul_comm _ _
  refine ⟨by omega, by omega, ?_⟩
  rintro ⟨q, rfl⟩
  generalize hn : (width * q + width - 1) / width = n at *
  have hq : q ≤ n := by
    by_contra hlt
    have : width * (n + 1) ≤ width * q := Nat.mul_le_mul_left _ (by omega)
    rw [Nat.mul_succ] at this
    omega
  have hn2 : n < q + 1 := by
    by_contra hge
    have : width * (q + 1) ≤ width * n := Nat.mul_le_mul_left _ (by omega)
    rw [Nat.mul_succ] at this
    omega
  have : n = q := by omega
  subst this
  exact h3

/-! ## Machine arithmetic -/

theorem tdiv_65536 (x : Int) :
    Int.tdiv x 0x10000 = if 0 ≤ x then x / 0x10000 else -((-x) / 0x10000) := by
  split
  · exact Int.tdiv_eq_ediv (by assumption) (by decide)
  · have hx : x = -(-x) := by omega
    conv_lhs => rw [hx]
    rw [Int.neg_tdiv, Int.tdiv_eq_ediv (by omega) (by decide)]

theorem int16_t_bounds (x : Int) : -0x8000 ≤ int16_t x ∧ int16_t x ≤ 0x7FFF := by
  unfold int16_t; omega

theorem int32_t_bounds (x : Int) : -0x80000000 ≤ int32_t x ∧ int32_t x ≤ 0x7FFFFFFF := by
  unfold int32_t; omega

theorem int16_t_id (x : Int) (h1 : -0x8000 ≤ x) (h2 : x ≤ 0x7FFF) : int16_t x = x := by
  unfold int16_t; omega

theorem int32_t_id (x : Int) (h1 : -0x80000000 ≤ x) (h2 : x ≤ 0x7FFFFFFF) :
    int32_t x = x := by
  unfold int32_t; omega

theorem int64_t_id (x : Int) (h1 : -0x8000000000000000 ≤ x) (h2 : x ≤ 0x7FFFFFFFFFFFFFFF) :
    int64_t x = x := by
  unfold int64_t; omega

theorem scale_int32_zero (cv : Int) : scale_int32 0 cv = 0 := by
  simp [scale_int32, int32_t]

theorem scale_int64_zero (cv : Int) : scale_int64 0 cv = 0 := by
  simp [scale_int64, int64_t]

theorem scale_int32_unity (v : Int) (h1 : -0x8000 ≤ v) (h2 : v ≤ 0x7FFF) :
    scale_int32 v 0x10000 = v := by
  unfold scale_int32
  rw [int32_t_id _ (by omega) (by omega)]
  exact Int.mul_tdiv_cancel _ (by decide)

theorem scale_int64_unity (v : Int) (h1 : -0x80000000 ≤ v) (h2 : v ≤ 0x7FFFFFFF) :
    scale_int64 v 0x10000 = v := by
  unfold scale_int64
  rw [int64_t_id _ (by omega) (by omega)]
  exact Int.mul_tdiv_cancel _ (by decide)

theorem clamp_id (x low high : Int) (h1 : low ≤ x) (h2 : x ≤ high) :
    PA_CLAMP_UNLIKELY x low high = x := by
  unfold PA_CLAMP_UNLIKELY
  rw [if_neg (by omega), if_neg (by omega)]

theorem clamp_bounds (x low high : Int) (h : low ≤ high) :
    low ≤ PA_CLAMP_UNLIKELY x low high ∧ PA_CLAMP_UNLIKELY x low high ≤ high := by
  unfold PA_CLAMP_UNLIKELY
  split
  · omega
  · split <;> omega

theorem peek_bounds (p : List Byte) (i : Nat) : 0 ≤ peek p i ∧ peek p i < 256 := by
  unfold peek; omega

theorem uint8_t_peek (p : List Byte) (i : Nat) : uint8_t (peek p i) = p.getD i 0 := by
  unfold uint8_t peek
  apply Fin.ext
  simp only []
  omega

theorem uint8_t_eq (x : Int) (b : Byte) (h : x % 256 = (b.val : Int)) : uint8_t x = b := by
  unfold uint8_t
  apply Fin.ext
  simp only []
  omega

/-! ## Bytes under the cursor -/

theorem take_drop_succ (p : List Byte) (i n : Nat) (h : i < p.length) :
    (p.drop i).take (n + 1) = p.getD i 0 :: (p.drop (i + 1)).take n := by
  rw [List.drop_eq_getElem_cons h, List.take_succ_cons, List.getD_eq_getElem _ _ h]

theorem take_drop_one (p : List Byte) (i : Nat) (h : i + 1 ≤ p.length) :
    (p.drop i).take 1 = [p.getD i 0] := by
  rw [take_drop_succ p i 0 (by omega)]; simp

theorem take_drop_two (p : List Byte) (i : Nat) (h : i + 2 ≤ p.length) :
    (p.drop i).take 2 = [p.getD i 0, p.getD (i + 1) 0] := by
  rw [take_drop_succ p i 1 (by omega), take_drop_one p (i + 1) (by omega)]

theorem take_drop_four (p : List Byte) (i : Nat) (h : i + 4 ≤ p.length) :
    (p.drop i).take 4
      = [p.getD i 0, p.getD (i + 1) 0, p.getD (i + 2) 0, p.getD (i + 3) 0] := by
  rw [take_drop_succ p i 3 (by omega), take_drop_succ p (i + 1) 2 (by omega),
    take_drop_two p (i + 2) (by omega)]

theorem store_load_u16 (be : Bool) (p : List Byte) (i : Nat) :
    store_u16 be (int16_t (load_u16 be p i)) = [p.getD i 0, p.getD (i + 1) 0] := by
  have h0 := peek_bounds p i
  have h1 := peek_bounds p (i + 1)
  rw [← uint8_t_peek p i, ← uint8_t_peek p (i + 1)]
  unfold store_u16 load_u16 int16_t uint16_t
  generalize peek p i = a at *
  generalize peek p (i + 1) = b at *
  cases be <;> simp only [if_true, if_false, Bool.false_eq_true] <;>
    (congr 1; · (apply uint8_t_eq; unfold uint8_t; simp only []; omega)
     congr 1; apply uint8_t_eq; unfold uint8_t; simp only []; omega)

theorem store_load_u32 (be : Bool) (p : List Byte) (i : Nat) :
    store_u32 be (int32_t (load_u32 be p i))
      = [p.getD i 0, p.getD (i + 1) 0, p.getD (i + 2) 0, p.getD (i + 3) 0] := by
  have h0 := peek_bounds p i
  have h1 := peek_bounds p (i + 1)
  have h2 := peek_bounds p (i + 2)
  have h3 := peek_bounds p (i + 3)
  rw [← uint8_t_peek p i, ← uint8_t_peek p (i + 1), ← uint8_t_peek p (i + 2),
    ← uint8_t_peek p (i + 3)]
  unfold store_u32 load_u32 int32_t uint32_t
  generalize peek p i = a at *
  generalize peek p (i + 1) = b at *
  generalize peek p (i + 2) = c at *
  generalize peek p (i + 3) = d at *
  cases be <;> simp only [if_true, if_false, Bool.false_eq_true] <;>
    (congr 1; · (apply uint8_t_eq; unfold uint8_t; simp only []; omega)
     congr 1; · (apply uint8_t_eq; unfold uint8_t; simp only []; omega)
     congr 1; · (apply uint8_t_eq; unfold uint8_t; simp only []; omega)
     congr 1; apply uint8_t_eq; unfold uint8_t; simp only []; omega)

theorem swap16_bounds (x : Int) :
    -0x8000 ≤ PA_INT16_SWAP x ∧ PA_INT16_SWAP x ≤ 0x7FFF := int16_t_bounds _

theorem swap32_bounds (x : Int) :
    -0x80000000 ≤ PA_INT32_SWAP x ∧ PA_INT32_SWAP x ≤ 0x7FFFFFFF := int32_t_bounds _

theorem bswap16_bounds (u : Int) : 0 ≤ bswap16 u ∧ bswap16 u < 0x10000 := by
  unfold bswap16; omega

theorem bswap32_bounds (u : Int) : 0 ≤ bswap32 u ∧ bswap32 u < 0x100000000 := by
  unfold bswap32; omega

theorem bswap16_bswap16 (u : Int) (h1 : 0 ≤ u) (h2 : u < 0x10000) :
    bswap16 (bswap16 u) = u := by
  have hs : bswap16 u = (u % 0x100) * 0x100 + (u / 0x100) % 0x100 := rfl
  generalize bswap16 u = s at hs
  unfold bswap16
  generalize ha : u % 0x100 = a at *
  generalize hb : u / 0x100 % 0x100 = b at *
  have h3 : s % 0x100 = b := by omega
  have h4 : s / 0x100 % 0x100 = a := by omega
  rw [h3, h4]
  omega

theorem bswap32_bswap32 (u : Int) (h1 : 0 ≤ u) (h2 : u < 0x100000000) :
    bswap32 (bswap32 u) = u := by
  have hs : bswap32 u = (u % 0x100) * 0x1000000 + ((u / 0x100) % 0x100) * 0x10000
    + ((u / 0x10000) % 0x100) * 0x100 + (u / 0x1000000) % 0x100 := rfl
  have hu : u = u % 0x100 + 0x100 * (u / 0x100 % 0x100) + 0x10000 * (u / 0x10000 % 0x100)
      + 0x1000000 * (u / 0x1000000 % 0x100) := by omega
  generalize bswap32 u = s at hs
  unfold bswap32
  have ha : 0 ≤ u % 0x100 ∧ u % 0x100 < 0x100 := by omega
  have hb : 0 ≤ u / 0x100 % 0x100 ∧ u / 0x100 % 0x100 < 0x100 := by omega
  have hc : 0 ≤ u / 0x10000 % 0x100 ∧ u / 0x10000 % 0x100 < 0x100 := by omega
  have hd : 0 ≤ u / 0x1000000 % 0x100 ∧ u / 0x1000000 % 0x100 < 0x100 := by omega
  generalize u % 0x100 = a at *
  generalize u / 0x100 % 0x100 = b at *
  generalize u / 0x10000 % 0x100 = c at *
  generalize u / 0x1000000 % 0x100 = d at *
  have h3 : s % 0x100 = d := by omega
  have h4 : s / 0x100 % 0x100 = c := by omega
  have q5 := (Int.ediv_emod_unique (show (0 : Int) < 0x10000 by decide)).2
    ⟨(show (c * 0x100 + d) + 0x10000 * (a * 0x100 + b) = s by omega), by omega, by omega⟩
  have q6 := (Int.ediv_emod_unique (show (0 : Int) < 0x1000000 by decide)).2
    ⟨(show (b * 0x10000 + c * 0x100 + d) + 0x1000000 * a = s by omega), by omega, by omega⟩
  have h5 : s / 0x10000 % 0x100 = b := by rw [q5.1]; omega
  have h6 : s / 0x1000000 % 0x100 = a := by rw [q6.1]; omega
  rw [h3, h4, h5, h6]
  omega

theorem uint16_int16 (u : Int) (h1 : 0 ≤ u) (h2 : u < 0x10000) :
    uint16_t (int16_t u) = u := by
  unfold uint16_t int16_t; omega

theorem uint32_int32 (u : Int) (h1 : 0 ≤ u) (h2 : u < 0x100000000) :
    uint32_t (int32_t u) = u := by
  unfold uint32_t int32_t; omega

theorem int16_uint16 (x : Int) (h1 : -0x8000 ≤ x) (h2 : x ≤ 0x7FFF) :
    int16_t (uint16_t x) = x := by
  unfold uint16_t int16_t; omega

theorem int32_uint32 (x : Int) (h1 : -0x80000000 ≤ x) (h2 : x ≤ 0x7FFFFFFF) :
    int32_t (uint32_t x) = x := by
  unfold uint32_t int32_t; omega

theorem uint16_t_bounds (x : Int) : 0 ≤ uint16_t x ∧ uint16_t x < 0x10000 := by
  unfold uint16_t; omega

theorem uint32_t_bounds (x : Int) : 0 ≤ uint32_t x ∧ uint32_t x < 0x100000000 := by
  unfold uint32_t; omega

theorem swap16_swap16 (x : Int) (h1 : -0x8000 ≤ x) (h2 : x ≤ 0x7FFF) :
    PA_INT16_SWAP (PA_INT16_SWAP x) = x := by
  unfold PA_INT16_SWAP
  have hb := bswap16_bounds (uint16_t x)
  have hu := uint16_t_bounds x
  rw [uint16_int16 _ hb.1 hb.2, bswap16_bswap16 _ hu.1 hu.2, int16_uint16 _ h1 h2]

theorem swap32_swap32 (x : Int) (h1 : -0x80000000 ≤ x) (h2 : x ≤ 0x7FFFFFFF) :
    PA_INT32_SWAP (PA_INT32_SWAP x) = x := by
  unfold PA_INT32_SWAP
  have hb := bswap32_bounds (uint32_t x)
  have hu := uint32_t_bounds x
  rw [uint32_int32 _ hb.1 hb.2, bswap32_bswap32 _ hu.1 hu.2, int32_uint32 _ h1 h2]

theorem swap16_zero : PA_INT16_SWAP 0 = 0 := by decide

theorem swap32_zero : PA_INT32_SWAP 0 = 0 := by decide

/-! ## One stream at unity gain -/

theorem mix_s16ne_unity (P : Platform) (p : List Byte) (i : Nat) (h : i + 2 ≤ p.length) :
    (mix_s16ne P).write
        ((mix_s16ne P).add 0 ((mix_s16ne P).scale ((mix_s16ne P).read p i) 0x10000)) 0x10000
      = (p.drop i).take (mix_s16ne P).width := by
  have hb := int16_t_bounds (load_u16 P.WORDS_BIGENDIAN p i)
  simp only [mix_s16ne]
  rw [scale_int32_unity _ hb.1 hb.2, Int.zero_add, int32_t_id _ (by omega) (by omega),
    clamp_id _ _ _ hb.1 hb.2, scale_int32_unity _ hb.1 hb.2,
    int16_t_id (int16_t _) hb.1 hb.2, store_load_u16, take_drop_two p i h]

theorem mix_s16re_unity (P : Platform) (p : List Byte) (i : Nat) (h : i + 2 ≤ p.length) :
    (mix_s16re P).write
        ((mix_s16re P).add 0 ((mix_s16re P).scale ((mix_s16re P).read p i) 0x10000)) 0x10000
      = (p.drop i).take (mix_s16re P).width := by
  have hb := int16_t_bounds (load_u16 P.WORDS_BIGENDIAN p i)
  have hs := swap16_bounds (int16_t (load_u16 P.WORDS_BIGENDIAN p i))
  simp only [mix_s16re]
  rw [scale_int32_unity _ hs.1 hs.2, Int.zero_add, int32_t_id _ (by omega) (by omega),
    clamp_id _ _ _ hs.1 hs.2, scale_int32_unity _ hs.1 hs.2,
    int16_t_id (PA_INT16_SWAP _) hs.1 hs.2, swap16_swap16 _ hb.1 hb.2, store_load_u16,
    take_drop_two p i h]

theorem mix_s32ne_unity (P : Platform) (p : List Byte) (i : Nat) (h : i + 4 ≤ p.length) :
    (mix_s32ne P).write
        ((mix_s32ne P).add 0 ((mix_s32ne P).scale ((mix_s32ne P).read p i) 0x10000)) 0x10000
      = (p.drop i).take (mix_s32ne P).width := by
  have hb := int32_t_bounds (load_u32 P.WORDS_BIGENDIAN p i)
  simp only [mix_s32ne]
  rw [scale_int64_unity _ hb.1 hb.2, Int.zero_add, int64_t_id _ (by omega) (by omega),
    clamp_id _ _ _ hb.1 hb.2, scale_int64_unity _ hb.1 hb.2,
    int32_t_id (int32_t _) hb.1 hb.2, store_load_u32, take_drop_four p i h]

theorem mix_s32re_unity (P : Platform) (p : List Byte) (i : Nat) (h : i + 4 ≤ p.length) :
    (mix_s32re P).write
        ((mix_s32re P).add 0 ((mix_s32re P).scale ((mix_s32re P).read p i) 0x10000)) 0x10000
      = (p.drop i).take (mix_s32re P).width := by
  have hb := int32_t_bounds (load_u32 P.WORDS_BIGENDIAN p i)
  have hs := swap32_bounds (int32_t (load_u32 P.WORDS_BIGENDIAN p i))
  simp only [mix_s32re]
  rw [scale_int64_unity _ hs.1 hs.2, Int.zero_add, int64_t_id _ (by omega) (by omega),
    clamp_id _ _ _ hs.1 hs.2, scale_int64_unity _ hs.1 hs.2,
    int32_t_id (PA_INT32_SWAP _) hs.1 hs.2, swap32_swap32 _ hb.1 hb.2, store_load_u32,
    take_drop_four p i h]

theorem mix_u8_unity (p : List Byte) (i : Nat) (h : i + 1 ≤ p.length) :
    mix_u8.write (mix_u8.add 0 (mix_u8.scale (mix_u8.read p i) 0x10000)) 0x10000
      = (p.drop i).take mix_u8.width := by
  have hb := peek_bounds p i
  simp only [mix_u8]
  rw [scale_int32_unity (peek p i - 0x80) (by omega) (by omega), Int.zero_add,
    int32_t_id (peek p i - 0x80) (by omega) (by omega),
    scale_int32_unity (peek p i - 0x80) (by omega) (by omega),
    clamp_id _ _ _ (by omega) (by omega), take_drop_one p i h]
  congr 1
  rw [← uint8_t_peek]
  congr 1
  omega

/-! ## The integer cases of the mixer -/

theorem getD_map_range (f : Nat → Int) (n c : Nat) (h : c < n) :
    ((List.range n).map f).getD c 0 = f c := by
  rw [List.getD_eq_getElem _ _ (by simpa using h)]
  simp

theorem mix_sum_integer (P : Platform) (K : mix_codec) (spec : pa_sample_spec) (mute : Bool)
    (linear : Int) (channel k : Nat) (streams : List pa_mix_info)
    (hc : channel < spec.channels) :
    mix_sum K mute linear channel (shift_streams K.width k (mix_setup P false streams spec))
      = streams.foldl (fun sum m => K.add sum
          (if K.le_zero (stream_gain P m channel) || mute || K.le_zero linear then 0
           else K.scale (stream_sample K m k) (stream_gain P m channel))) 0 := by
  unfold mix_sum shift_streams mix_setup calc_linear_integer_stream_volumes
  simp only [Bool.false_eq_true, if_false, List.map_map, List.foldl_map]
  congr 1
  funext sum m
  simp only [Function.comp, mix_term, getD_map_range _ _ _ hc, stream_gain, stream_sample]

theorem master_gain_eq (P : Platform) (spec : pa_sample_spec) (volume : Option pa_cvolume)
    (channel : Nat) :
    (mix_linear P false (mix_volume P spec volume)).getD channel 0
      = master_gain P spec volume channel := by
  simp [mix_linear, master_gain]

/-- The five integer PCM cases of `pa_mix`. -/
theorem integer_pcm_case (P : Platform) (format : pa_sample_format_t)
    (h : integer_pcm format = true) :
    ∃ K, mix_case P format = some (false, K) ∧ K.width = sample_width format ∧
      ((format = PA_SAMPLE_U8 ∧ K = mix_u8) ∨
       (format = PA_SAMPLE_S16NE P ∧ K = mix_s16ne P) ∨
       (format = PA_SAMPLE_S16RE P ∧ K = mix_s16re P) ∨
       (format = PA_SAMPLE_S32NE P ∧ K = mix_s32ne P) ∨
       (format = PA_SAMPLE_S32RE P ∧ K = mix_s32re P)) := by
  unfold mix_case PA_SAMPLE_S16NE PA_SAMPLE_S16RE PA_SAMPLE_S32NE PA_SAMPLE_S32RE
    PA_SAMPLE_FLOAT32NE PA_SAMPLE_FLOAT32RE
  cases hb : P.WORDS_BIGENDIAN <;> cases format <;>
    first
      | exact absurd h (by decide)
      | exact ⟨_, rfl, rfl, by simp⟩

theorem integer_pcm_le_zero (P : Platform) (K : mix_codec)
    (h : K = mix_u8 ∨ K = mix_s16ne P ∨ K = mix_s16re P ∨ K = mix_s32ne P ∨ K = mix_s32re P) :
    K.le_zero = fun x => decide (x ≤ 0) := by
  rcases h with rfl | rfl | rfl | rfl | rfl <;> rfl

theorem integer_pcm_unity (P : Platform) (K : mix_codec)
    (h : K = mix_u8 ∨ K = mix_s16ne P ∨ K = mix_s16re P ∨ K = mix_s32ne P ∨ K = mix_s32re P)
    (p : List Byte) (i : Nat) (hi : i + K.width ≤ p.length) :
    K.write (K.add 0 (K.scale (K.read p i) 0x10000)) 0x10000 = (p.drop i).take K.width := by
  rcases h with rfl | rfl | rfl | rfl | rfl
  · exact mix_u8_unity p i hi
  · exact mix_s16ne_unity P p i hi
  · exact mix_s16re_unity P p i hi
  · exact mix_s32ne_unity P p i hi
  · exact mix_s32re_unity P p i hi

theorem integer_pcm_write_length (P : Platform) (K : mix_codec)
    (h : K = mix_u8 ∨ K = mix_s16ne P ∨ K = mix_s16re P ∨ K = mix_s32ne P ∨ K = mix_s32re P)
    (sum linear : Int) : (K.write sum linear).length = K.width := by
  rcases h with rfl | rfl | rfl | rfl | rfl <;>
    simp only [mix_u8, mix_s16ne, mix_s16re, mix_s32ne, mix_s32re, store_u16, store_u32] <;>
    (try split) <;> rfl

theorem flatMap_slices (p : List Byte) (w n : Nat) :
    (List.range n).flatMap (fun k => (p.drop (k * w)).take w) = p.take (n * w) := by
  induction n with
  | zero => simp
  | succ n ih =>
    rw [List.range_succ, List.flatMap_append, ih, Nat.succ_mul, List.take_add]
    simp

theorem flatMap_congr_range {α : Type} (f g : Nat → List α) (n : Nat)
    (h : ∀ k, k < n → f k = g k) :
    (List.range n).flatMap f = (List.range n).flatMap g := by
  induction n with
  | zero => rfl
  | succ n ih =>
    rw [List.range_succ, List.flatMap_append, List.flatMap_append,
      ih (fun k hk => h k (by omega))]
    simp [h n (by omega)]

/-! ## Accumulation in 32 bits -/

theorem int32_t_add_left (x y : Int) : int32_t (int32_t x + y) = int32_t (x + y) := by
  unfold int32_t; omega

theorem foldl_int32_add {α : Type} (f : α → Int) (l : List α) (a : Int) :
    l.foldl (fun sum m => int32_t (sum + f m)) (int32_t a) = int32_t (a + (l.map f).sum) := by
  induction l generalizing a with
  | nil => simp
  | cons x xs ih =>
    simp only [List.foldl_cons, List.map_cons, List.sum_cons]
    rw [int32_t_add_left, ih, Int.add_assoc]

theorem foldl_int32_add_zero {α : Type} (f : α → Int) (l : List α) :
    l.foldl (fun sum m => int32_t (sum + f m)) 0 = int32_t ((l.map f).sum) := by
  have h := foldl_int32_add f l 0
  rw [show int32_t 0 = 0 by decide, Int.zero_add] at h
  exact h

theorem sum_bounds {α : Type} (f : α → Int) (l : List α) (low high : Int)
    (h : ∀ m ∈ l, low ≤ f m ∧ f m ≤ high) :
    low * l.length ≤ (l.map f).sum ∧ (l.map f).sum ≤ high * l.length := by
  induction l with
  | nil => simp
  | cons x xs ih =>
    have hx := h x (List.mem_cons_self _ _)
    have ih2 := ih (fun m hm => h m (List.mem_cons_of_mem _ hm))
    simp only [List.map_cons, List.sum_cons, List.length_cons, Nat.cast_add, Nat.cast_one,
      Int.mul_add, Int.mul_one]
    omega

theorem peek_take_drop (data : List Byte) (i w j : Nat) (h : j < w) :
    peek ((data.drop i).take w) j = peek data (i + j) := by
  unfold peek
  rw [List.getD_eq_getElem?_getD, List.getD_eq_getElem?_getD, List.getElem?_take_of_lt h,
    List.getElem?_drop]

theorem load_u16_sample_at (be : Bool) (data : List Byte) (k : Nat) :
    load_u16 be data (k * 2) = load_u16 be (sample_at 2 data k) 0 := by
  unfold load_u16 sample_at
  rw [peek_take_drop _ _ _ 0 (by omega), peek_take_drop _ _ _ 1 (by omega)]
  simp

theorem load_u32_sample_at (be : Bool) (data : List Byte) (k : Nat) :
    load_u32 be data (k * 4) = load_u32 be (sample_at 4 data k) 0 := by
  unfold load_u32 sample_at
  rw [peek_take_drop _ _ _ 0 (by omega), peek_take_drop _ _ _ 1 (by omega),
    peek_take_drop _ _ _ 2 (by omega), peek_take_drop _ _ _ 3 (by omega)]
  simp

theorem peek_sample_at (data : List Byte) (k : Nat) :
    peek data k = peek (sample_at 1 data k) 0 := by
  unfold sample_at
  rw [peek_take_drop _ _ _ 0 (by omega)]
  simp

theorem uint8_t_val (x : Int) : ((uint8_t x).val : Int) = x % 256 := by
  unfold uint8_t
  simp only []
  omega

theorem load_store_u16 (be : Bool) (x : Int) :
    load_u16 be (store_u16 be x) 0 = uint16_t x := by
  unfold load_u16 store_u16 peek
  cases be <;>
    simp only [if_true, if_false, Bool.false_eq_true, List.getD_cons_zero, List.getD_cons_succ,
      uint8_t_val] <;>
    (unfold uint16_t; omega)

theorem load_store_u32 (be : Bool) (x : Int) :
    load_u32 be (store_u32 be x) 0 = uint32_t x := by
  unfold load_u32 store_u32 peek
  cases be <;>
    simp only [if_true, if_false, Bool.false_eq_true, List.getD_cons_zero, List.getD_cons_succ,
      uint8_t_val] <;>
    (unfold uint32_t; omega)

theorem mix_limit_replicate (length n : Nat) (m : pa_mix_info) (h : 0 < n) :
    mix_limit length (List.replicate n m) = min m.chunk.length length := by
  induction n with
  | zero => omega
  | succ n ih =>
    by_cases hn : n = 0
    · subst hn; rfl
    · have := ih (by omega)
      simp only [List.replicate_succ, mix_limit, List.foldr_cons] at this ⊢
      rw [this]
      omega

theorem mix_count_replicate (width length n : Nat) (m : pa_mix_info) (h : 0 < n) :
    mix_count width length (List.replicate n m)
      = (min m.chunk.length length + width - 1) / width := by
  unfold mix_count
  rw [mix_limit_replicate _ _ _ h]

theorem mix_s16ne_case (P : Platform) :
    mix_case P (PA_SAMPLE_S16NE P) = some (false, mix_s16ne P) := by
  simp [mix_case]

theorem mix_s16ne_unity_sum (P : Platform) (spec : pa_sample_spec)
    (streams : List pa_mix_info) (channel k : Nat) (hc : channel < spec.channels)
    (hn : streams.length ≤ 65536)
    (hg : ∀ m ∈ streams, stream_gain P m channel = 0x10000) :
    mix_sum (mix_s16ne P) false 0x10000 channel
        (shift_streams (mix_s16ne P).width k (mix_setup P false streams spec))
      = (streams.map (fun m => stream_sample (mix_s16ne P) m k)).sum := by
  rw [mix_sum_integer P _ spec false _ _ _ _ hc]
  have hfun : ∀ m ∈ streams,
      (if (mix_s16ne P).le_zero (stream_gain P m channel) || false
            || (mix_s16ne P).le_zero 0x10000 then 0
        else (mix_s16ne P).scale (stream_sample (mix_s16ne P) m k) (stream_gain P m channel))
        = stream_sample (mix_s16ne P) m k := by
    intro m hm
    have hb : -0x8000 ≤ stream_sample (mix_s16ne P) m k
        ∧ stream_sample (mix_s16ne P) m k ≤ 0x7FFF := int16_t_bounds _
    rw [hg m hm]
    simp only [mix_s16ne, Bool.or_false, Bool.or_self,
      show decide ((0x10000 : Int) ≤ 0) = false by decide, Bool.false_eq_true, if_false]
    exact scale_int32_unity _ hb.1 hb.2
  have hfold : ∀ (l : List pa_mix_info) (a : Int), (∀ m ∈ l, m ∈ streams) →
      l.foldl (fun sum m => (mix_s16ne P).add sum
        (if (mix_s16ne P).le_zero (stream_gain P m channel) || false
              || (mix_s16ne P).le_zero 0x10000 then 0
          else (mix_s16ne P).scale (stream_sample (mix_s16ne P) m k)
            (stream_gain P m channel))) a
        = l.foldl (fun sum m => int32_t (sum + stream_sample (mix_s16ne P) m k)) a := by
    intro l
    induction l with
    | nil => intro a _; rfl
    | cons x xs ih =>
      intro a hmem
      simp only [List.foldl_cons]
      rw [hfun x (hmem x (List.mem_cons_self _ _)),
        ih _ (fun m hm => hmem m (List.mem_cons_of_mem _ hm))]
      rfl
  rw [hfold streams 0 (fun m hm => hm), foldl_int32_add_zero]
  have hs := sum_bounds (fun m => stream_sample (mix_s16ne P) m k) streams (-0x8000) 0x7FFF
    (fun m _ => int16_t_bounds _)
  have hlen : (streams.length : Int) ≤ 65536 := by exact_mod_cast hn
  have hlen0 : (0 : Int) ≤ streams.length := Int.natCast_nonneg _
  exact int32_t_id _ (by omega) (by omega)

theorem mix_s16ne_write_unity (P : Platform) (sum : Int) :
    (mix_s16ne P).write sum 0x10000
      = store_u16 P.WORDS_BIGENDIAN (PA_CLAMP_UNLIKELY sum (-0x8000) 0x7FFF) := by
  have hb := clamp_bounds sum (-0x8000) 0x7FFF (by decide)
  simp only [mix_s16ne]
  rw [scale_int32_unity _ hb.1 hb.2, int16_t_id _ hb.1 hb.2]

theorem mix_s16ne_read_store (P : Platform) (data : List Byte) (k : Nat) (x : Int)
    (h1 : -0x8000 ≤ x) (h2 : x ≤ 0x7FFF)
    (h : sample_at 2 data k = store_u16 P.WORDS_BIGENDIAN x) :
    (mix_s16ne P).read data (k * 2) = x := by
  simp only [mix_s16ne]
  rw [load_u16_sample_at, h, load_store_u16, int16_uint16 _ h1 h2]

theorem tdiv_two (x : Int) : Int.tdiv x 2 = if 0 ≤ x then x / 2 else -((-x) / 2) := by
  split
  · exact Int.tdiv_eq_ediv (by assumption) (by decide)
  · have hx : x = -(-x) := by omega
    conv_lhs => rw [hx]
    rw [Int.neg_tdiv, Int.tdiv_eq_ediv (by omega) (by decide)]

theorem scale_int32_half (v : Int) (h1 : -0x8000 ≤ v) (h2 : v ≤ 0x7FFF) :
    scale_int32 v 0x8000 = Int.tdiv v 2 := by
  unfold scale_int32
  rw [int32_t_id _ (by omega) (by omega), tdiv_65536, tdiv_two]
  split <;> split <;> omega

theorem mix_s16ne_sum_pair (P : Platform) (spec : pa_sample_spec) (m0 m1 : pa_mix_info)
    (channel k : Nat) (hc : channel < spec.channels)
    (hg0 : stream_gain P m0 channel = 0x10000) (hg1 : stream_gain P m1 channel = 0x8000) :
    mix_sum (mix_s16ne P) false 0x10000 channel
        (shift_streams (mix_s16ne P).width k (mix_setup P false [m0, m1] spec))
      = stream_sample (mix_s16ne P) m0 k + Int.tdiv (stream_sample (mix_s16ne P) m1 k) 2 := by
  rw [mix_sum_integer P _ spec false _ _ _ _ hc]
  have hb0 : -0x8000 ≤ stream_sample (mix_s16ne P) m0 k
      ∧ stream_sample (mix_s16ne P) m0 k ≤ 0x7FFF := int16_t_bounds _
  have hb1 : -0x8000 ≤ stream_sample (mix_s16ne P) m1 k
      ∧ stream_sample (mix_s16ne P) m1 k ≤ 0x7FFF := int16_t_bounds _
  simp only [List.foldl_cons, List.foldl_nil, hg0, hg1]
  generalize stream_sample (mix_s16ne P) m0 k = a at *
  generalize stream_sample (mix_s16ne P) m1 k = b at *
  simp only [mix_s16ne, Bool.or_false, Bool.or_self,
    show decide ((0x10000 : Int) ≤ 0) = false by decide,
    show decide ((0x8000 : Int) ≤ 0) = false by decide, Bool.false_eq_true, if_false]
  rw [scale_int32_unity _ hb0.1 hb0.2, scale_int32_half _ hb1.1 hb1.2, Int.zero_add]
  have ht := tdiv_two b
  generalize Int.tdiv b 2 = t at *
  have hta : -0x8000 ≤ t ∧ t ≤ 0x7FFF := by
    split at ht <;> omega
  rw [int32_t_id a (by omega) (by omega), int32_t_id _ (by omega) (by omega)]

/-! ## Silence in the integer cases -/

theorem integer_case_le_zero (P : Platform) (format : pa_sample_format_t) (K : mix_codec)
    (h : mix_case P format = some (false, K)) :
    K.le_zero = fun x => decide (x ≤ 0) := by
  revert h
  unfold mix_case PA_SAMPLE_S16NE PA_SAMPLE_S16RE PA_SAMPLE_S32NE PA_SAMPLE_S32RE
    PA_SAMPLE_FLOAT32NE PA_SAMPLE_FLOAT32RE
  cases P.WORDS_BIGENDIAN <;> cases format <;> simp <;> (intro h; subst h; rfl)

theorem mix_term_zero_of_guard (K : mix_codec) (mute : Bool) (linear : Int) (channel : Nat)
    (m : pa_mix_info) (hz : K.le_zero = fun x => decide (x ≤ 0))
    (h : m.linear.getD channel 0 ≤ 0 ∨ mute = true ∨ linear ≤ 0) :
    mix_term K mute linear channel m = 0 := by
  unfold mix_term
  rw [hz]
  simp only []
  rw [if_pos]
  simp only [Bool.or_eq_true, decide_eq_true_eq]
  rcases h with h | h | h
  · exact Or.inl (Or.inl h)
  · exact Or.inl (Or.inr h)
  · exact Or.inr h

theorem mix_sum_zero (K : mix_codec) (mute : Bool) (linear : Int) (channel : Nat)
    (streams : List pa_mix_info) (hadd : K.add 0 0 = 0)
    (h : ∀ m ∈ streams, mix_term K mute linear channel m = 0) :
    mix_sum K mute linear channel streams = 0 := by
  unfold mix_sum
  induction streams with
  | nil => rfl
  | cons x xs ih =>
    rw [List.foldl_cons, h x (List.mem_cons_self _ _), hadd]
    exact ih (fun m hm => h m (List.mem_cons_of_mem _ hm))

theorem mem_shift_setup (P : Platform) (float : Bool) (spec : pa_sample_spec) (width k : Nat)
    (streams : List pa_mix_info) (x : pa_mix_info)
    (hx : x ∈ shift_streams width k (mix_setup P float streams spec)) :
    ∃ m ∈ streams, x.chunk = m.chunk ∧ x.ptr = m.chunk.index + k * width := by
  unfold shift_streams mix_setup calc_linear_float_stream_volumes
    calc_linear_integer_stream_volumes at hx
  cases float <;>
    (simp only [Bool.false_eq_true, if_false, if_true, List.map_map, List.mem_map,
        Function.comp] at hx
     obtain ⟨m, hm, rfl⟩ := hx
     exact ⟨m, hm, rfl, rfl⟩)

theorem store_u16_zero (be : Bool) : store_u16 be 0 = [0, 0] := by
  cases be <;> decide

theorem store_u32_zero (be : Bool) : store_u32 be 0 = [0, 0, 0, 0] := by
  cases be <;> decide

theorem integer_pcm_zero (P : Platform) (format : pa_sample_format_t) (K : mix_codec)
    (h : (format = PA_SAMPLE_U8 ∧ K = mix_u8) ∨
       (format = PA_SAMPLE_S16NE P ∧ K = mix_s16ne P) ∨
       (format = PA_SAMPLE_S16RE P ∧ K = mix_s16re P) ∨
       (format = PA_SAMPLE_S32NE P ∧ K = mix_s32ne P) ∨
       (format = PA_SAMPLE_S32RE P ∧ K = mix_s32re P)) :
    K.add 0 0 = 0 ∧ (∀ cv, K.scale 0 cv = 0) ∧
      ∃ b, silence_byte format = some b ∧ ∀ linear, K.write 0 linear = List.replicate K.width b := by
  rcases h with ⟨rfl, rfl⟩ | ⟨rfl, rfl⟩ | ⟨rfl, rfl⟩ | ⟨rfl, rfl⟩ | ⟨rfl, rfl⟩
  · refine ⟨by decide, scale_int32_zero, 0x80, rfl, fun linear => ?_⟩
    simp only [mix_u8, scale_int32_zero]
    decide
  · refine ⟨show int32_t (0 + 0) = 0 by decide, scale_int32_zero, 0, ?_, fun linear => ?_⟩
    · unfold PA_SAMPLE_S16NE; cases P.WORDS_BIGENDIAN <;> rfl
    · simp only [mix_s16ne, show PA_CLAMP_UNLIKELY 0 (-0x8000) 0x7FFF = 0 by decide,
        scale_int32_zero, show int16_t 0 = 0 by decide, store_u16_zero]
      rfl
  · refine ⟨show int32_t (0 + 0) = 0 by decide, scale_int32_zero, 0, ?_, fun linear => ?_⟩
    · unfold PA_SAMPLE_S16RE; cases P.WORDS_BIGENDIAN <;> rfl
    · simp only [mix_s16re, show PA_CLAMP_UNLIKELY 0 (-0x8000) 0x7FFF = 0 by decide,
        scale_int32_zero, show int16_t 0 = 0 by decide, swap16_zero, store_u16_zero]
      rfl
  · refine ⟨show int64_t (0 + 0) = 0 by decide, scale_int64_zero, 0, ?_, fun linear => ?_⟩
    · unfold PA_SAMPLE_S32NE; cases P.WORDS_BIGENDIAN <;> rfl
    · simp only [mix_s32ne, show PA_CLAMP_UNLIKELY 0 (-0x80000000) 0x7FFFFFFF = 0 by decide,
        scale_int64_zero, show int32_t 0 = 0 by decide, store_u32_zero]
      rfl
  · refine ⟨show int64_t (0 + 0) = 0 by decide, scale_int64_zero, 0, ?_, fun linear => ?_⟩
    · unfold PA_SAMPLE_S32RE; cases P.WORDS_BIGENDIAN <;> rfl
    · simp only [mix_s32re, show PA_CLAMP_UNLIKELY 0 (-0x80000000) 0x7FFFFFFF = 0 by decide,
        scale_int64_zero, show int32_t 0 = 0 by decide, swap32_zero, store_u32_zero]
      rfl

theorem lt_mix_count_of_lt (width length k : Nat) (streams : List pa_mix_info)
    (hk : k * width < mix_count width length streams * width) :
    k < mix_count width length streams := by
  by_contra hge
  have : mix_count width length streams * width ≤ k * width :=
    Nat.mul_le_mul_right _ (by omega)
  omega

/-! ## The master gain -/

theorem mul_gain_bounds (a L B : Int) (hB : 0 ≤ B) (h1 : -B ≤ a) (h2 : a ≤ B - 1)
    (hL1 : 0 < L) (hL2 : L ≤ 0x10000) :
    -B * 0x10000 ≤ a * L ∧ a * L ≤ (B - 1) * 0x10000 := by
  constructor
  · nlinarith [mul_nonneg (show (0 : Int) ≤ a + B by omega) (show (0 : Int) ≤ L by omega),
      mul_nonneg hB (show (0 : Int) ≤ 0x10000 - L by omega)]
  · by_cases ha : 0 ≤ a
    · nlinarith [mul_nonneg (show (0 : Int) ≤ B - 1 - a by omega) (show (0 : Int) ≤ L by omega),
        mul_nonneg ha (show (0 : Int) ≤ 0x10000 - L by omega),
        mul_nonneg (show (0 : Int) ≤ B - 1 - a by omega) (show (0 : Int) ≤ 0x10000 - L by omega)]
    · nlinarith [mul_nonneg (show (0 : Int) ≤ -a by omega) (show (0 : Int) ≤ L by omega)]

theorem scale_int32_master (a L : Int) (h1 : -0x8000 ≤ a) (h2 : a ≤ 0x7FFF)
    (hL1 : 0 < L) (hL2 : L ≤ 0x10000) :
    scale_int32 a L = Int.tdiv (a * L) 0x10000 ∧
      -0x8000 ≤ Int.tdiv (a * L) 0x10000 ∧ Int.tdiv (a * L) 0x10000 ≤ 0x7FFF := by
  have hb := mul_gain_bounds a L 0x8000 (by decide) (by omega) (by omega) hL1 hL2
  unfold scale_int32
  generalize a * L = p at *
  rw [int32_t_id p (by omega) (by omega), tdiv_65536]
  refine ⟨rfl, ?_⟩
  split <;> omega

theorem scale_int64_master (a L : Int) (h1 : -0x80000000 ≤ a) (h2 : a ≤ 0x7FFFFFFF)
    (hL1 : 0 < L) (hL2 : L ≤ 0x10000) :
    scale_int64 a L = Int.tdiv (a * L) 0x10000 ∧
      -0x80000000 ≤ Int.tdiv (a * L) 0x10000 ∧ Int.tdiv (a * L) 0x10000 ≤ 0x7FFFFFFF := by
  have hb := mul_gain_bounds a L 0x80000000 (by decide) (by omega) (by omega) hL1 hL2
  unfold scale_int64
  generalize a * L = p at *
  rw [int64_t_id p (by omega) (by omega), tdiv_65536]
  refine ⟨rfl, ?_⟩
  split <;> omega

theorem mix_s16ne_master (P : Platform) (data : List Byte) (k : Nat) (S L : Int)
    (hL1 : 0 < L) (hL2 : L ≤ 0x10000)
    (h : sample_at 2 data k = (mix_s16ne P).write S L) :
    (mix_s16ne P).read data (k * 2)
      = PA_CLAMP_UNLIKELY (Int.tdiv (PA_CLAMP_UNLIKELY S (-0x8000) 0x7FFF * L) 0x10000)
          (-0x8000) 0x7FFF := by
  have hc := clamp_bounds S (-0x8000) 0x7FFF (by decide)
  obtain ⟨hs, ht1, ht2⟩ := scale_int32_master _ L hc.1 hc.2 hL1 hL2
  simp only [mix_s16ne] at h ⊢
  rw [hs, int16_t_id _ ht1 ht2] at h
  rw [load_u16_sample_at, h, load_store_u16, int16_uint16 _ ht1 ht2, clamp_id _ _ _ ht1 ht2]

theorem mix_s16re_master (P : Platform) (data : List Byte) (k : Nat) (S L : Int)
    (hL1 : 0 < L) (hL2 : L ≤ 0x10000)
    (h : sample_at 2 data k = (mix_s16re P).write S L) :
    (mix_s16re P).read data (k * 2)
      = PA_CLAMP_UNLIKELY (Int.tdiv (PA_CLAMP_UNLIKELY S (-0x8000) 0x7FFF * L) 0x10000)
          (-0x8000) 0x7FFF := by
  have hc := clamp_bounds S (-0x8000) 0x7FFF (by decide)
  obtain ⟨hs, ht1, ht2⟩ := scale_int32_master _ L hc.1 hc.2 hL1 hL2
  simp only [mix_s16re] at h ⊢
  rw [hs, int16_t_id _ ht1 ht2] at h
  have hsw := swap16_bounds (Int.tdiv (PA_CLAMP_UNLIKELY S (-0x8000) 0x7FFF * L) 0x10000)
  rw [load_u16_sample_at, h, load_store_u16, int16_uint16 _ hsw.1 hsw.2,
    swap16_swap16 _ ht1 ht2, clamp_id _ _ _ ht1 ht2]

theorem mix_s32ne_master (P : Platform) (data : List Byte) (k : Nat) (S L : Int)
    (hL1 : 0 < L) (hL2 : L ≤ 0x10000)
    (h : sample_at 4 data k = (mix_s32ne P).write S L) :
    (mix_s32ne P).read data (k * 4)
      = PA_CLAMP_UNLIKELY
          (Int.tdiv (PA_CLAMP_UNLIKELY S (-0x80000000) 0x7FFFFFFF * L) 0x10000)
          (-0x80000000) 0x7FFFFFFF := by
  have hc := clamp_bounds S (-0x80000000) 0x7FFFFFFF (by decide)
  obtain ⟨hs, ht1, ht2⟩ := scale_int64_master _ L hc.1 hc.2 hL1 hL2
  simp only [mix_s32ne] at h ⊢
  rw [hs, int32_t_id _ ht1 ht2] at h
  rw [load_u32_sample_at, h, load_store_u32, int32_uint32 _ ht1 ht2, clamp_id _ _ _ ht1 ht2]

theorem mix_s32re_master (P : Platform) (data : List Byte) (k : Nat) (S L : Int)
    (hL1 : 0 < L) (hL2 : L ≤ 0x10000)
    (h : sample_at 4 data k = (mix_s32re P).write S L) :
    (mix_s32re P).read data (k * 4)
      = PA_CLAMP_UNLIKELY
          (Int.tdiv (PA_CLAMP_UNLIKELY S (-0x80000000) 0x7FFFFFFF * L) 0x10000)
          (-0x80000000) 0x7FFFFFFF := by
  have hc := clamp_bounds S (-0x80000000) 0x7FFFFFFF (by decide)
  obtain ⟨hs, ht1, ht2⟩ := scale_int64_master _ L hc.1 hc.2 hL1 hL2
  simp only [mix_s32re] at h ⊢
  rw [hs, int32_t_id _ ht1 ht2] at h
  have hsw := swap32_bounds
    (Int.tdiv (PA_CLAMP_UNLIKELY S (-0x80000000) 0x7FFFFFFF * L) 0x10000)
  rw [load_u32_sample_at, h, load_store_u32, int32_uint32 _ hsw.1 hsw.2,
    swap32_swap32 _ ht1 ht2, clamp_id _ _ _ ht1 ht2]

theorem mix_u8_master (data : List Byte) (k : Nat) (S L : Int)
    (h : sample_at 1 data k = mix_u8.write S L) :
    mix_u8.read data (k * 1)
      = PA_CLAMP_UNLIKELY (Int.tdiv (int32_t (S * L)) 0x10000) (-0x80) 0x7F := by
  have hc := clamp_bounds (Int.tdiv (int32_t (S * L)) 0x10000) (-0x80) 0x7F (by decide)
  simp only [mix_u8, scale_int32] at h ⊢
  rw [Nat.mul_one, peek_sample_at, h]
  unfold peek
  simp only [List.getD_cons_zero, uint8_t_val]
  omega

theorem signed_sample_formula (K : mix_codec) (low high : Int) (mute : Bool)
    (hadd : K.add 0 0 = 0) (hz : K.le_zero = fun x => decide (x ≤ 0))
    (hw0 : ∀ L, K.write 0 L = K.write 0 0x10000)
    (hmaster : ∀ (data : List Byte) (k : Nat) (S L : Int), 0 < L → L ≤ 0x10000 →
      sample_at K.width data k = K.write S L →
      K.read data (k * K.width)
        = PA_CLAMP_UNLIKELY (Int.tdiv (PA_CLAMP_UNLIKELY S low high * L) 0x10000) low high)
    (hlow : low ≤ 0) (hhigh : 0 ≤ high)
    (data : List Byte) (k : Nat) (L : Int) (hL : L ≤ 0x10000) (c : Nat)
    (l : List pa_mix_info)
    (h : sample_at K.width data k = K.write (mix_sum K mute L c l) L) :
    K.read data (k * K.width)
      = PA_CLAMP_UNLIKELY
          (Int.tdiv (PA_CLAMP_UNLIKELY (mix_sum K mute L c l) low high * L) 0x10000)
          low high := by
  by_cases hpos : 0 < L
  · exact hmaster data k _ L hpos hL h
  · have hsum : mix_sum K mute L c l = 0 :=
      mix_sum_zero K mute L c l hadd
        (fun m _ => mix_term_zero_of_guard K mute L c m hz (Or.inr (Or.inr (by omega))))
    rw [hsum] at h ⊢
    rw [hw0 L] at h
    rw [hmaster data k 0 0x10000 (by decide) (by decide) h,
      clamp_id 0 low high hlow hhigh, Int.zero_mul, Int.zero_mul]

theorem write_zero_const (P : Platform) (format : pa_sample_format_t) (K : mix_codec)
    (h : (format = PA_SAMPLE_U8 ∧ K = mix_u8) ∨
       (format = PA_SAMPLE_S16NE P ∧ K = mix_s16ne P) ∨
       (format = PA_SAMPLE_S16RE P ∧ K = mix_s16re P) ∨
       (format = PA_SAMPLE_S32NE P ∧ K = mix_s32ne P) ∨
       (format = PA_SAMPLE_S32RE P ∧ K = mix_s32re P)) (L : Int) :
    K.write 0 L = K.write 0 0x10000 := by
  obtain ⟨_, _, b, _, hwrite⟩ := integer_pcm_zero P format K h
  rw [hwrite, hwrite]

theorem native_s16ne (P : Platform) :
    PA_SAMPLE_S16NE P ≠ PA_SAMPLE_U8 ∧ native_min (PA_SAMPLE_S16NE P) = -0x8000
      ∧ native_max (PA_SAMPLE_S16NE P) = 0x7FFF ∧ sample_width (PA_SAMPLE_S16NE P) = 2 := by
  unfold PA_SAMPLE_S16NE; cases P.WORDS_BIGENDIAN <;> decide

theorem native_s16re (P : Platform) :
    PA_SAMPLE_S16RE P ≠ PA_SAMPLE_U8 ∧ native_min (PA_SAMPLE_S16RE P) = -0x8000
      ∧ native_max (PA_SAMPLE_S16RE P) = 0x7FFF ∧ sample_width (PA_SAMPLE_S16RE P) = 2 := by
  unfold PA_SAMPLE_S16RE; cases P.WORDS_BIGENDIAN <;> decide

theorem native_s32ne (P : Platform) :
    PA_SAMPLE_S32NE P ≠ PA_SAMPLE_U8 ∧ native_min (PA_SAMPLE_S32NE P) = -0x80000000
      ∧ native_max (PA_SAMPLE_S32NE P) = 0x7FFFFFFF
      ∧ sample_width (PA_SAMPLE_S32NE P) = 4 := by
  unfold PA_SAMPLE_S32NE; cases P.WORDS_BIGENDIAN <;> decide

theorem native_s32re (P : Platform) :
    PA_SAMPLE_S32RE P ≠ PA_SAMPLE_U8 ∧ native_min (PA_SAMPLE_S32RE P) = -0x80000000
      ∧ native_max (PA_SAMPLE_S32RE P) = 0x7FFFFFFF
      ∧ sample_width (PA_SAMPLE_S32RE P) = 4 := by
  unfold PA_SAMPLE_S32RE; cases P.WORDS_BIGENDIAN <;> decide

/-! ## The chunk volume scaler -/

theorem channels_equal_to_iff (a : pa_cvolume) (v : Nat) :
    pa_cvolume_channels_equal_to a v = true ↔ ∀ c, c < a.channels → a.values c = v := by
  unfold pa_cvolume_channels_equal_to
  simp [List.all_eq_true]

theorem length_memset (p : List Byte) (off : Nat) (c : Byte) (n : Nat) :
    (memset p off c n).length = p.length := by
  induction p generalizing off n with
  | nil => simp [memset]
  | cons b p ih =>
    cases off with
    | zero =>
      cases n with
      | zero => simp [memset]
      | succ n => simp [memset, ih]
    | succ off => simp [memset, ih]

theorem getD_memset (p : List Byte) (off : Nat) (c : Byte) (n i : Nat) (hi : i < p.length) :
    (memset p off c n).getD i 0 = if off ≤ i ∧ i < off + n then c else p.getD i 0 := by
  induction p generalizing off n i with
  | nil => simp at hi
  | cons b p ih =>
    cases off with
    | zero =>
      cases n with
      | zero => simp [memset]
      | succ n =>
        cases i with
        | zero => simp [memset]
        | succ i =>
          simp only [memset, List.getD_cons_succ]
          rw [ih 0 n i (by simpa using hi)]
          simp
    | succ off =>
      cases i with
      | zero => simp [memset]
      | succ i =>
        simp only [memset, List.getD_cons_succ]
        rw [ih off n i (by simpa using hi)]
        have e : (off + 1 ≤ i + 1 ∧ i + 1 < off + 1 + n) ↔ (off ≤ i ∧ i < off + n) := by omega
        simp only [e]

theorem integer_case_scale (P : Platform) (format : pa_sample_format_t) (K : mix_codec)
    (h : mix_case P format = some (false, K)) :
    K.scale = scale_int32 ∨ K.scale = scale_int64 := by
  revert h
  unfold mix_case PA_SAMPLE_S16NE PA_SAMPLE_S16RE PA_SAMPLE_S32NE PA_SAMPLE_S32RE
    PA_SAMPLE_FLOAT32NE PA_SAMPLE_FLOAT32RE
  cases P.WORDS_BIGENDIAN <;> cases format <;> simp <;>
    (intro h; subst h; first | exact Or.inl rfl | exact Or.inr rfl)

/-! ## Claims -/

/-- C1 (as stated), refuted: in the 16-bit native-endian case, with one stream whose
chunk is 3 bytes long and an output length of 3, `pa_mix` returns 4, which is not the
least of the output length and the chunk lengths (that is 3). -/
theorem pa_mix_odd_length_returns_more :
    (pa_mix little_endian_host [stream_of [1, 0, 2, 0, 3] 3 0x10000] 3 stereo_s16le none
        false).map mix_result.d = some 4
      ∧ mix_limit 3 [stream_of [1, 0, 2, 0, 3] 3 0x10000] = 3 := by
  decide

/-- C1 (amended): for every encoding `pa_mix` supports, every list of input streams and
every output length > 0, `pa_mix` returns a length `d` that is at least the least of the
output length and the chunk lengths of all streams and exceeds it by less than the
sample width of the encoding; it returns exactly that least length whenever it is a
multiple of the sample width. -/
theorem pa_mix_returns_min_when_aligned (P : Platform) (streams : List pa_mix_info)
    (length : Nat) (spec : pa_sample_spec) (volume : Option pa_cvolume) (mute : Bool)
    (hl : 0 < length) (hf : spec.format ≠ PA_SAMPLE_MAX) :
    ∃ r, pa_mix P streams length spec volume mute = some r ∧
      mix_limit length streams ≤ r.d ∧
      r.d < mix_limit length streams + sample_width spec.format ∧
      (sample_width spec.format ∣ mix_limit length streams →
        r.d = mix_limit length streams) := by
  obtain ⟨float, K, hc, hw⟩ := mix_case_supported P spec.format hf
  have hpos := (mix_case_width P spec.format float K hc).2
  refine ⟨_, pa_mix_eq P streams length spec volume mute float K hl hc, ?_⟩
  have hb := mix_count_bounds K.width length streams hpos
  simp only []
  rw [← hw]
  exact hb

/-- C1 (amended), at a concrete input: two 16-bit stereo streams of 8 and 4 bytes mixed
into 6 bytes of output give 4 bytes. -/
theorem pa_mix_returns_min_when_aligned_witness :
    (0 < 6 ∧ stereo_s16le.format ≠ PA_SAMPLE_MAX)
      ∧ ∃ r, pa_mix little_endian_host two_streams 6 stereo_s16le none false = some r ∧
          mix_limit 6 two_streams ≤ r.d ∧
          r.d < mix_limit 6 two_streams + sample_width stereo_s16le.format ∧
          (sample_width stereo_s16le.format ∣ mix_limit 6 two_streams →
            r.d = mix_limit 6 two_streams) :=
  ⟨by decide,
    pa_mix_returns_min_when_aligned little_endian_host two_streams 6 stereo_s16le none false
      (by decide) (by decide)⟩

/-- C2 (as stated), refuted: with 65537 streams whose sample is -32768, all gains at
unity and `mute` false, the 32-bit accumulator of the S16NE case wraps around and the
output sample is +32767, while the saturated sum of the input samples is -32768. -/
theorem pa_mix_s16ne_accumulator_wraps :
    (pa_mix little_endian_host (List.replicate 65537 (stream_of [0x00, 0x80] 2 0x10000)) 2
        stereo_s16le none false).map
        (fun r => (mix_s16ne little_endian_host).read r.data 0) = some 0x7FFF
      ∧ PA_CLAMP_UNLIKELY
          ((List.replicate 65537 (stream_of [0x00, 0x80] 2 0x10000)).map
            (fun m => stream_sample (mix_s16ne little_endian_host) m 0)).sum
          (-0x8000) 0x7FFF = -0x8000 := by
  have hsample : stream_sample (mix_s16ne little_endian_host)
      (stream_of [0x00, 0x80] 2 0x10000) 0 = -0x8000 := by decide
  have hsum : ((List.replicate 65537 (stream_of [0x00, 0x80] 2 0x10000)).map
      (fun m => stream_sample (mix_s16ne little_endian_host) m 0)).sum = -2147516416 := by
    rw [List.map_replicate, List.sum_replicate, hsample]
    norm_num
  refine ⟨?_, by rw [hsum]; decide⟩
  rw [pa_mix_eq little_endian_host _ 2 stereo_s16le none false false
    (mix_s16ne little_endian_host) (by decide) rfl]
  have hcount : mix_count (mix_s16ne little_endian_host).width 2
      (List.replicate 65537 (stream_of [0x00, 0x80] 2 0x10000)) = 1 :=
    (mix_count_replicate _ 2 65537 (stream_of [0x00, 0x80] 2 0x10000) (by norm_num)).trans
      (by decide)
  rw [hcount]
  rw [show List.range 1 = [0] from rfl]
  simp only [Option.map_some', List.flatMap_cons, List.flatMap_nil, List.append_nil]
  unfold mix_sample
  rw [master_gain_eq, show channel_at stereo_s16le.channels 0 = 0 by decide,
    show master_gain little_endian_host stereo_s16le none 0 = 0x10000 by decide,
    mix_sum_integer little_endian_host _ stereo_s16le false _ _ _ _ (by decide)]
  have hterm :
      (if (mix_s16ne little_endian_host).le_zero
              (stream_gain little_endian_host (stream_of [0x00, 0x80] 2 0x10000) 0) || false
            || (mix_s16ne little_endian_host).le_zero 0x10000 then (0 : Int)
        else (mix_s16ne little_endian_host).scale
          (stream_sample (mix_s16ne little_endian_host) (stream_of [0x00, 0x80] 2 0x10000) 0)
          (stream_gain little_endian_host (stream_of [0x00, 0x80] 2 0x10000) 0))
      = -0x8000 := by decide
  have hfold := foldl_int32_add_zero (fun m : pa_mix_info =>
      (if (mix_s16ne little_endian_host).le_zero (stream_gain little_endian_host m 0) || false
            || (mix_s16ne little_endian_host).le_zero 0x10000 then (0 : Int)
        else (mix_s16ne little_endian_host).scale
          (stream_sample (mix_s16ne little_endian_host) m 0)
          (stream_gain little_endian_host m 0)))
    (List.replicate 65537 (stream_of [0x00, 0x80] 2 0x10000))
  rw [List.map_replicate, List.sum_replicate, hterm,
    show (65537 : Nat) • (-0x8000 : Int) = -2147516416 by norm_num,
    show int32_t (-2147516416) = 2147450880 by decide] at hfold
  have hfold2 : (List.replicate 65537 (stream_of [0x00, 0x80] 2 0x10000)).foldl
      (fun sum m => (mix_s16ne little_endian_host).add sum
        (if (mix_s16ne little_endian_host).le_zero (stream_gain little_endian_host m 0)
              || false || (mix_s16ne little_endian_host).le_zero 0x10000 then (0 : Int)
          else (mix_s16ne little_endian_host).scale
            (stream_sample (mix_s16ne little_endian_host) m 0)
            (stream_gain little_endian_host m 0))) 0 = 2147450880 := hfold
  rw [hfold2]
  decide

/-- C2 (amended): in the S16NE case of `pa_mix`, with `mute` false, every stream gain
and the master gain equal to unity (`0x10000`) and at most 65536 streams (so that the
32-bit accumulator cannot overflow), every output sample equals the sum of the
corresponding input samples saturated to [-32768, 32767]. -/
theorem pa_mix_s16ne_unity_saturates (P : Platform) (streams : List pa_mix_info)
    (length : Nat) (spec : pa_sample_spec) (volume : Option pa_cvolume)
    (hl : 0 < length) (hf : spec.format = PA_SAMPLE_S16NE P) (hch : 0 < spec.channels)
    (hn : streams.length ≤ 65536)
    (hg : ∀ m ∈ streams, ∀ c, c < spec.channels → stream_gain P m c = 0x10000)
    (hm : ∀ c, c < spec.channels → master_gain P spec volume c = 0x10000) :
    ∃ r, pa_mix P streams length spec volume false = some r ∧
      ∀ k, k * 2 < r.d →
        (mix_s16ne P).read r.data (k * 2)
          = PA_CLAMP_UNLIKELY
              ((streams.map (fun m => stream_sample (mix_s16ne P) m k)).sum)
              (-0x8000) 0x7FFF := by
  have hc : mix_case P spec.format = some (false, mix_s16ne P) := by
    rw [hf]; exact mix_s16ne_case P
  refine ⟨_, pa_mix_eq P streams length spec volume false false _ hl hc, ?_⟩
  simp only []
  intro k hk
  have hkn : k < mix_count (mix_s16ne P).width length streams := by
    by_contra hge
    have : mix_count (mix_s16ne P).width length streams * (mix_s16ne P).width
        ≤ k * (mix_s16ne P).width := Nat.mul_le_mul_right _ (by omega)
    have hw : (mix_s16ne P).width = 2 := rfl
    rw [hw] at this hk
    omega
  have hcl := channel_at_lt spec.channels k hch
  have hb := clamp_bounds ((streams.map (fun m => stream_sample (mix_s16ne P) m k)).sum)
    (-0x8000) 0x7FFF (by decide)
  apply mix_s16ne_read_store P _ k _ hb.1 hb.2
  have hat := mix_sample_at (mix_s16ne P)
    (mix_sample (mix_s16ne P) false (mix_linear P false (mix_volume P spec volume))
      spec.channels (mix_setup P false streams spec))
    (fun j => integer_pcm_write_length P _ (by simp) _ _) _ k hkn
  refine Eq.trans hat ?_
  unfold mix_sample
  rw [master_gain_eq, hm _ hcl,
    mix_s16ne_unity_sum P spec streams _ k hcl hn (fun m hmem => hg m hmem _ hcl),
    mix_s16ne_write_unity]

/-- C2 (amended), at a concrete input: three streams whose sample is +32767 produce a
sample that is the saturated sum, +32767. -/
theorem pa_mix_s16ne_unity_saturates_witness :
    (0 < 2 ∧ stereo_s16le.format = PA_SAMPLE_S16NE little_endian_host
        ∧ 0 < stereo_s16le.channels ∧ three_loud_streams.length ≤ 65536
        ∧ (∀ m ∈ three_loud_streams, ∀ c, c < stereo_s16le.channels →
            stream_gain little_endian_host m c = 0x10000)
        ∧ (∀ c, c < stereo_s16le.channels →
            master_gain little_endian_host stereo_s16le none c = 0x10000))
      ∧ (∃ r, pa_mix little_endian_host three_loud_streams 2 stereo_s16le none false = some r ∧
          ∀ k, k * 2 < r.d →
            (mix_s16ne little_endian_host).read r.data (k * 2)
              = PA_CLAMP_UNLIKELY
                  ((three_loud_streams.map
                    (fun m => stream_sample (mix_s16ne little_endian_host) m k)).sum)
                  (-0x8000) 0x7FFF)
      ∧ pa_mix little_endian_host three_loud_streams 2 stereo_s16le none false
          = some { d := 2, data := [0xff, 0x7f] } :=
  ⟨by decide,
    pa_mix_s16ne_unity_saturates little_endian_host three_loud_streams 2 stereo_s16le none
      (by decide) (by decide) (by decide) (by decide) (by decide) (by decide),
    by decide⟩

/-- C3: for each integer PCM encoding (U8, S16NE, S16RE, S32NE, S32RE), `pa_mix` of a
single stream whose gain is unity (`0x10000`) on every channel, with unity master gain
and `mute` false, returns a length `d` and writes `d` bytes that are identical to the
first `d` bytes of the stream (the bytes of its block from the chunk index on). -/
theorem pa_mix_single_stream_unity (P : Platform) (m : pa_mix_info) (length : Nat)
    (spec : pa_sample_spec) (volume : Option pa_cvolume)
    (hl : 0 < length) (hf : integer_pcm spec.format = true) (hch : 0 < spec.channels)
    (hg : ∀ c, c < spec.channels → stream_gain P m c = 0x10000)
    (hm : ∀ c, c < spec.channels → master_gain P spec volume c = 0x10000) :
    ∃ r, pa_mix P [m] length spec volume false = some r ∧
      (m.chunk.index + r.d ≤ m.chunk.memblock.data.length →
        r.data = (m.chunk.memblock.data.drop m.chunk.index).take r.d) := by
  obtain ⟨K, hc, _, hK⟩ := integer_pcm_case P spec.format hf
  have hK2 : K = mix_u8 ∨ K = mix_s16ne P ∨ K = mix_s16re P ∨ K = mix_s32ne P
      ∨ K = mix_s32re P := by
    rcases hK with ⟨_, h⟩ | ⟨_, h⟩ | ⟨_, h⟩ | ⟨_, h⟩ | ⟨_, h⟩ <;> simp [h]
  refine ⟨_, pa_mix_eq P [m] length spec volume false false K hl hc, ?_⟩
  simp only []
  intro hin
  rw [← flatMap_slices (m.chunk.memblock.data.drop m.chunk.index) K.width]
  apply flatMap_congr_range
  intro k hk
  have hcl := channel_at_lt spec.channels k hch
  have hkw : k * K.width + K.width ≤ mix_count K.width length [m] * K.width := by
    have : (k + 1) * K.width ≤ mix_count K.width length [m] * K.width :=
      Nat.mul_le_mul_right _ hk
    rw [Nat.succ_mul] at this
    exact this
  unfold mix_sample
  rw [master_gain_eq, hm _ hcl, mix_sum_integer P K spec false _ _ _ _ hcl]
  simp only [List.foldl_cons, List.foldl_nil]
  rw [hg _ hcl, integer_pcm_le_zero P K hK2]
  simp only [Bool.or_false, Bool.or_self, show decide ((0x10000 : Int) ≤ 0) = false by decide,
    Bool.false_eq_true, if_false]
  unfold stream_sample
  rw [integer_pcm_unity P K hK2 _ _ (by omega), List.drop_drop]

/-- C3, at a concrete input: a 16-bit stereo stream of four frames passes through
unchanged. -/
theorem pa_mix_single_stream_unity_witness :
    (0 < 16 ∧ integer_pcm stereo_s16le.format = true ∧ 0 < stereo_s16le.channels
        ∧ (∀ c, c < stereo_s16le.channels →
            stream_gain little_endian_host four_frames_unity c = 0x10000)
        ∧ (∀ c, c < stereo_s16le.channels →
            master_gain little_endian_host stereo_s16le none c = 0x10000))
      ∧ ∃ r, pa_mix little_endian_host [four_frames_unity] 16 stereo_s16le none false = some r ∧
          (four_frames_unity.chunk.index + r.d ≤ four_frames_unity.chunk.memblock.data.length →
            r.data = (four_frames_unity.chunk.memblock.data.drop
              four_frames_unity.chunk.index).take r.d) :=
  ⟨by decide,
    pa_mix_single_stream_unity little_endian_host four_frames_unity 16 stereo_s16le none
      (by decide) (by decide) (by decide) (by decide) (by decide)⟩

/-- C4 (as stated), refuted: with stream 0 silent and the first sample of stream 1 equal
to 3 at half-scale gain, the first output sample is 1, while
clamp16(stream0[0] + round(stream1[0] * 0.5)) is 2. -/
theorem pa_mix_half_gain_truncates :
    (pa_mix little_endian_host
        [stream_of [0, 0, 0, 0, 0, 0, 0, 0, 0, 0, 0, 0, 0, 0, 0, 0] 16 0x10000,
         stream_of [3, 0, 0, 0, 0, 0, 0, 0, 0, 0, 0, 0, 0, 0, 0, 0] 16 0x8000]
        16 stereo_s16le none false).map
        (fun r => (mix_s16ne little_endian_host).read r.data 0) = some 1
      ∧ PA_CLAMP_UNLIKELY
          (stream_sample (mix_s16ne little_endian_host)
              (stream_of [0, 0, 0, 0, 0, 0, 0, 0, 0, 0, 0, 0, 0, 0, 0, 0] 16 0x10000) 0
            + round (((stream_sample (mix_s16ne little_endian_host)
                (stream_of [3, 0, 0, 0, 0, 0, 0, 0, 0, 0, 0, 0, 0, 0, 0, 0] 16 0x8000) 0 : Int)
                  : ℚ) * (1 / 2)))
          (-0x8000) 0x7FFF = 2 := by
  refine ⟨by decide, ?_⟩
  rw [show stream_sample (mix_s16ne little_endian_host)
      (stream_of [0, 0, 0, 0, 0, 0, 0, 0, 0, 0, 0, 0, 0, 0, 0, 0] 16 0x10000) 0 = 0 by decide,
    show stream_sample (mix_s16ne little_endian_host)
      (stream_of [3, 0, 0, 0, 0, 0, 0, 0, 0, 0, 0, 0, 0, 0, 0, 0] 16 0x8000) 0 = 3 by decide,
    show round (((3 : Int) : ℚ) * (1 / 2)) = 2 by norm_num [round_eq]]
  decide

/-- C4 (amended): for S16NE with 2 channels, two streams of 4 frames each, stream 0 at
unity gain (`0x10000`) and stream 1 at half-scale gain (`0x8000`) on both channels, unity
master gain and `mute` false, `pa_mix` writes 16 bytes and for every sample index `i`
the value clamp16(stream0[i] + stream1[i] / 2), the quotient truncated toward zero. -/
theorem pa_mix_two_streams_half_gain (P : Platform) (m0 m1 : pa_mix_info)
    (spec : pa_sample_spec) (volume : Option pa_cvolume)
    (hf : spec.format = PA_SAMPLE_S16NE P) (hch : spec.channels = 2)
    (h0 : m0.chunk.length = 16) (h1 : m1.chunk.length = 16)
    (hg0 : ∀ c, c < 2 → stream_gain P m0 c = 0x10000)
    (hg1 : ∀ c, c < 2 → stream_gain P m1 c = 0x8000)
    (hm : ∀ c, c < 2 → master_gain P spec volume c = 0x10000) :
    ∃ r, pa_mix P [m0, m1] 16 spec volume false = some r ∧ r.d = 16 ∧
      ∀ i, i < 8 →
        (mix_s16ne P).read r.data (i * 2)
          = PA_CLAMP_UNLIKELY
              (stream_sample (mix_s16ne P) m0 i + Int.tdiv (stream_sample (mix_s16ne P) m1 i) 2)
              (-0x8000) 0x7FFF := by
  have hc : mix_case P spec.format = some (false, mix_s16ne P) := by
    rw [hf]; exact mix_s16ne_case P
  have hcount : mix_count (mix_s16ne P).width 16 [m0, m1] = 8 := by
    simp [mix_count, mix_limit, h0, h1, mix_s16ne]
  refine ⟨_, pa_mix_eq P [m0, m1] 16 spec volume false false _ (by decide) hc, ?_, ?_⟩
  · simp only [hcount]; rfl
  · simp only []
    intro i hi
    have hcl : channel_at spec.channels i < 2 := by
      have := channel_at_lt spec.channels i (by omega)
      omega
    have hb := clamp_bounds
      (stream_sample (mix_s16ne P) m0 i + Int.tdiv (stream_sample (mix_s16ne P) m1 i) 2)
      (-0x8000) 0x7FFF (by decide)
    apply mix_s16ne_read_store P _ i _ hb.1 hb.2
    have hat := mix_sample_at (mix_s16ne P)
      (mix_sample (mix_s16ne P) false (mix_linear P false (mix_volume P spec volume))
        spec.channels (mix_setup P false [m0, m1] spec))
      (fun j => integer_pcm_write_length P _ (by simp) _ _)
      (mix_count (mix_s16ne P).width 16 [m0, m1]) i (by rw [hcount]; exact hi)
    refine Eq.trans hat ?_
    unfold mix_sample
    rw [master_gain_eq, hm _ hcl,
      mix_s16ne_sum_pair P spec m0 m1 _ i (by omega) (hg0 _ hcl) (hg1 _ hcl),
      mix_s16ne_write_unity]

/-- C4 (amended), at a concrete input: two 16-bit stereo streams of four frames, the
second at half-scale gain. -/
theorem pa_mix_two_streams_half_gain_witness :
    (stereo_s16le.format = PA_SAMPLE_S16NE little_endian_host ∧ stereo_s16le.channels = 2
        ∧ four_frames_unity.chunk.length = 16 ∧ four_frames_half.chunk.length = 16
        ∧ (∀ c, c < 2 → stream_gain little_endian_host four_frames_unity c = 0x10000)
        ∧ (∀ c, c < 2 → stream_gain little_endian_host four_frames_half c = 0x8000)
        ∧ (∀ c, c < 2 → master_gain little_endian_host stereo_s16le none c = 0x10000))
      ∧ ∃ r, pa_mix little_endian_host [four_frames_unity, four_frames_half] 16 stereo_s16le
            none false = some r ∧ r.d = 16 ∧
          ∀ i, i < 8 →
            (mix_s16ne little_endian_host).read r.data (i * 2)
              = PA_CLAMP_UNLIKELY
                  (stream_sample (mix_s16ne little_endian_host) four_frames_unity i
                    + Int.tdiv
                        (stream_sample (mix_s16ne little_endian_host) four_frames_half i) 2)
                  (-0x8000) 0x7FFF :=
  ⟨by decide,
    pa_mix_two_streams_half_gain little_endian_host four_frames_unity four_frames_half
      stereo_s16le none (by decide) (by decide) (by decide) (by decide) (by decide)
      (by decide) (by decide)⟩

/-- C5: for each integer PCM encoding (U8, S16NE, S16RE, S32NE, S32RE), any number of
streams, any stream gains, any master gain and either mute setting, if every input
sample is zero-amplitude (byte `0x80` for U8, value 0 otherwise) then every byte that
`pa_mix` writes is the silence byte of that encoding (`0x80` for U8, 0 otherwise). -/
theorem pa_mix_silent_streams (P : Platform) (streams : List pa_mix_info) (length : Nat)
    (spec : pa_sample_spec) (volume : Option pa_cvolume) (mute : Bool)
    (hl : 0 < length) (hf : integer_pcm spec.format = true)
    (hs : ∀ m ∈ streams, ∀ k, k * sample_width spec.format < m.chunk.length →
      pcm_sample P spec.format m k = 0) :
    ∃ r b, pa_mix P streams length spec volume mute = some r ∧
      silence_byte spec.format = some b ∧
      b = (if spec.format = PA_SAMPLE_U8 then 0x80 else 0) ∧
      ∀ x ∈ r.data, x = b := by
  obtain ⟨K, hc, hw, hK⟩ := integer_pcm_case P spec.format hf
  obtain ⟨hadd, hscale, b, hb, hwrite⟩ := integer_pcm_zero P spec.format K hK
  have hpos := (mix_case_width P spec.format false K hc).2
  refine ⟨_, b, pa_mix_eq P streams length spec volume mute false K hl hc, hb, ?_, ?_⟩
  · revert hb hf
    cases spec.format <;> simp [silence_byte, integer_pcm] <;> (intro h; exact h.symm)
  · simp only []
    intro x hx
    obtain ⟨k, hk, hxk⟩ := List.mem_flatMap.1 hx
    have hkn : k < mix_count K.width length streams := List.mem_range.1 hk
    have hlim : k * K.width < mix_limit length streams :=
      (lt_mix_count K.width k _ hpos).1 hkn
    have hall := ((lt_mix_limit _ _ _).1 hlim).2
    unfold mix_sample at hxk
    rw [mix_sum_zero K mute _ _ _ hadd, hwrite] at hxk
    · exact List.eq_of_mem_replicate hxk
    · intro y hy
      obtain ⟨m, hm, hchunk, hptr⟩ := mem_shift_setup P false spec K.width k streams y hy
      have hzero : K.read y.chunk.memblock.data y.ptr = 0 := by
        have h := hs m hm k (by rw [← hw]; exact hall m hm)
        unfold pcm_sample at h
        rw [hc] at h
        simp only [stream_sample] at h
        rw [hchunk, hptr]
        exact h
      unfold mix_term
      simp only []
      rw [hzero, hscale]
      simp

/-- C5, at a concrete input: two silent 16-bit stereo streams under a master gain of
one half give silence. -/
theorem pa_mix_silent_streams_witness :
    (0 < 4 ∧ integer_pcm stereo_s16le.format = true
        ∧ ∀ m ∈ two_silent_streams, ∀ k, k * sample_width stereo_s16le.format < m.chunk.length →
            pcm_sample little_endian_host stereo_s16le.format m k = 0)
      ∧ ∃ r b, pa_mix little_endian_host two_silent_streams 4 stereo_s16le
            (some (stereo_volume 0x8000)) false = some r ∧
          silence_byte stereo_s16le.format = some b ∧
          b = (if stereo_s16le.format = PA_SAMPLE_U8 then 0x80 else 0) ∧
          ∀ x ∈ r.data, x = b :=
  have hs : ∀ m ∈ two_silent_streams, ∀ k,
      k * sample_width stereo_s16le.format < m.chunk.length →
      pcm_sample little_endian_host stereo_s16le.format m k = 0 := by
    intro m hm k hk
    have hm2 : m = stream_of [0, 0, 0, 0] 4 0x10000 ∨ m = stream_of [0, 0, 0, 0] 4 0x8000 := by
      simpa [two_silent_streams] using hm
    have hk2 : k < 2 := by
      rcases hm2 with rfl | rfl <;>
        (have h4 : k * 2 < 4 := hk
         omega)
    rcases hm2 with rfl | rfl <;> interval_cases k <;> decide
  ⟨⟨by decide, by decide, hs⟩,
    pa_mix_silent_streams little_endian_host two_silent_streams 4 stereo_s16le
      (some (stereo_volume 0x8000)) false (by decide) (by decide) hs⟩

/-- C7, the code at two failing inputs.  In the S32NE case one stream whose sample is
`0x7FFFFFFF` at unity gain under a master gain of `0x20000` yields the sample -2, while
clamp(tdiv(clamp(S) * L, 65536)) is `0x7FFFFFFF`: the product is stored through a plain
`(int32_t)` cast and is not saturated.  In the U8 case two streams whose sample is 100 at
unity gain under a master gain of `0x8000` yield the sample 100, while the claimed value
is 63: the sum is not saturated before the master gain is applied.  The sibling paths do
what these miss: at the master gain `0x20000` the U8 case of `pa_mix` saturates the sample
100 to 127 and the S32NE case of `pa_volume_memchunk` keeps `0x7FFFFFFF`; and the claimed
value is what the code writes when nothing wraps, as for the S16NE sample 100 at the
master gain `0x20000`, which becomes 200. -/
theorem pa_mix_master_gain_not_doubly_saturated :
    ((pa_mix little_endian_host [stream_of [0xff, 0xff, 0xff, 0x7f] 4 0x10000] 4 stereo_s32le
          (some (stereo_volume 0x20000)) false).map
          (fun r => (mix_s32ne little_endian_host).read r.data 0) = some (-2)
      ∧ PA_CLAMP_UNLIKELY
          (Int.tdiv
            (PA_CLAMP_UNLIKELY
                (mix_sum (mix_s32ne little_endian_host) false 0x20000 0
                  (mix_setup little_endian_host false
                    [stream_of [0xff, 0xff, 0xff, 0x7f] 4 0x10000] stereo_s32le))
                (-0x80000000) 0x7FFFFFFF * 0x20000) 0x10000)
          (-0x80000000) 0x7FFFFFFF = 0x7FFFFFFF)
    ∧ ((pa_mix little_endian_host [stream_of [0xE4] 1 0x10000, stream_of [0xE4] 1 0x10000] 1
          stereo_u8 (some (stereo_volume 0x8000)) false).map
          (fun r => mix_u8.read r.data 0) = some 100
      ∧ PA_CLAMP_UNLIKELY
          (Int.tdiv
            (PA_CLAMP_UNLIKELY
                (mix_sum mix_u8 false 0x8000 0
                  (mix_setup little_endian_host false
                    [stream_of [0xE4] 1 0x10000, stream_of [0xE4] 1 0x10000] stereo_u8))
                (-0x80) 0x7F * 0x8000) 0x10000)
          (-0x80) 0x7F = 63)
    ∧ ((pa_mix little_endian_host [stream_of [0xE4] 1 0x10000] 1 stereo_u8
          (some (stereo_volume 0x20000)) false).map
          (fun r => mix_u8.read r.data 0) = some 127
      ∧ volume_s32ne little_endian_host [0xff, 0xff, 0xff, 0x7f] 0 0x20000
          = [0xff, 0xff, 0xff, 0x7f]
      ∧ (pa_mix little_endian_host [stream_of [100, 0] 2 0x10000] 2 stereo_s16le
          (some (stereo_volume 0x20000)) false).map
          (fun r => (mix_s16ne little_endian_host).read r.data 0) = some 200) := by
  decide

/-- The sample that the integer PCM cases of `pa_mix` write, with `S` the accumulated
sum of the gain-scaled stream samples and `L` the master gain of the channel: in the U8
case clamp(tdiv(S * L, 65536)) with the product taken in 32 bits, and in the S16 and S32
cases, when `L <= 0x10000`, clamp(tdiv(clamp(S) * L, 65536)), where clamp saturates to
the native range of the encoding. -/
theorem pa_mix_master_gain_formula (P : Platform) (streams : List pa_mix_info)
    (length : Nat) (spec : pa_sample_spec) (volume : Option pa_cvolume) (mute : Bool)
    (hl : 0 < length) (hf : integer_pcm spec.format = true) :
    ∃ r K, pa_mix P streams length spec volume mute = some r ∧
      mix_case P spec.format = some (false, K) ∧
      ∀ k, k * sample_width spec.format < r.d →
        (spec.format = PA_SAMPLE_U8 →
          K.read r.data (k * sample_width spec.format)
            = PA_CLAMP_UNLIKELY
                (Int.tdiv
                  (int32_t
                    (mix_sum K mute (master_gain P spec volume (channel_at spec.channels k))
                        (channel_at spec.channels k)
                        (shift_streams K.width k (mix_setup P false streams spec))
                      * master_gain P spec volume (channel_at spec.channels k)))
                  0x10000)
                (native_min spec.format) (native_max spec.format)) ∧
        (spec.format ≠ PA_SAMPLE_U8 →
          master_gain P spec volume (channel_at spec.channels k) ≤ 0x10000 →
          K.read r.data (k * sample_width spec.format)
            = PA_CLAMP_UNLIKELY
                (Int.tdiv
                  (PA_CLAMP_UNLIKELY
                      (mix_sum K mute (master_gain P spec volume (channel_at spec.channels k))
                        (channel_at spec.channels k)
                        (shift_streams K.width k (mix_setup P false streams spec)))
                      (native_min spec.format) (native_max spec.format)
                    * master_gain P spec volume (channel_at spec.channels k))
                  0x10000)
                (native_min spec.format) (native_max spec.format)) := by
  obtain ⟨K, hc, hw, hK⟩ := integer_pcm_case P spec.format hf
  have hK2 : K = mix_u8 ∨ K = mix_s16ne P ∨ K = mix_s16re P ∨ K = mix_s32ne P
      ∨ K = mix_s32re P := by
    rcases hK with ⟨_, h⟩ | ⟨_, h⟩ | ⟨_, h⟩ | ⟨_, h⟩ | ⟨_, h⟩ <;> simp [h]
  obtain ⟨hadd, _, _, _, _⟩ := integer_pcm_zero P spec.format K hK
  have hz := integer_case_le_zero P spec.format K hc
  have hw0 := write_zero_const P spec.format K hK
  refine ⟨_, K, pa_mix_eq P streams length spec volume mute false K hl hc, hc, ?_⟩
  simp only []
  rw [← hw]
  intro k hk
  have hkn := lt_mix_count_of_lt K.width length k streams hk
  have hat := mix_sample_at K
    (mix_sample K mute (mix_linear P false (mix_volume P spec volume)) spec.channels
      (mix_setup P false streams spec))
    (fun j => integer_pcm_write_length P K hK2 _ _) _ k hkn
  unfold mix_sample at hat
  rw [master_gain_eq] at hat
  rcases hK with ⟨hfmt, rfl⟩ | ⟨hfmt, rfl⟩ | ⟨hfmt, rfl⟩ | ⟨hfmt, rfl⟩ | ⟨hfmt, rfl⟩
  · refine ⟨fun _ => ?_, fun hne => absurd hfmt hne⟩
    rw [hfmt]
    exact mix_u8_master _ k _ _ hat
  · obtain ⟨hne, hmin, hmax, _⟩ := native_s16ne P
    refine ⟨fun heq => absurd (hfmt ▸ heq) hne, fun _ hL => ?_⟩
    rw [hfmt, hmin, hmax]
    exact signed_sample_formula _ _ _ mute hadd hz hw0 (mix_s16ne_master P)
      (by decide) (by decide) _ k _ hL _ _ hat
  · obtain ⟨hne, hmin, hmax, _⟩ := native_s16re P
    refine ⟨fun heq => absurd (hfmt ▸ heq) hne, fun _ hL => ?_⟩
    rw [hfmt, hmin, hmax]
    exact signed_sample_formula _ _ _ mute hadd hz hw0 (mix_s16re_master P)
      (by decide) (by decide) _ k _ hL _ _ hat
  · obtain ⟨hne, hmin, hmax, _⟩ := native_s32ne P
    refine ⟨fun heq => absurd (hfmt ▸ heq) hne, fun _ hL => ?_⟩
    rw [hfmt, hmin, hmax]
    exact signed_sample_formula _ _ _ mute hadd hz hw0 (mix_s32ne_master P)
      (by decide) (by decide) _ k _ hL _ _ hat
  · obtain ⟨hne, hmin, hmax, _⟩ := native_s32re P
    refine ⟨fun heq => absurd (hfmt ▸ heq) hne, fun _ hL => ?_⟩
    rw [hfmt, hmin, hmax]
    exact signed_sample_formula _ _ _ mute hadd hz hw0 (mix_s32re_master P)
      (by decide) (by decide) _ k _ hL _ _ hat

/-- C8 (as stated), refuted: scaling the sample -1 by the gain `0x8000` yields 0 in the
integer cases, while (v * g) shifted right by 16 bits, the floor of v * g / 65536, is -1;
accordingly a 16-bit stream holding -1, mixed at that gain, gives the sample 0. -/
theorem integer_scale_is_not_floor :
    (mix_s16ne little_endian_host).scale (-1) 0x8000 = 0
      ∧ (mix_s32ne little_endian_host).scale (-1) 0x8000 = 0
      ∧ mix_u8.scale (-1) 0x8000 = 0
      ∧ ((-1 * 0x8000 : Int) >>> 16) = -1
      ∧ Int.fdiv (-1 * 0x8000) 0x10000 = -1
      ∧ pa_mix little_endian_host [stream_of [0xff, 0xff] 2 0x8000] 2 stereo_s16le none false
          = some { d := 2, data := [0, 0] } := by
  decide

/-- C9: for every encoding and every chunk whose length is a multiple of the frame size
(the asserted precondition), `pa_volume_memchunk` called with a volume equal to
`PA_VOLUME_NORM` on every channel returns and leaves the chunk, and with it every byte
of the buffer, unchanged. -/
theorem pa_volume_memchunk_norm_is_identity (P : Platform) (c : pa_memchunk)
    (spec : pa_sample_spec) (volume : pa_cvolume)
    (ha : c.length % P.pa_frame_size spec = 0)
    (hv : ∀ ch, ch < volume.channels → volume.values ch = P.PA_VOLUME_NORM) :
    pa_volume_memchunk P c spec volume = some c := by
  unfold pa_volume_memchunk
  rw [if_neg (by simpa using ha)]
  by_cases hs : c.memblock.is_silence = true
  · rw [if_pos hs]
  · rw [if_neg hs, if_pos ((channels_equal_to_iff volume _).2 hv)]

/-- C9, at a concrete input: a 16-bit stereo chunk of two frames under the unity
volume. -/
theorem pa_volume_memchunk_norm_is_identity_witness :
    (8 % little_endian_host.pa_frame_size stereo_s16le = 0
      ∧ ∀ ch, ch < (stereo_volume 0x10000).channels →
          (stereo_volume 0x10000).values ch = little_endian_host.PA_VOLUME_NORM)
      ∧ pa_volume_memchunk little_endian_host (chunk_of [1, 2, 3, 4, 5, 6, 7, 8] 0 8)
          stereo_s16le (stereo_volume 0x10000)
        = some (chunk_of [1, 2, 3, 4, 5, 6, 7, 8] 0 8) :=
  ⟨⟨by decide, fun _ _ => rfl⟩,
    pa_volume_memchunk_norm_is_identity little_endian_host _ stereo_s16le
      (stereo_volume 0x10000) (by decide) (fun _ _ => rfl)⟩

/-- C10: for every supported encoding and every chunk of positive, frame-aligned length
whose block is not flagged as silence, `pa_volume_memchunk` called with a volume equal
to `PA_VOLUME_MUTED` on every channel returns, leaves the block holding what
`pa_silence_memory` writes for that encoding, so that bytes `index .. index+length-1`
equal the silence byte of the encoding, and leaves all bytes outside that range
unchanged. -/
theorem pa_volume_memchunk_muted_is_silence (P : Platform) (c : pa_memchunk)
    (spec : pa_sample_spec) (volume : pa_cvolume)
    (hf : spec.format ≠ PA_SAMPLE_MAX)
    (hs : c.memblock.is_silence = false)
    (ha : c.length % P.pa_frame_size spec = 0) (hlen : 0 < c.length)
    (hch : 0 < volume.channels)
    (hv : ∀ ch, ch < volume.channels → volume.values ch = P.PA_VOLUME_MUTED)
    (hne : P.PA_VOLUME_MUTED ≠ P.PA_VOLUME_NORM) :
    ∃ c2 b, pa_volume_memchunk P c spec volume = some c2 ∧
      silence_byte spec.format = some b ∧
      pa_silence_memory c.memblock.data c.index c.length spec = some c2.memblock.data ∧
      c2.index = c.index ∧ c2.length = c.length ∧
      c2.memblock.data.length = c.memblock.data.length ∧
      ∀ i, i < c.memblock.data.length →
        c2.memblock.data.getD i 0
          = if c.index ≤ i ∧ i < c.index + c.length then b else c.memblock.data.getD i 0 := by
  obtain ⟨b, hb⟩ : ∃ b, silence_byte spec.format = some b := by
    revert hf
    cases spec.format <;> simp [silence_byte]
  have hnorm : ¬ pa_cvolume_channels_equal_to volume P.PA_VOLUME_NORM = true := by
    intro h
    have h1 := (channels_equal_to_iff volume _).1 h 0 hch
    have h2 := hv 0 hch
    exact hne (h2.symm.trans h1)
  have hmem : pa_silence_memory c.memblock.data c.index c.length spec
      = some (memset c.memblock.data c.index b c.length) := by
    unfold pa_silence_memory
    rw [if_neg (by omega), hb]
  refine ⟨⟨⟨memset c.memblock.data c.index b c.length, c.memblock.is_silence⟩, c.index,
      c.length⟩, b, ?_, hb, hmem, rfl, rfl,
    length_memset _ _ _ _, fun i hi => getD_memset _ _ _ _ i hi⟩
  unfold pa_volume_memchunk
  rw [if_neg (by simpa using ha), if_neg (by simp [hs]), if_neg hnorm,
    if_pos ((channels_equal_to_iff volume _).2 hv)]
  unfold pa_silence_memchunk
  rw [hmem]

/-- C10, at a concrete input: the middle frame of a 16-bit stereo block of three frames
is silenced by the muted volume. -/
theorem pa_volume_memchunk_muted_is_silence_witness :
    (stereo_s16le.format ≠ PA_SAMPLE_MAX
        ∧ (chunk_of [1, 2, 3, 4, 5, 6, 7, 8, 9, 10, 11, 12] 4 4).memblock.is_silence = false
        ∧ (chunk_of [1, 2, 3, 4, 5, 6, 7, 8, 9, 10, 11, 12] 4 4).length
            % little_endian_host.pa_frame_size stereo_s16le = 0
        ∧ 0 < (chunk_of [1, 2, 3, 4, 5, 6, 7, 8, 9, 10, 11, 12] 4 4).length
        ∧ 0 < (stereo_volume 0).channels
        ∧ (∀ ch, ch < (stereo_volume 0).channels →
            (stereo_volume 0).values ch = little_endian_host.PA_VOLUME_MUTED)
        ∧ little_endian_host.PA_VOLUME_MUTED ≠ little_endian_host.PA_VOLUME_NORM)
      ∧ (∃ c2 b, pa_volume_memchunk little_endian_host
            (chunk_of [1, 2, 3, 4, 5, 6, 7, 8, 9, 10, 11, 12] 4 4) stereo_s16le
            (stereo_volume 0) = some c2 ∧
          silence_byte stereo_s16le.format = some b ∧
          pa_silence_memory (chunk_of [1, 2, 3, 4, 5, 6, 7, 8, 9, 10, 11, 12] 4 4).memblock.data
            (chunk_of [1, 2, 3, 4, 5, 6, 7, 8, 9, 10, 11, 12] 4 4).index
            (chunk_of [1, 2, 3, 4, 5, 6, 7, 8, 9, 10, 11, 12] 4 4).length stereo_s16le
            = some c2.memblock.data ∧
          c2.index = (chunk_of [1, 2, 3, 4, 5, 6, 7, 8, 9, 10, 11, 12] 4 4).index ∧
          c2.length = (chunk_of [1, 2, 3, 4, 5, 6, 7, 8, 9, 10, 11, 12] 4 4).length ∧
          c2.memblock.data.length
            = (chunk_of [1, 2, 3, 4, 5, 6, 7, 8, 9, 10, 11, 12] 4 4).memblock.data.length ∧
          ∀ i, i < (chunk_of [1, 2, 3, 4, 5, 6, 7, 8, 9, 10, 11, 12] 4 4).memblock.data.length →
            c2.memblock.data.getD i 0
              = if (chunk_of [1, 2, 3, 4, 5, 6, 7, 8, 9, 10, 11, 12] 4 4).index ≤ i
                  ∧ i < (chunk_of [1, 2, 3, 4, 5, 6, 7, 8, 9, 10, 11, 12] 4 4).index
                      + (chunk_of [1, 2, 3, 4, 5, 6, 7, 8, 9, 10, 11, 12] 4 4).length
                then b
                else (chunk_of [1, 2, 3, 4, 5, 6, 7, 8, 9, 10, 11, 12] 4 4).memblock.data.getD i 0)
      ∧ pa_volume_memchunk little_endian_host
            (chunk_of [1, 2, 3, 4, 5, 6, 7, 8, 9, 10, 11, 12] 4 4) stereo_s16le
            (stereo_volume 0)
          = some (chunk_of [1, 2, 3, 4, 0, 0, 0, 0, 9, 10, 11, 12] 4 4) :=
  ⟨by decide,
    pa_volume_memchunk_muted_is_silence little_endian_host
      (chunk_of [1, 2, 3, 4, 5, 6, 7, 8, 9, 10, 11, 12] 4 4) stereo_s16le (stereo_volume 0)
      (by decide) (by decide) (by decide) (by decide) (by decide) (by decide) (by decide),
    by decide⟩

/-! ## Claims C11 to C20 -/

theorem volume_switch_unsupported (P : Platform) (c : pa_memchunk) (spec : pa_sample_spec)
    (volume : pa_cvolume) (hf : spec.format = PA_SAMPLE_MAX) :
    volume_switch P c spec volume = c.memblock.data := by
  unfold volume_switch PA_SAMPLE_S16NE PA_SAMPLE_S16RE PA_SAMPLE_S32NE PA_SAMPLE_S32RE
    PA_SAMPLE_FLOAT32NE PA_SAMPLE_FLOAT32RE
  rw [hf]
  cases P.WORDS_BIGENDIAN <;> simp

/-- C11, the code at the failing input: with an encoding outside the supported set, a
block that is not flagged as silence and a chunk that meets the alignment assertion, a
volume that is `PA_VOLUME_MUTED` on every channel makes `pa_volume_memchunk` go to
`pa_silence_memchunk`, where `silence_byte` ends in `pa_assert_not_reached()`: the call
does not return.  With a volume of one half the same call reaches the `default` branch
of the `switch` and returns with the chunk unchanged. -/
theorem pa_volume_memchunk_unsupported_muted_aborts :
    (chunk_of [1, 2, 3, 4, 5, 6, 7, 8] 0 8).length
        % byte_frame_host.pa_frame_size stereo_unsupported = 0
      ∧ pa_cvolume_channels_equal_to (stereo_volume 0) byte_frame_host.PA_VOLUME_MUTED = true
      ∧ silence_byte stereo_unsupported.format = none
      ∧ pa_volume_memchunk byte_frame_host (chunk_of [1, 2, 3, 4, 5, 6, 7, 8] 0 8)
          stereo_unsupported (stereo_volume 0) = none
      ∧ pa_volume_memchunk byte_frame_host (chunk_of [1, 2, 3, 4, 5, 6, 7, 8] 0 8)
          stereo_unsupported (stereo_volume 0x8000)
        = some (chunk_of [1, 2, 3, 4, 5, 6, 7, 8] 0 8) := by
  decide

/-- With an encoding outside the supported set and a chunk that meets the alignment
assertion, `pa_volume_memchunk` returns and leaves the chunk unchanged whenever the
block is flagged as silence, or the volume is `PA_VOLUME_NORM` on every channel, or the
volume is not `PA_VOLUME_MUTED` on every channel. -/
theorem pa_volume_memchunk_unsupported (P : Platform) (c : pa_memchunk)
    (spec : pa_sample_spec) (volume : pa_cvolume)
    (hf : spec.format = PA_SAMPLE_MAX)
    (ha : c.length % P.pa_frame_size spec = 0)
    (h : c.memblock.is_silence = true
      ∨ pa_cvolume_channels_equal_to volume P.PA_VOLUME_NORM = true
      ∨ pa_cvolume_channels_equal_to volume P.PA_VOLUME_MUTED = false) :
    pa_volume_memchunk P c spec volume = some c := by
  unfold pa_volume_memchunk
  rw [if_neg (by simpa using ha)]
  by_cases hs : c.memblock.is_silence = true
  · rw [if_pos hs]
  · rw [if_neg hs]
    by_cases hn : pa_cvolume_channels_equal_to volume P.PA_VOLUME_NORM = true
    · rw [if_pos hn]
    · rw [if_neg hn]
      have hm : ¬ pa_cvolume_channels_equal_to volume P.PA_VOLUME_MUTED = true := by
        rcases h with h | h | h
        · exact absurd h hs
        · exact absurd h hn
        · simp [h]
      rw [if_neg hm, volume_switch_unsupported P c spec volume hf]

/-- C12: for every supported encoding and every length > 0, `pa_silence_memory` returns
and sets each of the first `length` bytes of the buffer (the bytes of the block from
the pointer on) to the silence byte of the encoding, which is `0x80` for U8, `0x00` for
S16LE, S16BE, S32LE, S32BE, FLOAT32LE and FLOAT32BE, `0xD5` for A-law and `0xFF` for
u-law, and changes no other byte. -/
theorem pa_silence_memory_fills (p : List Byte) (off length : Nat) (spec : pa_sample_spec)
    (hf : spec.format ≠ PA_SAMPLE_MAX) (hl : 0 < length) :
    ∃ q b, pa_silence_memory p off length spec = some q ∧
      silence_byte spec.format = some b ∧
      (spec.format = PA_SAMPLE_U8 → b = 0x80) ∧
      (spec.format = PA_SAMPLE_S16LE ∨ spec.format = PA_SAMPLE_S16BE
          ∨ spec.format = PA_SAMPLE_S32LE ∨ spec.format = PA_SAMPLE_S32BE
          ∨ spec.format = PA_SAMPLE_FLOAT32LE ∨ spec.format = PA_SAMPLE_FLOAT32BE → b = 0x00) ∧
      (spec.format = PA_SAMPLE_ALAW → b = 0xD5) ∧
      (spec.format = PA_SAMPLE_ULAW → b = 0xFF) ∧
      q.length = p.length ∧
      ∀ i, i < p.length →
        q.getD i 0 = if off ≤ i ∧ i < off + length then b else p.getD i 0 := by
  obtain ⟨b, hb⟩ : ∃ b, silence_byte spec.format = some b := by
    revert hf
    cases spec.format <;> simp [silence_byte]
  refine ⟨memset p off b length, b, ?_, hb, ?_, ?_, ?_, ?_, length_memset _ _ _ _,
    fun i hi => getD_memset _ _ _ _ i hi⟩
  · unfold pa_silence_memory
    rw [if_neg (by omega), hb]
  · intro h; rw [h] at hb; exact (Option.some.inj hb).symm
  · intro h
    rcases h with h | h | h | h | h | h <;> (rw [h] at hb; exact (Option.some.inj hb).symm)
  · intro h; rw [h] at hb; exact (Option.some.inj hb).symm
  · intro h; rw [h] at hb; exact (Option.some.inj hb).symm

/-- C12, at a concrete input: four bytes of A-law silence written from offset 1. -/
theorem pa_silence_memory_fills_witness :
    (mono_alaw.format ≠ PA_SAMPLE_MAX ∧ 0 < 4)
      ∧ (∃ q b, pa_silence_memory [1, 2, 3, 4, 5, 6] 1 4 mono_alaw = some q ∧
          silence_byte mono_alaw.format = some b ∧
          (mono_alaw.format = PA_SAMPLE_ALAW → b = 0xD5) ∧
          q.length = ([1, 2, 3, 4, 5, 6] : List Byte).length)
      ∧ pa_silence_memory [1, 2, 3, 4, 5, 6] 1 4 mono_alaw
        = some [1, 0xD5, 0xD5, 0xD5, 0xD5, 6] :=
  ⟨by decide,
    (let ⟨q, b, h1, h2, _, _, h5, _, h7, _⟩ :=
      pa_silence_memory_fills [1, 2, 3, 4, 5, 6] 1 4 mono_alaw (by decide) (by decide)
     ⟨q, b, h1, h2, h5, h7⟩),
    by decide⟩

/-- C16: for every length `l` and every spec with frame size `fs > 0`,
`pa_frame_align(l, spec)` is the largest multiple of `fs` that is `<= l`: it is a
multiple of `fs`, it is `<= l`, `l` minus it is `< fs`, and no multiple of `fs` that is
`<= l` exceeds it. -/
theorem pa_frame_align_largest_multiple (P : Platform) (l : Nat) (ss : pa_sample_spec)
    (hfs : 0 < P.pa_frame_size ss) :
    P.pa_frame_size ss ∣ pa_frame_align P l ss ∧
      pa_frame_align P l ss ≤ l ∧
      l - pa_frame_align P l ss < P.pa_frame_size ss ∧
      ∀ m, P.pa_frame_size ss ∣ m → m ≤ l → m ≤ pa_frame_align P l ss := by
  unfold pa_frame_align
  generalize P.pa_frame_size ss = fs at *
  have h1 := Nat.div_add_mod l fs
  have h2 : l % fs < fs := Nat.mod_lt _ hfs
  have h3 : l / fs * fs = fs * (l / fs) := Nat.mul_comm _ _
  refine ⟨Dvd.intro_left _ rfl, by omega, by omega, ?_⟩
  rintro m ⟨q, rfl⟩ hm
  have hq : q ≤ l / fs := (Nat.le_div_iff_mul_le hfs).2 (by rw [Nat.mul_comm]; exact hm)
  rw [h3]
  exact Nat.mul_le_mul_left _ hq

/-- C16, at a concrete input: 7 bytes of 16-bit stereo align to 4. -/
theorem pa_frame_align_largest_multiple_witness :
    0 < little_endian_host.pa_frame_size stereo_s16le
      ∧ (little_endian_host.pa_frame_size stereo_s16le
            ∣ pa_frame_align little_endian_host 7 stereo_s16le ∧
          pa_frame_align little_endian_host 7 stereo_s16le ≤ 7 ∧
          7 - pa_frame_align little_endian_host 7 stereo_s16le
            < little_endian_host.pa_frame_size stereo_s16le ∧
          ∀ m, little_endian_host.pa_frame_size stereo_s16le ∣ m → m ≤ 7 →
            m ≤ pa_frame_align little_endian_host 7 stereo_s16le)
      ∧ pa_frame_align little_endian_host 7 stereo_s16le = 4 :=
  ⟨by decide,
    pa_frame_align_largest_multiple little_endian_host 7 stereo_s16le (by decide),
    by decide⟩

/-- C17: `pa_frame_align` is idempotent: for every length `l` and every spec with frame
size > 0, `pa_frame_align(pa_frame_align(l, spec), spec) = pa_frame_align(l, spec)`. -/
theorem pa_frame_align_idempotent (P : Platform) (l : Nat) (ss : pa_sample_spec)
    (hfs : 0 < P.pa_frame_size ss) :
    pa_frame_align P (pa_frame_align P l ss) ss = pa_frame_align P l ss := by
  unfold pa_frame_align
  rw [Nat.mul_div_cancel _ hfs]

/-- C17, at a concrete input: aligning 7 bytes of 16-bit stereo twice. -/
theorem pa_frame_align_idempotent_witness :
    0 < little_endian_host.pa_frame_size stereo_s16le
      ∧ pa_frame_align little_endian_host (pa_frame_align little_endian_host 7 stereo_s16le)
          stereo_s16le
        = pa_frame_align little_endian_host 7 stereo_s16le :=
  ⟨by decide, pa_frame_align_idempotent little_endian_host 7 stereo_s16le (by decide)⟩

/-- C18: the legacy `volume_multiply` is commutative: for all volumes `a` and `b`,
`volume_multiply(a, b) = volume_multiply(b, a)`, whatever the constant `VOLUME_NORM`. -/
theorem legacy_volume_multiply_comm (VOLUME_NORM a b : Nat) :
    Legacy.volume_multiply VOLUME_NORM a b = Legacy.volume_multiply VOLUME_NORM b a := by
  unfold Legacy.volume_multiply
  rw [Nat.mul_comm]

/-- C19, the code at the claim's input: for the unsigned-8 encoding and every length
> 0 the legacy `silence_memory` is `memset(p, 127, length)`, so every one of the
`length` bytes becomes `0x7F`, not `0x80`; three bytes for instance become 127 each. -/
theorem legacy_silence_memory_u8_fills_127 (p : List Byte) (off length : Nat) :
    Legacy.silence_memory p off (length + 1) .PA_SAMPLE_U8
        = some (memset p off 0x7F (length + 1))
      ∧ (∀ i, i < p.length →
          (memset p off 0x7F (length + 1)).getD i 0
            = if off ≤ i ∧ i < off + (length + 1) then 0x7F else p.getD i 0)
      ∧ Legacy.silence_memory [0, 0, 0] 0 3 .PA_SAMPLE_U8 = some [127, 127, 127]
      ∧ (127 : Byte) ≠ 0x80 := by
  refine ⟨?_, fun i hi => getD_memset _ _ _ _ i hi, by decide, by decide⟩
  unfold Legacy.silence_memory
  rw [if_neg (by omega)]

/-! ## The silence cache -/

theorem pool_set_length (pool : pa_mempool) (b : Nat) (x : pool_block) :
    (pool_set pool b x).blocks.length = pool.blocks.length := by
  simp [pool_set]

theorem pa_memblock_ref_length (pool : pa_mempool) (b : Nat) :
    (pa_memblock_ref pool b).blocks.length = pool.blocks.length := by
  unfold pa_memblock_ref
  split
  · exact pool_set_length _ _ _
  · rfl

theorem pa_memblock_ref_get_length (pool : pa_mempool) (b c : Nat) :
    pa_memblock_get_length (pa_memblock_ref pool b) c = pa_memblock_get_length pool c := by
  unfold pa_memblock_ref
  split
  · rename_i x hx
    unfold pa_memblock_get_length pool_set
    simp only [List.get?_eq_getElem?] at hx ⊢
    by_cases hbc : b = c
    · subst hbc
      have hlt : b < pool.blocks.length := by
        by_contra h
        rw [List.getElem?_eq_none (by omega)] at hx
        exact absurd hx (by simp)
      rw [List.getElem?_set_self hlt, hx]
    · rw [List.getElem?_set_ne hbc]
  · rfl

theorem silence_memblock_new_spec (PA_PAGE_SIZE : Nat) (pool : pa_mempool) (c : Byte) :
    (silence_memblock_new PA_PAGE_SIZE pool c).2 = pool.blocks.length ∧
      (silence_memblock_new PA_PAGE_SIZE pool c).1.blocks.length = pool.blocks.length + 1 ∧
      pa_memblock_get_length (silence_memblock_new PA_PAGE_SIZE pool c).1 pool.blocks.length
        = min pool.block_size_max (PA_SILENCE_MAX PA_PAGE_SIZE) := by
  unfold silence_memblock_new pa_memblock_new pa_mempool_block_size_max
  simp only [List.get?_eq_getElem?, List.getElem?_concat_length]
  refine ⟨?_, ?_, ?_⟩
  · trivial
  · simp [pool_set]
  · unfold pa_memblock_get_length pool_set
    simp [length_memset]

theorem silence_cache_fill_spec (PA_PAGE_SIZE : Nat) (cache : pa_silence_cache)
    (pool : pa_mempool) (format : pa_sample_format_t) (hf : format ≠ PA_SAMPLE_MAX) :
    ∃ cache2 pool2, silence_cache_fill PA_PAGE_SIZE cache pool format
        = some (cache2, pool2, pool.blocks.length) ∧
      pool2.blocks.length = pool.blocks.length + 1 ∧
      pa_memblock_get_length pool2 pool.blocks.length
        = min pool.block_size_max (PA_SILENCE_MAX PA_PAGE_SIZE) ∧
      ∀ g, cache2.blocks g
        = if same_slot format g = true then some pool.blocks.length else cache.blocks g := by
  have h0 := silence_memblock_new_spec PA_PAGE_SIZE pool 0
  have h80 := silence_memblock_new_spec PA_PAGE_SIZE pool 0x80
  have hd5 := silence_memblock_new_spec PA_PAGE_SIZE pool 0xd5
  have hff := silence_memblock_new_spec PA_PAGE_SIZE pool 0xff
  cases format <;>
    first
      | exact absurd rfl hf
      | (simp only [silence_cache_fill]
         first
           | (rw [h80.1]
              refine ⟨_, _, rfl, h80.2.1, h80.2.2, fun g => ?_⟩
              cases g <;> simp [cache_set, same_slot, zero_pattern])
           | (rw [hd5.1]
              refine ⟨_, _, rfl, hd5.2.1, hd5.2.2, fun g => ?_⟩
              cases g <;> simp [cache_set, same_slot, zero_pattern])
           | (rw [hff.1]
              refine ⟨_, _, rfl, hff.2.1, hff.2.2, fun g => ?_⟩
              cases g <;> simp [cache_set, same_slot, zero_pattern])
           | (rw [h0.1]
              refine ⟨_, _, rfl, ?_, ?_, fun g => ?_⟩
              · simp only [pa_memblock_ref_length]; exact h0.2.1
              · simp only [pa_memblock_ref_get_length]; exact h0.2.2
              · cases g <;> simp [cache_set, same_slot, zero_pattern]))

theorem valid_format (spec : pa_sample_spec) (hv : pa_sample_spec_valid spec = true) :
    spec.format ≠ PA_SAMPLE_MAX := by
  unfold pa_sample_spec_valid at hv
  simp only [Bool.and_eq_true, decide_eq_true_eq] at hv
  exact hv.1

theorem same_slot_self (format : pa_sample_format_t) : same_slot format format = true := by
  simp [same_slot]

theorem same_slot_zero (format g : pa_sample_format_t) (hg : zero_pattern g = true) :
    same_slot format g = zero_pattern format := by
  unfold same_slot
  by_cases hf : zero_pattern format = true
  · simp [hf, hg]
  · have hne : g ≠ format := by
      rintro rfl
      exact hf hg
    simp [hf, hne]

theorem same_slot_nonzero (format g : pa_sample_format_t) (hg : zero_pattern g = false) :
    same_slot format g = decide (g = format) := by
  unfold same_slot
  simp [hg]

theorem silence_get_step (P : Platform) (PA_PAGE_SIZE : Nat) (cache : pa_silence_cache)
    (pool : pa_mempool) (spec : pa_sample_spec) (length : Nat)
    (hv : pa_sample_spec_valid spec = true)
    (hwf : cache_wf cache pool) (hal : cache_aliased cache) :
    ∃ cache2 pool2 ch,
      pa_silence_memchunk_get P PA_PAGE_SIZE cache pool spec length = some (cache2, pool2, ch) ∧
      cache_wf cache2 pool2 ∧ cache_aliased cache2 ∧
      cache2.blocks spec.format = some ch.memblock ∧
      (∀ f b, cache.blocks f = some b → cache2.blocks f = some b) ∧
      (∀ b, cache.blocks spec.format = some b →
        pa_silence_memchunk_get P PA_PAGE_SIZE cache pool spec length = some (cache, pool2, ch) ∧
        pool2.blocks.length = pool.blocks.length ∧ ch.memblock = b) ∧
      (cache.blocks spec.format = none →
        ch.memblock = pool.blocks.length ∧
        pa_memblock_get_length pool2 ch.memblock
          = min pool.block_size_max (PA_SILENCE_MAX PA_PAGE_SIZE)) ∧
      ch.index = 0 ∧
      ch.length = pa_frame_align P
        (if length > pa_memblock_get_length pool2 ch.memblock ∨ length = 0
          then pa_memblock_get_length pool2 ch.memblock else length) spec := by
  have hfmt := valid_format spec hv
  unfold pa_silence_memchunk_get
  rw [if_neg (by simp [hv])]
  cases hslot : cache.blocks spec.format with
  | some b =>
    simp only []
    refine ⟨cache, pa_memblock_ref pool b, _, rfl, ?_, hal, hslot, fun _ _ h => h, ?_, ?_,
      rfl, rfl⟩
    · intro f b2 h
      rw [pa_memblock_ref_length]
      exact hwf f b2 h
    · intro b2 hb2
      cases hb2
      exact ⟨rfl, pa_memblock_ref_length _ _, rfl⟩
    · intro h; cases h
  | none =>
    obtain ⟨cache2, pool2, hfill, hlen, hget, hblocks⟩ :=
      silence_cache_fill_spec PA_PAGE_SIZE cache pool spec.format hfmt
    simp only [hfill]
    refine ⟨cache2, pa_memblock_ref pool2 pool.blocks.length, _, rfl, ?_, ?_, ?_, ?_, ?_, ?_,
      rfl, rfl⟩
    · intro f b2 h
      rw [pa_memblock_ref_length, hlen]
      rw [hblocks f] at h
      split at h
      · cases h; omega
      · have := hwf f b2 h; omega
    · constructor
      · intro f g hf hg
        rw [hblocks f, hblocks g, same_slot_zero _ f hf, same_slot_zero _ g hg]
        split
        · rfl
        · exact hal.1 f g hf hg
      · intro f g b2 hf hg h
        rw [hblocks f, same_slot_zero _ f hf] at h
        rw [hblocks g, same_slot_nonzero _ g hg]
        by_cases hz : zero_pattern spec.format = true
        · rw [if_pos hz] at h
          cases h
          have hne : g ≠ spec.format := by
            rintro rfl
            rw [hz] at hg
            exact absurd hg (by simp)
          rw [if_neg (by simp [hne])]
          intro hg2
          have := hwf g _ hg2
          omega
        · rw [if_neg hz] at h
          have hlt := hwf f b2 h
          by_cases hgf : g = spec.format
          · rw [if_pos (by simp [hgf])]
            intro h2
            cases h2
            omega
          · rw [if_neg (by simp [hgf])]
            exact hal.2 f g b2 hf hg h
    · simp only []
      rw [hblocks spec.format, same_slot_self, if_pos rfl]
    · intro f b2 h
      rw [hblocks f]
      split
      · have := hwf f b2 h
        rename_i hs
        exfalso
        unfold same_slot at hs
        simp only [Bool.or_eq_true, Bool.and_eq_true, decide_eq_true_eq] at hs
        rcases hs with ⟨hz1, hz2⟩ | rfl
        · have hzero : zero_pattern f = true := hz2
          have := hal.1 f spec.format hzero hz1
          rw [h, hslot] at this
          exact absurd this (by simp)
        · rw [hslot] at h
          exact absurd h (by simp)
      · exact h
    · intro b2 hb2
      exact absurd hb2 (by simp)
    · intro _
      refine ⟨rfl, ?_⟩
      simp only []
      rw [pa_memblock_ref_get_length]
      exact hget

theorem silence_cache_run_append (P : Platform) (PA_PAGE_SIZE : Nat)
    (xs ys : List (pa_sample_spec × Nat)) (cache : pa_silence_cache) (pool : pa_mempool) :
    silence_cache_run P PA_PAGE_SIZE cache pool (xs ++ ys)
      = match silence_cache_run P PA_PAGE_SIZE cache pool xs with
        | none => none
        | some (cache2, pool2, chunks) =>
          match silence_cache_run P PA_PAGE_SIZE cache2 pool2 ys with
          | none => none
          | some (cache3, pool3, chunks2) => some (cache3, pool3, chunks ++ chunks2) := by
  induction xs generalizing cache pool with
  | nil =>
    simp only [List.nil_append, silence_cache_run]
    cases silence_cache_run P PA_PAGE_SIZE cache pool ys with
    | none => rfl
    | some r => rfl
  | cons x xs ih =>
    simp only [List.cons_append, silence_cache_run]
    cases pa_silence_memchunk_get P PA_PAGE_SIZE cache pool x.1 x.2 with
    | none => rfl
    | some r =>
      obtain ⟨c, p, ch⟩ := r
      simp only []
      rw [show xs.append ys = xs ++ ys from rfl, ih]
      cases silence_cache_run P PA_PAGE_SIZE c p xs with
      | none => rfl
      | some r2 =>
        obtain ⟨c2, p2, chs⟩ := r2
        simp only []
        cases silence_cache_run P PA_PAGE_SIZE c2 p2 ys with
        | none => rfl
        | some r3 => rfl

theorem silence_cache_run_inv (P : Platform) (PA_PAGE_SIZE : Nat)
    (reqs : List (pa_sample_spec × Nat)) :
    ∀ (cache : pa_silence_cache) (pool : pa_mempool),
      (∀ r ∈ reqs, pa_sample_spec_valid r.1 = true) →
      cache_wf cache pool → cache_aliased cache →
      ∃ cache2 pool2 chunks,
        silence_cache_run P PA_PAGE_SIZE cache pool reqs = some (cache2, pool2, chunks) ∧
        cache_wf cache2 pool2 ∧ cache_aliased cache2 ∧
        (∀ f b, cache.blocks f = some b → cache2.blocks f = some b) := by
  induction reqs with
  | nil =>
    intro cache pool _ hwf hal
    exact ⟨cache, pool, [], rfl, hwf, hal, fun _ _ h => h⟩
  | cons r rest ih =>
    intro cache pool hv hwf hal
    obtain ⟨c1, p1, ch, hget, hwf1, hal1, _, hkeep1, _⟩ :=
      silence_get_step P PA_PAGE_SIZE cache pool r.1 r.2 (hv r (List.mem_cons_self _ _)) hwf hal
    obtain ⟨c2, p2, chs, hrun, hwf2, hal2, hkeep2⟩ :=
      ih c1 p1 (fun x hx => hv x (List.mem_cons_of_mem _ hx)) hwf1 hal1
    refine ⟨c2, p2, ch :: chs, ?_, hwf2, hal2, fun f b h => hkeep2 f b (hkeep1 f b h)⟩
    simp only [silence_cache_run, hget, hrun]

theorem cache_init_inv (pool : pa_mempool) :
    cache_wf pa_silence_cache_init pool ∧ cache_aliased pa_silence_cache_init := by
  refine ⟨fun f b h => ?_, fun _ _ _ _ => rfl, fun f g b _ _ h => ?_⟩
  · simp [pa_silence_cache_init] at h
  · simp [pa_silence_cache_init] at h

theorem pa_frame_align_le (P : Platform) (l : Nat) (ss : pa_sample_spec) :
    pa_frame_align P l ss ≤ l := by
  unfold pa_frame_align
  exact Nat.div_mul_le_self _ _

theorem pa_frame_align_rem (P : Platform) (l : Nat) (ss : pa_sample_spec)
    (hfs : 0 < P.pa_frame_size ss) : l - pa_frame_align P l ss < P.pa_frame_size ss := by
  unfold pa_frame_align
  have h1 := Nat.div_add_mod l (P.pa_frame_size ss)
  have h2 : l % P.pa_frame_size ss < P.pa_frame_size ss := Nat.mod_lt _ hfs
  have h3 : l / P.pa_frame_size ss * P.pa_frame_size ss
      = P.pa_frame_size ss * (l / P.pa_frame_size ss) := Nat.mul_comm _ _
  omega

theorem pa_frame_align_dvd (P : Platform) (l : Nat) (ss : pa_sample_spec) :
    P.pa_frame_size ss ∣ pa_frame_align P l ss := by
  unfold pa_frame_align
  exact Dvd.intro_left _ rfl

/-- C13: starting from an initialised cache and any pool, after any calls of
`pa_silence_memchunk_get` that end with one for any of S16LE, S16BE, S32LE, S32BE,
FLOAT32LE, FLOAT32BE, all six of those cache slots hold the same block `b`; after any
further calls the six slots still hold `b`, no other slot (U8, A-law, u-law) holds it,
and every `pa_silence_memchunk_get` for any of the six returns a chunk backed by `b`,
leaves the cache as it is and creates no new block in the pool. -/
theorem silence_cache_zero_encodings_share (P : Platform) (PA_PAGE_SIZE : Nat)
    (pool : pa_mempool) (before later : List (pa_sample_spec × Nat))
    (spec : pa_sample_spec) (length : Nat)
    (hb : ∀ r ∈ before, pa_sample_spec_valid r.1 = true)
    (hl : ∀ r ∈ later, pa_sample_spec_valid r.1 = true)
    (hv : pa_sample_spec_valid spec = true) (hz : zero_pattern spec.format = true) :
    ∃ cache1 pool1 chunks1 b,
      silence_cache_run P PA_PAGE_SIZE pa_silence_cache_init pool (before ++ [(spec, length)])
        = some (cache1, pool1, chunks1) ∧
      (∀ f, zero_pattern f = true → cache1.blocks f = some b) ∧
      (∀ f, zero_pattern f = false → cache1.blocks f ≠ some b) ∧
      ∃ cache2 pool2 chunks2,
        silence_cache_run P PA_PAGE_SIZE cache1 pool1 later = some (cache2, pool2, chunks2) ∧
        (∀ f, zero_pattern f = true → cache2.blocks f = some b) ∧
        (∀ f, zero_pattern f = false → cache2.blocks f ≠ some b) ∧
        ∀ (spec2 : pa_sample_spec) (length2 : Nat),
          pa_sample_spec_valid spec2 = true → zero_pattern spec2.format = true →
          ∃ pool3 chunk,
            pa_silence_memchunk_get P PA_PAGE_SIZE cache2 pool2 spec2 length2
              = some (cache2, pool3, chunk) ∧
            chunk.memblock = b ∧ pool3.blocks.length = pool2.blocks.length := by
  obtain ⟨hwf0, hal0⟩ := cache_init_inv pool
  obtain ⟨c0, p0, chs0, hrun0, hwfa, hala, _⟩ :=
    silence_cache_run_inv P PA_PAGE_SIZE before pa_silence_cache_init pool hb hwf0 hal0
  obtain ⟨c1, p1, ch, hget, hwf1, hal1, hslot, _, _⟩ :=
    silence_get_step P PA_PAGE_SIZE c0 p0 spec length hv hwfa hala
  have hz1 : ∀ f, zero_pattern f = true → c1.blocks f = some ch.memblock := by
    intro f hf
    rw [hal1.1 f spec.format hf hz]
    exact hslot
  obtain ⟨c2, p2, chs2, hrun2, hwf2, hal2, hkeep2⟩ :=
    silence_cache_run_inv P PA_PAGE_SIZE later c1 p1 hl hwf1 hal1
  have hz2 : ∀ f, zero_pattern f = true → c2.blocks f = some ch.memblock :=
    fun f hf => hkeep2 f _ (hz1 f hf)
  refine ⟨c1, p1, chs0 ++ [ch], ch.memblock, ?_, hz1,
    fun g hg => hal1.2 spec.format g _ hz hg hslot, c2, p2, chs2, hrun2, hz2,
    fun g hg => hal2.2 spec.format g _ hz hg (hz2 _ hz), ?_⟩
  · rw [silence_cache_run_append, hrun0]
    simp only [silence_cache_run, hget]
  · intro spec2 length2 hv2 hzs
    obtain ⟨c3, p3, ch3, _, _, _, _, _, hsame, _⟩ :=
      silence_get_step P PA_PAGE_SIZE c2 p2 spec2 length2 hv2 hwf2 hal2
    obtain ⟨hg3, hlen3, hb3⟩ := hsame _ (hz2 _ hzs)
    exact ⟨p3, ch3, hg3, hb3, hlen3⟩

/-- C13, at a concrete input: after a request for U8 and one for S16LE on an empty pool,
then one for A-law, a request for S16BE is served from the block of S16LE. -/
theorem silence_cache_zero_encodings_share_witness :
    ((∀ r ∈ [(stereo_u8, 0)], pa_sample_spec_valid r.1 = true)
        ∧ (∀ r ∈ [(mono_alaw, 4)], pa_sample_spec_valid r.1 = true)
        ∧ pa_sample_spec_valid stereo_s16le = true ∧ zero_pattern stereo_s16le.format = true)
      ∧ (∃ cache1 pool1 chunks1 b,
          silence_cache_run little_endian_host 4096 pa_silence_cache_init small_pool
            ([(stereo_u8, 0)] ++ [(stereo_s16le, 0)]) = some (cache1, pool1, chunks1) ∧
          (∀ f, zero_pattern f = true → cache1.blocks f = some b) ∧
          (∀ f, zero_pattern f = false → cache1.blocks f ≠ some b) ∧
          ∃ cache2 pool2 chunks2,
            silence_cache_run little_endian_host 4096 cache1 pool1 [(mono_alaw, 4)]
              = some (cache2, pool2, chunks2) ∧
            (∀ f, zero_pattern f = true → cache2.blocks f = some b) ∧
            (∀ f, zero_pattern f = false → cache2.blocks f ≠ some b) ∧
            ∀ (spec2 : pa_sample_spec) (length2 : Nat),
              pa_sample_spec_valid spec2 = true → zero_pattern spec2.format = true →
              ∃ pool3 chunk,
                pa_silence_memchunk_get little_endian_host 4096 cache2 pool2 spec2 length2
                  = some (cache2, pool3, chunk) ∧
                chunk.memblock = b ∧ pool3.blocks.length = pool2.blocks.length)
      ∧ (silence_cache_run little_endian_host 4096 pa_silence_cache_init small_pool
            [(stereo_u8, 0), (stereo_s16le, 0), (mono_alaw, 4), (stereo_s16be, 4)]).map
          (fun r => (r.2.2, r.2.1.blocks.length))
        = some ([⟨0, 0, 8⟩, ⟨1, 0, 8⟩, ⟨2, 0, 4⟩, ⟨1, 0, 4⟩], 3) :=
  ⟨⟨by decide, by decide, by decide, by decide⟩,
    silence_cache_zero_encodings_share little_endian_host 4096 small_pool [(stereo_u8, 0)]
      [(mono_alaw, 4)] stereo_s16le 0 (by decide) (by decide) (by decide) (by decide),
    by decide⟩

/-- C14: in every state of the cache reached from an initialised cache by calls of
`pa_silence_memchunk_get`, for every valid sample spec (of positive frame size) and
every requested length, the call returns a chunk with index 0 and length
`pa_frame_align(m, spec)`, where `m` is the length `L` of the cached block when the
requested length is 0 or exceeds `L` and the requested length otherwise; hence the
returned length is a multiple of the frame size, is at most `L`, is at most the
requested length whenever that is non-zero, and falls short of `m` by less than one
frame.  A block made by this call has `L = min(block_size_max, PA_SILENCE_MAX)`. -/
theorem silence_chunk_is_frame_aligned (P : Platform) (PA_PAGE_SIZE : Nat)
    (pool : pa_mempool) (reqs : List (pa_sample_spec × Nat))
    (spec : pa_sample_spec) (length : Nat)
    (hr : ∀ r ∈ reqs, pa_sample_spec_valid r.1 = true)
    (hv : pa_sample_spec_valid spec = true) (hfs : 0 < P.pa_frame_size spec) :
    ∃ cache1 pool1 chunks1,
      silence_cache_run P PA_PAGE_SIZE pa_silence_cache_init pool reqs
        = some (cache1, pool1, chunks1) ∧
      ∃ cache2 pool2 chunk,
        pa_silence_memchunk_get P PA_PAGE_SIZE cache1 pool1 spec length
          = some (cache2, pool2, chunk) ∧
        chunk.index = 0 ∧
        chunk.length = pa_frame_align P
          (if length = 0 ∨ length > pa_memblock_get_length pool2 chunk.memblock
            then pa_memblock_get_length pool2 chunk.memblock else length) spec ∧
        P.pa_frame_size spec ∣ chunk.length ∧
        chunk.length ≤ pa_memblock_get_length pool2 chunk.memblock ∧
        (length ≠ 0 → chunk.length ≤ length) ∧
        (if length = 0 ∨ length > pa_memblock_get_length pool2 chunk.memblock
            then pa_memblock_get_length pool2 chunk.memblock else length) - chunk.length
          < P.pa_frame_size spec ∧
        (cache1.blocks spec.format = none →
          pa_memblock_get_length pool2 chunk.memblock
            = min pool1.block_size_max (PA_SILENCE_MAX PA_PAGE_SIZE)) := by
  obtain ⟨hwf0, hal0⟩ := cache_init_inv pool
  obtain ⟨c1, p1, chs1, hrun, hwf1, hal1, _⟩ :=
    silence_cache_run_inv P PA_PAGE_SIZE reqs pa_silence_cache_init pool hr hwf0 hal0
  obtain ⟨c2, p2, ch, hget, _, _, _, _, _, hnew, hidx, hlen⟩ :=
    silence_get_step P PA_PAGE_SIZE c1 p1 spec length hv hwf1 hal1
  have hm : ch.length = pa_frame_align P
      (if length = 0 ∨ length > pa_memblock_get_length p2 ch.memblock
        then pa_memblock_get_length p2 ch.memblock else length) spec := by
    rw [hlen]
    congr 1
    by_cases h : length > pa_memblock_get_length p2 ch.memblock ∨ length = 0
    · rw [if_pos h, if_pos (by tauto)]
    · rw [if_neg h, if_neg (by tauto)]
  refine ⟨c1, p1, chs1, hrun, c2, p2, ch, hget, hidx, hm, ?_, ?_, ?_, ?_,
    fun h => (hnew h).2⟩
  · rw [hlen]; exact pa_frame_align_dvd P _ spec
  · rw [hlen]
    refine Nat.le_trans (pa_frame_align_le P _ spec) ?_
    split <;> omega
  · intro hne
    rw [hlen]
    refine Nat.le_trans (pa_frame_align_le P _ spec) ?_
    split <;> omega
  · have hrem := pa_frame_align_rem P
      (if length = 0 ∨ length > pa_memblock_get_length p2 ch.memblock
        then pa_memblock_get_length p2 ch.memblock else length) spec hfs
    rw [← hm] at hrem
    exact hrem

/-- C14, at a concrete input: on a pool of 8-byte blocks a request of 7 bytes of 16-bit
stereo silence after a request for U8 yields a chunk of 4 bytes at index 0. -/
theorem silence_chunk_is_frame_aligned_witness :
    ((∀ r ∈ [(stereo_u8, 0)], pa_sample_spec_valid r.1 = true)
        ∧ pa_sample_spec_valid stereo_s16le = true
        ∧ 0 < little_endian_host.pa_frame_size stereo_s16le)
      ∧ (∃ cache1 pool1 chunks1,
          silence_cache_run little_endian_host 4096 pa_silence_cache_init small_pool
            [(stereo_u8, 0)] = some (cache1, pool1, chunks1) ∧
          ∃ cache2 pool2 chunk,
            pa_silence_memchunk_get little_endian_host 4096 cache1 pool1 stereo_s16le 7
              = some (cache2, pool2, chunk) ∧
            chunk.index = 0 ∧
            chunk.length = pa_frame_align little_endian_host
              (if 7 = 0 ∨ 7 > pa_memblock_get_length pool2 chunk.memblock
                then pa_memblock_get_length pool2 chunk.memblock else 7) stereo_s16le ∧
            little_endian_host.pa_frame_size stereo_s16le ∣ chunk.length ∧
            chunk.length ≤ pa_memblock_get_length pool2 chunk.memblock ∧
            (7 ≠ 0 → chunk.length ≤ 7) ∧
            (if 7 = 0 ∨ 7 > pa_memblock_get_length pool2 chunk.memblock
                then pa_memblock_get_length pool2 chunk.memblock else 7) - chunk.length
              < little_endian_host.pa_frame_size stereo_s16le ∧
            (cache1.blocks stereo_s16le.format = none →
              pa_memblock_get_length pool2 chunk.memblock
                = min pool1.block_size_max (PA_SILENCE_MAX 4096)))
      ∧ (silence_cache_run little_endian_host 4096 pa_silence_cache_init small_pool
            [(stereo_u8, 0), (stereo_s16le, 7)]).map (fun r => r.2.2)
          = some [⟨0, 0, 8⟩, ⟨1, 0, 4⟩] :=
  ⟨⟨by decide, by decide, by decide⟩,
    silence_chunk_is_frame_aligned little_endian_host 4096 small_pool [(stereo_u8, 0)]
      stereo_s16le 7 (by decide) (by decide) (by decide),
    by decide⟩

/-! ## The interleaving loops -/


theorem length_poke (p : List Byte) (off : Nat) (xs : List Byte) :
    (poke p off xs).length = p.length := by
  induction p generalizing off xs with
  | nil => simp [poke]
  | cons b p ih =>
    cases xs with
    | nil => simp [poke]
    | cons x xs =>
      cases off with
      | zero => simp [poke, ih]
      | succ off => simp [poke, ih]

theorem getD_poke (p : List Byte) (off : Nat) (xs : List Byte) (i : Nat) (hi : i < p.length) :
    (poke p off xs).getD i 0
      = if off ≤ i ∧ i < off + xs.length then xs.getD (i - off) 0 else p.getD i 0 := by
  induction p generalizing off xs i with
  | nil => simp at hi
  | cons b p ih =>
    cases xs with
    | nil =>
      simp only [poke, List.length_nil, Nat.add_zero]
      rw [if_neg (by omega)]
    | cons x xs =>
      cases off with
      | zero =>
        cases i with
        | zero => simp [poke]
        | succ i =>
          simp only [poke, List.getD_cons_succ]
          rw [ih 0 xs i (by simpa using hi)]
          simp only [Nat.zero_le, true_and, Nat.zero_add, Nat.sub_zero, List.length_cons,
            List.getD_cons_succ]
          have e : (i + 1 < xs.length + 1) ↔ (i < xs.length) := by omega
          simp only [e]
      | succ off =>
        cases i with
        | zero => simp [poke]
        | succ i =>
          simp only [poke, List.getD_cons_succ]
          rw [ih off (x :: xs) i (by simpa using hi)]
          have e : (off + 1 ≤ i + 1 ∧ i + 1 < off + 1 + (x :: xs).length)
              ↔ (off ≤ i ∧ i < off + (x :: xs).length) := by omega
          have e2 : i + 1 - (off + 1) = i - off := by omega
          simp only [e, e2]

theorem length_oil_memcpy (dst : List Byte) (d : Nat) (src : List Byte) (s n : Nat) :
    (oil_memcpy dst d src s n).length = dst.length := by
  unfold oil_memcpy
  exact length_poke _ _ _

theorem getD_oil_memcpy (dst : List Byte) (d : Nat) (src : List Byte) (s n i : Nat)
    (hi : i < dst.length) :
    (oil_memcpy dst d src s n).getD i 0
      = if d ≤ i ∧ i < d + n then src.getD (s + (i - d)) 0 else dst.getD i 0 := by
  unfold oil_memcpy
  rw [getD_poke _ _ _ _ hi]
  simp only [List.length_map, List.length_range]
  split
  · rename_i h
    rw [List.getD_eq_getElem _ _ (by simp; omega)]
    simp
  · rfl

theorem length_copy_frames (src : List Byte) (ss sstep dstep n : Nat) (dst : List Byte)
    (s d : Nat) : (copy_frames src ss sstep dstep n dst s d).length = dst.length := by
  induction n generalizing dst s d with
  | zero => rfl
  | succ n ih =>
    simp only [copy_frames]
    rw [ih, length_oil_memcpy]

theorem copy_frames_miss (src : List Byte) (ss sstep dstep n : Nat) (dst : List Byte)
    (s d i : Nat) (hi : i < dst.length)
    (h : ∀ j, j < n → i < d + j * dstep ∨ d + j * dstep + ss ≤ i) :
    (copy_frames src ss sstep dstep n dst s d).getD i 0 = dst.getD i 0 := by
  induction n generalizing dst s d with
  | zero => rfl
  | succ n ih =>
    simp only [copy_frames]
    rw [ih _ _ _ (by rw [length_oil_memcpy]; exact hi), getD_oil_memcpy _ _ _ _ _ _ hi]
    · have h0 := h 0 (by omega)
      rw [if_neg (by omega)]
    · intro j hj
      have hj1 := h (j + 1) (by omega)
      rw [Nat.succ_mul] at hj1
      omega

theorem copy_frames_hit (src : List Byte) (ss sstep dstep n : Nat) (dst : List Byte)
    (s d j k : Nat) (hss : ss ≤ dstep) (hj : j < n) (hk : k < ss)
    (hi : d + j * dstep + k < dst.length) :
    (copy_frames src ss sstep dstep n dst s d).getD (d + j * dstep + k) 0
      = src.getD (s + j * sstep + k) 0 := by
  induction n generalizing dst s d j with
  | zero => omega
  | succ n ih =>
    simp only [copy_frames]
    cases j with
    | zero =>
      simp only [Nat.zero_mul, Nat.add_zero] at hi ⊢
      rw [copy_frames_miss _ _ _ _ _ _ _ _ _ (by rw [length_oil_memcpy]; exact hi),
        getD_oil_memcpy _ _ _ _ _ _ hi, if_pos (by omega)]
      · congr 1; omega
      · intro j _
        omega
    | succ j =>
      have e1 : d + (j + 1) * dstep + k = (d + dstep) + j * dstep + k := by
        rw [Nat.succ_mul]; omega
      have e2 : s + (j + 1) * sstep + k = (s + sstep) + j * sstep + k := by
        rw [Nat.succ_mul]; omega
      rw [e1, e2]
      exact ih _ _ _ _ (by omega) (by rw [length_oil_memcpy, ← e1]; exact hi)

theorem frame_disjoint (ss channels c1 c2 j1 j2 k : Nat) (h1 : c1 < channels)
    (h2 : c2 < channels) (hne : c1 ≠ c2) (hk : k < ss) :
    c1 * ss + j1 * (ss * channels) + k < c2 * ss + j2 * (ss * channels)
      ∨ c2 * ss + j2 * (ss * channels) + ss ≤ c1 * ss + j1 * (ss * channels) + k := by
  have hc1 : c1 * ss + ss ≤ ss * channels := by
    have : (c1 + 1) * ss ≤ channels * ss := Nat.mul_le_mul_right _ h1
    rw [Nat.succ_mul, Nat.mul_comm channels ss] at this
    exact this
  have hc2 : c2 * ss + ss ≤ ss * channels := by
    have : (c2 + 1) * ss ≤ channels * ss := Nat.mul_le_mul_right _ h2
    rw [Nat.succ_mul, Nat.mul_comm channels ss] at this
    exact this
  generalize ss * channels = fs at *
  rcases Nat.lt_trichotomy j1 j2 with hj | hj | hj
  · have : (j1 + 1) * fs ≤ j2 * fs := Nat.mul_le_mul_right _ hj
    rw [Nat.succ_mul] at this
    omega
  · subst hj
    rcases Nat.lt_or_gt_of_ne hne with hc | hc
    · have : (c1 + 1) * ss ≤ c2 * ss := Nat.mul_le_mul_right _ hc
      rw [Nat.succ_mul] at this
      omega
    · have : (c2 + 1) * ss ≤ c1 * ss := Nat.mul_le_mul_right _ hc
      rw [Nat.succ_mul] at this
      omega
  · have : (j2 + 1) * fs ≤ j1 * fs := Nat.mul_le_mul_right _ hj
    rw [Nat.succ_mul] at this
    omega

theorem length_interleave_channels (src : List (List Byte)) (ss n fs r c : Nat)
    (dst : List Byte) : (interleave_channels src ss n fs r c dst).length = dst.length := by
  induction r generalizing c dst with
  | zero => rfl
  | succ r ih =>
    simp only [interleave_channels]
    rw [ih, length_copy_frames]

theorem interleave_channels_miss (src : List (List Byte)) (ss n fs r c0 : Nat)
    (dst : List Byte) (i : Nat) (hi : i < dst.length)
    (h : ∀ c j, c0 ≤ c → c < c0 + r → j < n → i < c * ss + j * fs ∨ c * ss + j * fs + ss ≤ i) :
    (interleave_channels src ss n fs r c0 dst).getD i 0 = dst.getD i 0 := by
  induction r generalizing c0 dst with
  | zero => rfl
  | succ r ih =>
    simp only [interleave_channels]
    rw [ih _ _ (by rw [length_copy_frames]; exact hi)]
    · exact copy_frames_miss _ _ _ _ _ _ _ _ _ hi
        (fun j hj => h c0 j (Nat.le_refl _) (by omega) hj)
    · intro c j hc1 hc2 hj
      exact h c j (by omega) (by omega) hj

theorem interleave_channels_hit (src : List (List Byte)) (ss n channels r c0 : Nat)
    (dst : List Byte) (c j k : Nat) (hc0 : c0 ≤ c) (hcr : c < c0 + r)
    (hr : c0 + r ≤ channels) (hj : j < n) (hk : k < ss)
    (hi : c * ss + j * (ss * channels) + k < dst.length) :
    (interleave_channels src ss n (ss * channels) r c0 dst).getD
        (c * ss + j * (ss * channels) + k) 0
      = (src.getD c []).getD (j * ss + k) 0 := by
  induction r generalizing c0 dst with
  | zero => omega
  | succ r ih =>
    simp only [interleave_channels]
    by_cases hc : c = c0
    · subst hc
      have hss : ss ≤ ss * channels := by
        have : 1 * ss ≤ channels * ss := Nat.mul_le_mul_right _ (by omega)
        rw [Nat.one_mul, Nat.mul_comm] at this
        exact this
      rw [interleave_channels_miss _ _ _ _ _ _ _ _ (by rw [length_copy_frames]; exact hi),
        copy_frames_hit _ _ _ _ _ _ _ _ _ _ hss hj hk hi]
      · simp
      · intro c2 j2 h1 h2 _
        exact frame_disjoint ss channels c c2 j j2 k (by omega) (by omega) (by omega) hk
    · exact ih (c0 + 1) _ (by omega) (by omega) (by omega)
        (by rw [length_copy_frames]; exact hi)

theorem length_deinterleave_channels (src : List Byte) (ss n fs r c : Nat)
    (dst : List (List Byte)) :
    (deinterleave_channels src ss n fs r c dst).length = dst.length := by
  induction r generalizing c dst with
  | zero => rfl
  | succ r ih =>
    simp only [deinterleave_channels]
    rw [ih, List.length_set]

theorem getD_set_list (l : List (List Byte)) (i j : Nat) (a : List Byte) :
    (l.set i a).getD j [] = if i = j ∧ j < l.length then a else l.getD j [] := by
  simp only [List.getD_eq_getElem?_getD, List.getElem?_set]
  by_cases hij : i = j
  · subst hij
    by_cases hl : i < l.length
    · simp [hl]
    · have hnone : l[i]? = none := List.getElem?_eq_none (by omega)
      simp [hl, hnone]
  · simp [hij]

theorem deinterleave_channels_getD (src : List Byte) (ss n fs r c0 : Nat)
    (dst : List (List Byte)) (c : Nat) :
    (deinterleave_channels src ss n fs r c0 dst).getD c []
      = if c0 ≤ c ∧ c < c0 + r ∧ c < dst.length
        then copy_frames src ss fs ss n (dst.getD c []) (c * ss) 0
        else dst.getD c [] := by
  induction r generalizing c0 dst with
  | zero =>
    simp only [deinterleave_channels]
    rw [if_neg (by omega)]
  | succ r ih =>
    simp only [deinterleave_channels]
    rw [ih, List.length_set, getD_set_list]
    by_cases h1 : c0 = c
    · subst h1
      split_ifs <;> first | rfl | omega
    · split_ifs <;> first | rfl | omega

theorem ext_getD_bytes (l1 l2 : List Byte) (hl : l1.length = l2.length)
    (h : ∀ i, i < l1.length → l1.getD i 0 = l2.getD i 0) : l1 = l2 := by
  apply List.ext_getElem hl
  intro i h1 h2
  have := h i h1
  simp only [List.getD_eq_getElem?_getD, List.getElem?_eq_getElem h1,
    List.getElem?_eq_getElem h2, Option.getD_some] at this
  exact this

theorem ext_getD_lists (l1 l2 : List (List Byte)) (hl : l1.length = l2.length)
    (h : ∀ i, i < l1.length → l1.getD i [] = l2.getD i []) : l1 = l2 := by
  apply List.ext_getElem hl
  intro i h1 h2
  have := h i h1
  simp only [List.getD_eq_getElem?_getD, List.getElem?_eq_getElem h1,
    List.getElem?_eq_getElem h2, Option.getD_some] at this
  exact this

theorem getD_mem_lists (l : List (List Byte)) (i : Nat) (h : i < l.length) :
    l.getD i [] ∈ l := by
  rw [List.getD_eq_getElem?_getD, List.getElem?_eq_getElem h, Option.getD_some]
  exact List.getElem_mem h

/-- C15: de-interleaving the output of interleaving gives back the original per-channel
buffers. With `channels` buffers of `n` samples of `ss` bytes each, a destination of at least
`n` frames and `channels` output buffers of `n` samples each, `pa_interleave` succeeds and
`pa_deinterleave` of what it wrote returns exactly the buffers that went in. -/
theorem pa_deinterleave_pa_interleave (bufs out : List (List Byte)) (dst : List Byte)
    (channels ss n : Nat) (hc : 0 < channels) (hs : 0 < ss) (hn : 0 < n)
    (hbl : bufs.length = channels) (hb : ∀ b, b ∈ bufs → b.length = n * ss)
    (hol : out.length = channels) (ho : ∀ b, b ∈ out → b.length = n * ss)
    (hd : n * (ss * channels) ≤ dst.length) :
    ∃ mid, pa_interleave bufs channels dst ss n = some mid
      ∧ mid.length = dst.length
      ∧ pa_deinterleave mid out channels ss n = some bufs := by
  refine ⟨interleave_channels bufs ss n (ss * channels) channels 0 dst, ?_, ?_, ?_⟩
  · simp only [pa_interleave]
    rw [if_neg (by omega)]
  · exact length_interleave_channels _ _ _ _ _ _ _
  · simp only [pa_deinterleave]
    rw [if_neg (by omega)]
    congr 1
    apply ext_getD_lists
    · rw [length_deinterleave_channels, hol, hbl]
    · intro c hcl
      rw [length_deinterleave_channels, hol] at hcl
      rw [deinterleave_channels_getD, if_pos (by omega)]
      have hoc : (out.getD c []).length = n * ss := ho _ (getD_mem_lists _ _ (by omega))
      have hbc : (bufs.getD c []).length = n * ss := hb _ (getD_mem_lists _ _ (by omega))
      apply ext_getD_bytes
      · rw [length_copy_frames, hoc, hbc]
      · intro i hi
        rw [length_copy_frames, hoc] at hi
        have hj : i / ss < n := by
          rw [Nat.div_lt_iff_lt_mul hs]
          exact hi
        have hk : i % ss < ss := Nat.mod_lt _ hs
        have hik : i = 0 + (i / ss) * ss + i % ss := by
          have := Nat.div_add_mod i ss
          rw [Nat.mul_comm] at this
          omega
        have hfs : c * ss + ss ≤ ss * channels := by
          have : (c + 1) * ss ≤ channels * ss := Nat.mul_le_mul_right _ hcl
          rw [Nat.succ_mul, Nat.mul_comm channels ss] at this
          exact this
        have hjf : (i / ss) * (ss * channels) + ss * channels ≤ n * (ss * channels) := by
          have : (i / ss + 1) * (ss * channels) ≤ n * (ss * channels) :=
            Nat.mul_le_mul_right _ hj
          rw [Nat.succ_mul] at this
          exact this
        rw [hik]
        rw [copy_frames_hit _ _ _ _ _ _ _ _ _ _ (Nat.le_refl _) hj hk
          (by rw [hoc, ← hik]; exact hi)]
        rw [interleave_channels_hit bufs ss n channels channels 0 dst c (i / ss) (i % ss)
          (Nat.zero_le _) (by omega) (by omega) hj hk (by omega)]
        congr 1
        omega

/-- C15, at a concrete input: three channels of two 2-byte samples each. -/
theorem pa_deinterleave_pa_interleave_witness :
    ∃ mid, pa_interleave [[1, 2, 3, 4], [5, 6, 7, 8], [9, 10, 11, 12]] 3
        (List.replicate 12 0) 2 2 = some mid
      ∧ mid.length = (List.replicate 12 (0 : Byte)).length
      ∧ pa_deinterleave mid [[0, 0, 0, 0], [0, 0, 0, 0], [0, 0, 0, 0]] 3 2 2
          = some [[1, 2, 3, 4], [5, 6, 7, 8], [9, 10, 11, 12]] :=
  pa_deinterleave_pa_interleave [[1, 2, 3, 4], [5, 6, 7, 8], [9, 10, 11, 12]]
    [[0, 0, 0, 0], [0, 0, 0, 0], [0, 0, 0, 0]] (List.replicate 12 0) 3 2 2
    (by decide) (by decide) (by decide) (by decide) (by decide) (by decide) (by decide)
    (by decide)

/-! ## The chunk volume scaler against the mixer -/

theorem scale_int32_bounds (v cv : Int) :
    -0x8000 ≤ scale_int32 v cv ∧ scale_int32 v cv ≤ 0x7FFF := by
  unfold scale_int32
  have hb := int32_t_bounds (v * cv)
  rw [tdiv_65536]
  split <;> omega

theorem scale_int64_bounds (v cv : Int) :
    -0x800000000000 ≤ scale_int64 v cv ∧ scale_int64 v cv ≤ 0x7FFFFFFFFFFF := by
  unfold scale_int64
  have hb : -0x8000000000000000 ≤ int64_t (v * cv) ∧ int64_t (v * cv) ≤ 0x7FFFFFFFFFFFFFFF := by
    unfold int64_t; omega
  rw [tdiv_65536]
  split <;> omega

theorem volume_s16ne_eq_mix (P : Platform) (p : List Byte) (d : Nat) (linear : Int) :
    volume_s16ne P p d linear
      = (mix_s16ne P).write
          ((mix_s16ne P).add 0 ((mix_s16ne P).scale ((mix_s16ne P).read p d) linear)) 0x10000 := by
  have hb := scale_int32_bounds (int16_t (load_u16 P.WORDS_BIGENDIAN p d)) linear
  simp only [volume_s16ne, mix_s16ne]
  rw [Int.zero_add, int32_t_id _ (by omega) (by omega), clamp_id _ _ _ hb.1 hb.2,
    scale_int32_unity _ hb.1 hb.2]

theorem volume_s32ne_eq_mix (P : Platform) (p : List Byte) (d : Nat) (linear : Int) :
    volume_s32ne P p d linear
      = (mix_s32ne P).write
          ((mix_s32ne P).add 0 ((mix_s32ne P).scale ((mix_s32ne P).read p d) linear)) 0x10000 := by
  have hb := scale_int64_bounds (int32_t (load_u32 P.WORDS_BIGENDIAN p d)) linear
  have hc := clamp_bounds (scale_int64 (int32_t (load_u32 P.WORDS_BIGENDIAN p d)) linear)
    (-0x80000000) 0x7FFFFFFF (by decide)
  simp only [volume_s32ne, mix_s32ne]
  rw [Int.zero_add, int64_t_id _ (by omega) (by omega), scale_int64_unity _ hc.1 hc.2]

theorem volume_u8_eq_mix (p : List Byte) (d : Nat) (linear : Int) :
    volume_u8 p d linear
      = mix_u8.write (mix_u8.add 0 (mix_u8.scale (mix_u8.read p d) linear)) 0x10000 := by
  have hb := scale_int32_bounds (peek p d - 0x80) linear
  simp only [volume_u8, mix_u8]
  rw [Int.zero_add, int32_t_id _ (by omega) (by omega), scale_int32_unity _ hb.1 hb.2]

theorem volume_loop_spec (width : Nat) (step : List Byte → Nat → Int → List Byte)
    (linear : List Int) (channels : Nat)
    (hlen : ∀ p d x, (step p d x).length = width)
    (hloc : ∀ p q d x, (∀ i, d ≤ i → i < d + width → p.getD i 0 = q.getD i 0) →
      step p d x = step q d x)
    (n : Nat) (p : List Byte) (d k0 : Nat) (hb : d + n * width ≤ p.length) :
    (volume_loop width step linear channels n p d (channel_at channels k0)).length = p.length
    ∧ (∀ i, i < d →
        (volume_loop width step linear channels n p d (channel_at channels k0)).getD i 0
          = p.getD i 0)
    ∧ (∀ k i, k < n → i < width →
        (volume_loop width step linear channels n p d (channel_at channels k0)).getD
            (d + k * width + i) 0
          = (step p (d + k * width) (linear.getD (channel_at channels (k0 + k)) 0)).getD i 0) := by
  induction n generalizing p d k0 with
  | zero =>
    refine ⟨rfl, fun _ _ => rfl, ?_⟩
    intro k i hk
    omega
  | succ n ih =>
    simp only [volume_loop]
    rw [next_channel_channel_at]
    rw [Nat.succ_mul] at hb
    have hlp : (poke p d (step p d (linear.getD (channel_at channels k0) 0))).length
        = p.length := length_poke _ _ _
    obtain ⟨h1, h2, h3⟩ := ih (poke p d (step p d (linear.getD (channel_at channels k0) 0)))
      (d + width) (k0 + 1) (by rw [hlp]; omega)
    refine ⟨by rw [h1, hlp], ?_, ?_⟩
    · intro i hi
      rw [h2 i (by omega), getD_poke _ _ _ _ (by omega), if_neg (by omega)]
    · intro k i hk hi
      cases k with
      | zero =>
        rw [Nat.zero_mul, Nat.add_zero, Nat.add_zero, h2 _ (by omega),
          getD_poke _ _ _ _ (by omega), hlen, if_pos (by omega)]
        congr 1
        omega
      | succ k =>
        have hkw : (k + 1) * width + width ≤ (n + 1) * width := by
          have : (k + 1 + 1) * width ≤ (n + 1) * width := Nat.mul_le_mul_right _ (by omega)
          rw [Nat.succ_mul (k + 1)] at this
          exact this
        rw [Nat.succ_mul n] at hkw
        have e1 : d + (k + 1) * width + i = (d + width) + k * width + i := by
          rw [Nat.succ_mul]; omega
        have e2 : d + (k + 1) * width = (d + width) + k * width := by
          rw [Nat.succ_mul]; omega
        have e3 : k0 + (k + 1) = k0 + 1 + k := by omega
        rw [e1, e2, e3, h3 k i (by omega) hi]
        congr 1
        apply hloc
        intro j hj1 hj2
        rw [getD_poke _ _ _ _ (by rw [← e2] at hj2; omega), hlen, if_neg (by omega)]

theorem getD_take_drop (l : List Byte) (a n j : Nat) (hj : j < n) :
    ((l.drop a).take n).getD j 0 = l.getD (a + j) 0 := by
  rw [List.getD_eq_getElem?_getD, List.getD_eq_getElem?_getD, List.getElem?_take_of_lt hj,
    List.getElem?_drop]

theorem getD_flatMap_const (f : Nat → List Byte) (w : Nat) (hf : ∀ j, (f j).length = w)
    (n k i : Nat) (hk : k < n) (hi : i < w) :
    ((List.range n).flatMap f).getD (k * w + i) 0 = (f k).getD i 0 := by
  rw [← getD_take_drop _ _ w _ hi, take_drop_flatMap_const f w hf n k hk]

theorem mix_sample_single (P : Platform) (K : mix_codec) (c : pa_memchunk)
    (spec : pa_sample_spec) (volume : pa_cvolume) (master : Option pa_cvolume) (k : Nat)
    (hK : K = mix_u8 ∨ K = mix_s16ne P ∨ K = mix_s16re P ∨ K = mix_s32ne P ∨ K = mix_s32re P)
    (hc0 : 0 < spec.channels) (hch : spec.channels ≤ volume.channels)
    (hg : ∀ ch, ch < spec.channels →
      0 < int32_t (P.pa_sw_volume_to_linear_fixed (volume.values ch)))
    (hu : ∀ ch, ch < spec.channels → master_gain P spec master ch = 0x10000) :
    mix_sample K false (mix_linear P false (mix_volume P spec master)) spec.channels
        (mix_setup P false [single_stream c volume] spec) k
      = K.write (K.add 0 (K.scale (K.read c.memblock.data (c.index + k * K.width))
          ((calc_linear_integer_volume P volume).getD (channel_at spec.channels k) 0)))
          0x10000 := by
  have hlt := channel_at_lt spec.channels k hc0
  have hpos := hg _ hlt
  unfold mix_sample
  rw [master_gain_eq, hu _ hlt, mix_sum_integer P K spec false _ _ k _ hlt]
  simp only [List.foldl_cons, List.foldl_nil]
  rw [integer_pcm_le_zero P K hK]
  simp only [stream_gain, stream_sample, single_stream]
  unfold calc_linear_integer_volume
  rw [getD_map_range _ _ _ (by omega)]
  have h1 : decide (int32_t (P.pa_sw_volume_to_linear_fixed
      (volume.values (channel_at spec.channels k))) ≤ 0) = false := by
    rw [decide_eq_false_iff_not]; omega
  rw [h1]
  simp

theorem volume_loop_eq_mix (P : Platform) (K : mix_codec)
    (step : List Byte → Nat → Int → List Byte) (c : pa_memchunk)
    (spec : pa_sample_spec) (volume : pa_cvolume) (master : Option pa_cvolume)
    (hK : K = mix_u8 ∨ K = mix_s16ne P ∨ K = mix_s16re P ∨ K = mix_s32ne P ∨ K = mix_s32re P)
    (hcase : mix_case P spec.format = some (false, K))
    (hloc : ∀ p q d x, (∀ i, d ≤ i → i < d + K.width → p.getD i 0 = q.getD i 0) →
      step p d x = step q d x)
    (hstep : ∀ p d x, step p d x = K.write (K.add 0 (K.scale (K.read p d) x)) 0x10000)
    (hw : K.width ∣ c.length) (hl : 0 < c.length)
    (hb : c.index + c.length ≤ c.memblock.data.length)
    (hc0 : 0 < spec.channels) (hch : spec.channels ≤ volume.channels)
    (hg : ∀ ch, ch < spec.channels →
      0 < int32_t (P.pa_sw_volume_to_linear_fixed (volume.values ch)))
    (hu : ∀ ch, ch < spec.channels → master_gain P spec master ch = 0x10000) :
    ∃ r, pa_mix P [single_stream c volume] c.length spec master false = some r
      ∧ r.d = c.length
      ∧ ((volume_loop K.width step (calc_linear_integer_volume P volume) spec.channels
            (c.length / K.width) c.memblock.data c.index 0).drop c.index).take c.length
          = r.data := by
  have hwpos := (mix_case_width P spec.format false K hcase).2
  have hlen : ∀ p d x, (step p d x).length = K.width := by
    intro p d x
    rw [hstep, integer_pcm_write_length P K hK]
  have hlim : mix_limit c.length [single_stream c volume] = c.length := by
    simp [mix_limit, single_stream]
  have hcount : mix_count K.width c.length [single_stream c volume] * K.width = c.length := by
    have := (mix_count_bounds K.width c.length [single_stream c volume] hwpos).2.2
    rw [hlim] at this
    exact this hw
  have hn : c.length / K.width * K.width = c.length := Nat.div_mul_cancel hw
  have hcn : mix_count K.width c.length [single_stream c volume] = c.length / K.width := by
    apply Nat.eq_of_mul_eq_mul_right hwpos
    rw [hcount, hn]
  have hspec := volume_loop_spec K.width step (calc_linear_integer_volume P volume)
    spec.channels hlen hloc (c.length / K.width) c.memblock.data c.index 0
    (by rw [hn]; exact hb)
  rw [channel_at_zero] at hspec
  obtain ⟨h1, _, h3⟩ := hspec
  have hmlen : ∀ j, (mix_sample K false (mix_linear P false (mix_volume P spec master))
      spec.channels (mix_setup P false [single_stream c volume] spec) j).length = K.width := by
    intro j
    unfold mix_sample
    exact integer_pcm_write_length P K hK _ _
  refine ⟨_, pa_mix_eq P _ _ spec master false false K hl hcase, hcount, ?_⟩
  simp only []
  rw [hcn]
  apply ext_getD_bytes
  · rw [length_flatMap_const _ K.width hmlen, hn, List.length_take, List.length_drop, h1]
    omega
  · intro j hj
    rw [List.length_take, List.length_drop, h1] at hj
    have hjl : j < c.length := by omega
    have hk : j / K.width < c.length / K.width := by
      rw [Nat.div_lt_iff_lt_mul hwpos, hn]
      exact hjl
    have hi : j % K.width < K.width := Nat.mod_lt _ hwpos
    have hj2 : j = j / K.width * K.width + j % K.width := by
      have := Nat.div_add_mod j K.width
      rw [Nat.mul_comm] at this
      omega
    rw [getD_take_drop _ _ _ _ hjl]
    rw [hj2, ← Nat.add_assoc, h3 _ _ hk hi,
      getD_flatMap_const _ K.width hmlen _ _ _ hk hi,
      mix_sample_single P K c spec volume master _ hK hc0 hch hg hu, hstep, Nat.zero_add]

theorem volume_u8_local (p q : List Byte) (d : Nat) (x : Int)
    (h : ∀ i, d ≤ i → i < d + 1 → p.getD i 0 = q.getD i 0) :
    volume_u8 p d x = volume_u8 q d x := by
  unfold volume_u8 peek
  rw [h d (Nat.le_refl _) (by omega)]

theorem volume_s16ne_local (P : Platform) (p q : List Byte) (d : Nat) (x : Int)
    (h : ∀ i, d ≤ i → i < d + 2 → p.getD i 0 = q.getD i 0) :
    volume_s16ne P p d x = volume_s16ne P q d x := by
  unfold volume_s16ne load_u16 peek
  rw [h d (Nat.le_refl _) (by omega), h (d + 1) (by omega) (by omega)]

theorem volume_s32ne_local (P : Platform) (p q : List Byte) (d : Nat) (x : Int)
    (h : ∀ i, d ≤ i → i < d + 4 → p.getD i 0 = q.getD i 0) :
    volume_s32ne P p d x = volume_s32ne P q d x := by
  unfold volume_s32ne load_u32 peek
  rw [h d (Nat.le_refl _) (by omega), h (d + 1) (by omega) (by omega),
    h (d + 2) (by omega) (by omega), h (d + 3) (by omega) (by omega)]

theorem volume_switch_u8 (P : Platform) (c : pa_memchunk) (spec : pa_sample_spec)
    (volume : pa_cvolume) (hf : spec.format = PA_SAMPLE_U8) :
    volume_switch P c spec volume
      = volume_loop 1 volume_u8 (calc_linear_integer_volume P volume) spec.channels
          (c.length / 1) c.memblock.data c.index 0 := by
  unfold volume_switch PA_SAMPLE_S16NE PA_SAMPLE_S16RE PA_SAMPLE_S32NE PA_SAMPLE_S32RE
  rw [hf]
  cases P.WORDS_BIGENDIAN <;> simp

theorem volume_switch_s16ne (P : Platform) (c : pa_memchunk) (spec : pa_sample_spec)
    (volume : pa_cvolume) (hf : spec.format = PA_SAMPLE_S16NE P) :
    volume_switch P c spec volume
      = volume_loop 2 (volume_s16ne P) (calc_linear_integer_volume P volume) spec.channels
          (c.length / 2) c.memblock.data c.index 0 := by
  unfold volume_switch
  rw [if_pos hf]

theorem volume_switch_s32ne (P : Platform) (c : pa_memchunk) (spec : pa_sample_spec)
    (volume : pa_cvolume) (hf : spec.format = PA_SAMPLE_S32NE P) :
    volume_switch P c spec volume
      = volume_loop 4 (volume_s32ne P) (calc_linear_integer_volume P volume) spec.channels
          (c.length / 4) c.memblock.data c.index 0 := by
  have h1 : spec.format ≠ PA_SAMPLE_S16NE P := by
    rw [hf]; unfold PA_SAMPLE_S32NE PA_SAMPLE_S16NE
    cases P.WORDS_BIGENDIAN <;> simp
  have h2 : spec.format ≠ PA_SAMPLE_S16RE P := by
    rw [hf]; unfold PA_SAMPLE_S32NE PA_SAMPLE_S16RE
    cases P.WORDS_BIGENDIAN <;> simp
  unfold volume_switch
  rw [if_neg h1, if_neg h2, if_pos hf]

theorem mix_case_u8 (P : Platform) (format : pa_sample_format_t) (hf : format = PA_SAMPLE_U8) :
    mix_case P format = some (false, mix_u8) := by
  unfold mix_case PA_SAMPLE_S16NE PA_SAMPLE_S16RE PA_SAMPLE_S32NE PA_SAMPLE_S32RE
  rw [hf]
  cases P.WORDS_BIGENDIAN <;> simp

theorem mix_case_s16ne (P : Platform) (format : pa_sample_format_t)
    (hf : format = PA_SAMPLE_S16NE P) : mix_case P format = some (false, mix_s16ne P) := by
  unfold mix_case
  rw [if_pos hf]

theorem mix_case_s32ne (P : Platform) (format : pa_sample_format_t)
    (hf : format = PA_SAMPLE_S32NE P) : mix_case P format = some (false, mix_s32ne P) := by
  have h1 : format ≠ PA_SAMPLE_S16NE P := by
    rw [hf]; unfold PA_SAMPLE_S32NE PA_SAMPLE_S16NE
    cases P.WORDS_BIGENDIAN <;> simp
  have h2 : format ≠ PA_SAMPLE_S16RE P := by
    rw [hf]; unfold PA_SAMPLE_S32NE PA_SAMPLE_S16RE
    cases P.WORDS_BIGENDIAN <;> simp
  unfold mix_case
  rw [if_neg h1, if_neg h2, if_pos hf]

theorem sample_width_native (P : Platform) :
    sample_width (PA_SAMPLE_S16NE P) = 2 ∧ sample_width (PA_SAMPLE_S32NE P) = 4 := by
  unfold PA_SAMPLE_S16NE PA_SAMPLE_S32NE
  cases P.WORDS_BIGENDIAN <;> exact ⟨rfl, rfl⟩

/-- C20: for the encodings U8, S16NE and S32NE, the bytes that the general path of
`pa_volume_memchunk` leaves in the chunk are the bytes that `pa_mix` writes when the
chunk is its only input stream, with the same volume as the stream volume, a master
volume of unity gain, mute off and an output length equal to the chunk length. The
chunk lies inside its block and is frame aligned, the general path is the one taken
(block not flagged as silence, volume neither unity nor muted on every channel), the
volume covers the channels of the stream, and every fixed-point gain is positive. No
assumption on the size of the intermediate products is needed. -/
theorem pa_volume_memchunk_eq_pa_mix (P : Platform) (c : pa_memchunk)
    (spec : pa_sample_spec) (volume : pa_cvolume) (master : Option pa_cvolume)
    (hf : spec.format = PA_SAMPLE_U8 ∨ spec.format = PA_SAMPLE_S16NE P
      ∨ spec.format = PA_SAMPLE_S32NE P)
    (hfs : P.pa_frame_size spec = sample_width spec.format * spec.channels)
    (ha : c.length % P.pa_frame_size spec = 0)
    (hl : 0 < c.length)
    (hb : c.index + c.length ≤ c.memblock.data.length)
    (hs : c.memblock.is_silence = false)
    (hn : pa_cvolume_channels_equal_to volume P.PA_VOLUME_NORM = false)
    (hm : pa_cvolume_channels_equal_to volume P.PA_VOLUME_MUTED = false)
    (hch : spec.channels ≤ volume.channels)
    (hg : ∀ ch, ch < spec.channels →
      0 < int32_t (P.pa_sw_volume_to_linear_fixed (volume.values ch)))
    (hu : ∀ ch, ch < spec.channels → master_gain P spec master ch = 0x10000) :
    ∃ c2 r, pa_volume_memchunk P c spec volume = some c2
      ∧ c2.index = c.index ∧ c2.length = c.length
      ∧ pa_mix P [single_stream c volume] c.length spec master false = some r
      ∧ r.d = c.length
      ∧ (c2.memblock.data.drop c.index).take c.length = r.data := by
  have hc0 : 0 < spec.channels := by
    by_contra h0
    have hz : spec.channels = 0 := by omega
    rw [hfs, hz, Nat.mul_zero, Nat.mod_zero] at ha
    omega
  have hw : sample_width spec.format ∣ c.length :=
    Nat.dvd_trans (Dvd.intro _ rfl) (hfs ▸ Nat.dvd_of_mod_eq_zero ha)
  have hv : pa_volume_memchunk P c spec volume
      = some { c with memblock := { c.memblock with data := volume_switch P c spec volume } } := by
    unfold pa_volume_memchunk
    rw [if_neg (by omega), hs, hn, hm]
    simp
  rcases hf with hf | hf | hf
  · obtain ⟨r, hr1, hr2, hr3⟩ := volume_loop_eq_mix P mix_u8 volume_u8 c spec volume master
      (Or.inl rfl) (mix_case_u8 P _ hf) volume_u8_local volume_u8_eq_mix
      (by rw [hf] at hw; exact hw) hl hb hc0 hch hg hu
    refine ⟨_, r, hv, rfl, rfl, hr1, hr2, ?_⟩
    simp only []
    rw [volume_switch_u8 P c spec volume hf]
    exact hr3
  · obtain ⟨r, hr1, hr2, hr3⟩ := volume_loop_eq_mix P (mix_s16ne P) (volume_s16ne P) c spec
      volume master (Or.inr (Or.inl rfl)) (mix_case_s16ne P _ hf) (volume_s16ne_local P)
      (volume_s16ne_eq_mix P)
      (by rw [hf, (sample_width_native P).1] at hw; exact hw) hl hb hc0 hch hg hu
    refine ⟨_, r, hv, rfl, rfl, hr1, hr2, ?_⟩
    simp only []
    rw [volume_switch_s16ne P c spec volume hf]
    exact hr3
  · obtain ⟨r, hr1, hr2, hr3⟩ := volume_loop_eq_mix P (mix_s32ne P) (volume_s32ne P) c spec
      volume master (Or.inr (Or.inr (Or.inr (Or.inl rfl)))) (mix_case_s32ne P _ hf)
      (volume_s32ne_local P) (volume_s32ne_eq_mix P)
      (by rw [hf, (sample_width_native P).2] at hw; exact hw) hl hb hc0 hch hg hu
    refine ⟨_, r, hv, rfl, rfl, hr1, hr2, ?_⟩
    simp only []
    rw [volume_switch_s32ne P c spec volume hf]
    exact hr3

/-- C20, at a concrete input: two 16-bit stereo frames at offset 2 of a block, scaled by
one half; the sample -3 becomes -1 on both sides. -/
theorem pa_volume_memchunk_eq_pa_mix_witness :
    ∃ c2 r, pa_volume_memchunk little_endian_host
        (chunk_of [9, 9, 0, 0x40, 0, 0xc0, 3, 0, 0xfd, 0xff, 9, 9] 2 8) stereo_s16le
        (stereo_volume 0x8000) = some c2
      ∧ c2.index = (chunk_of [9, 9, 0, 0x40, 0, 0xc0, 3, 0, 0xfd, 0xff, 9, 9] 2 8).index
      ∧ c2.length = (chunk_of [9, 9, 0, 0x40, 0, 0xc0, 3, 0, 0xfd, 0xff, 9, 9] 2 8).length
      ∧ pa_mix little_endian_host
          [single_stream (chunk_of [9, 9, 0, 0x40, 0, 0xc0, 3, 0, 0xfd, 0xff, 9, 9] 2 8)
            (stereo_volume 0x8000)]
          (chunk_of [9, 9, 0, 0x40, 0, 0xc0, 3, 0, 0xfd, 0xff, 9, 9] 2 8).length
          stereo_s16le none false = some r
      ∧ r.d = (chunk_of [9, 9, 0, 0x40, 0, 0xc0, 3, 0, 0xfd, 0xff, 9, 9] 2 8).length
      ∧ (c2.memblock.data.drop
            (chunk_of [9, 9, 0, 0x40, 0, 0xc0, 3, 0, 0xfd, 0xff, 9, 9] 2 8).index).take
          (chunk_of [9, 9, 0, 0x40, 0, 0xc0, 3, 0, 0xfd, 0xff, 9, 9] 2 8).length = r.data :=
  pa_volume_memchunk_eq_pa_mix little_endian_host
    (chunk_of [9, 9, 0, 0x40, 0, 0xc0, 3, 0, 0xfd, 0xff, 9, 9] 2 8) stereo_s16le
    (stereo_volume 0x8000) none (Or.inr (Or.inl rfl)) rfl (by decide) (by decide) (by decide)
    rfl (by decide) (by decide) (by decide) (by decide) (by decide)

/-! ## Claims C21 to C28 -/

theorem peek_of_all_zero (p : List Byte) (i : Nat) (h : ∀ x ∈ p, x = 0) : peek p i = 0 := by
  unfold peek
  by_cases hi : i < p.length
  · rw [List.getD_eq_getElem _ _ hi, h _ (List.getElem_mem hi)]
    rfl
  · rw [List.getD_eq_default _ _ (by omega)]
    rfl

theorem poke_of_all (b : Byte) (p : List Byte) (d : Nat) (xs : List Byte)
    (hp : ∀ x ∈ p, x = b) (hx : ∀ x ∈ xs, x = b) : poke p d xs = p := by
  induction p generalizing d xs with
  | nil => simp [poke]
  | cons a p ih =>
    have hp2 : ∀ x ∈ p, x = b := fun x hm => hp x (List.mem_cons_of_mem _ hm)
    cases xs with
    | nil => simp [poke]
    | cons x xs =>
      cases d with
      | zero =>
        simp only [poke]
        rw [ih 0 xs hp2 (fun y hm => hx y (List.mem_cons_of_mem _ hm)),
          hx x (List.mem_cons_self _ _), hp a (List.mem_cons_self _ _)]
      | succ d =>
        simp only [poke]
        rw [ih d (x :: xs) hp2 hx]

theorem poke_past_end (p : List Byte) (d : Nat) (xs : List Byte) (h : p.length ≤ d) :
    poke p d xs = p := by
  induction p generalizing d xs with
  | nil => simp [poke]
  | cons a p ih =>
    cases xs with
    | nil => simp [poke]
    | cons x xs =>
      cases d with
      | zero => simp at h
      | succ d =>
        simp only [poke]
        rw [ih d (x :: xs) (by simpa using h)]

theorem volume_loop_fixed (width : Nat) (step : List Byte → Nat → Int → List Byte)
    (linear : List Int) (channels : Nat) (p : List Byte)
    (h : ∀ d x, poke p d (step p d x) = p) (n d channel : Nat) :
    volume_loop width step linear channels n p d channel = p := by
  induction n generalizing d channel with
  | zero => rfl
  | succ n ih =>
    simp only [volume_loop]
    rw [h, ih]

theorem volume_s16ne_zero (P : Platform) (p : List Byte) (d : Nat) (x : Int)
    (h : ∀ y ∈ p, y = 0) : volume_s16ne P p d x = [0, 0] := by
  unfold volume_s16ne load_u16
  simp only [peek_of_all_zero p _ h]
  have e : int16_t (if P.WORDS_BIGENDIAN = true then 0x100 * 0 + 0 else 0 + 0x100 * 0) = 0 := by
    split <;> decide
  rw [e, scale_int32_zero, clamp_id _ _ _ (by decide) (by decide)]
  exact store_u16_zero _

theorem volume_s16re_zero (P : Platform) (p : List Byte) (d : Nat) (x : Int)
    (h : ∀ y ∈ p, y = 0) : volume_s16re P p d x = [0, 0] := by
  unfold volume_s16re load_u16
  simp only [peek_of_all_zero p _ h]
  have e : int16_t (if P.WORDS_BIGENDIAN = true then 0x100 * 0 + 0 else 0 + 0x100 * 0) = 0 := by
    split <;> decide
  rw [e, swap16_zero, scale_int32_zero, clamp_id _ _ _ (by decide) (by decide)]
  have e2 : PA_INT16_SWAP (int16_t 0) = 0 := by decide
  rw [e2]
  exact store_u16_zero _

theorem volume_s32ne_zero (P : Platform) (p : List Byte) (d : Nat) (x : Int)
    (h : ∀ y ∈ p, y = 0) : volume_s32ne P p d x = [0, 0, 0, 0] := by
  unfold volume_s32ne load_u32
  simp only [peek_of_all_zero p _ h]
  have e : int32_t (if P.WORDS_BIGENDIAN = true
      then 0x1000000 * 0 + 0x10000 * 0 + 0x100 * 0 + 0
      else 0 + 0x100 * 0 + 0x10000 * 0 + 0x1000000 * 0) = 0 := by
    split <;> decide
  rw [e, scale_int64_zero, clamp_id _ _ _ (by decide) (by decide)]
  exact store_u32_zero _

theorem volume_s32re_zero (P : Platform) (p : List Byte) (d : Nat) (x : Int)
    (h : ∀ y ∈ p, y = 0) : volume_s32re P p d x = [0, 0, 0, 0] := by
  unfold volume_s32re load_u32
  simp only [peek_of_all_zero p _ h]
  have e : int32_t (if P.WORDS_BIGENDIAN = true
      then 0x1000000 * 0 + 0x10000 * 0 + 0x100 * 0 + 0
      else 0 + 0x100 * 0 + 0x10000 * 0 + 0x1000000 * 0) = 0 := by
    split <;> decide
  rw [e, swap32_zero, scale_int64_zero, clamp_id _ _ _ (by decide) (by decide)]
  have e2 : PA_INT32_SWAP (int32_t 0) = 0 := by decide
  rw [e2]
  exact store_u32_zero _

theorem volume_u8_silence (p : List Byte) (d : Nat) (x : Int) (h : ∀ y ∈ p, y = 0x80) :
    poke p d (volume_u8 p d x) = p := by
  by_cases hd : d < p.length
  · apply poke_of_all 0x80 p d _ h
    have hp : peek p d = 0x80 := by
      unfold peek
      rw [List.getD_eq_getElem _ _ hd, h _ (List.getElem_mem hd)]
      rfl
    unfold volume_u8
    simp only []
    rw [hp, show ((0x80 : Int) - 0x80) = 0 by decide, scale_int32_zero,
      clamp_id _ _ _ (by decide) (by decide)]
    intro y hy
    simp only [List.mem_singleton] at hy
    rw [hy]
    decide
  · exact poke_past_end _ _ _ (by omega)

theorem volume_switch_integer (P : Platform) (c : pa_memchunk) (spec : pa_sample_spec)
    (volume : pa_cvolume) (hf : integer_pcm spec.format = true) :
    ∃ w step, volume_switch P c spec volume
        = volume_loop w step (calc_linear_integer_volume P volume) spec.channels
            (c.length / w) c.memblock.data c.index 0
      ∧ ((spec.format = PA_SAMPLE_U8 ∧ step = volume_u8)
        ∨ ((spec.format = PA_SAMPLE_S16LE ∨ spec.format = PA_SAMPLE_S16BE)
            ∧ (step = volume_s16ne P ∨ step = volume_s16re P))
        ∨ ((spec.format = PA_SAMPLE_S32LE ∨ spec.format = PA_SAMPLE_S32BE)
            ∧ (step = volume_s32ne P ∨ step = volume_s32re P))) := by
  unfold volume_switch PA_SAMPLE_S16NE PA_SAMPLE_S16RE PA_SAMPLE_S32NE PA_SAMPLE_S32RE
    PA_SAMPLE_FLOAT32NE PA_SAMPLE_FLOAT32RE
  cases P.WORDS_BIGENDIAN <;> cases hfmt : spec.format <;> rw [hfmt] at hf <;>
    first
      | exact absurd hf (by decide)
      | exact ⟨_, _, rfl, Or.inl ⟨rfl, rfl⟩⟩
      | exact ⟨_, _, rfl, Or.inr (Or.inl ⟨Or.inl rfl, Or.inl rfl⟩)⟩
      | exact ⟨_, _, rfl, Or.inr (Or.inl ⟨Or.inl rfl, Or.inr rfl⟩)⟩
      | exact ⟨_, _, rfl, Or.inr (Or.inl ⟨Or.inr rfl, Or.inl rfl⟩)⟩
      | exact ⟨_, _, rfl, Or.inr (Or.inl ⟨Or.inr rfl, Or.inr rfl⟩)⟩
      | exact ⟨_, _, rfl, Or.inr (Or.inr ⟨Or.inl rfl, Or.inl rfl⟩)⟩
      | exact ⟨_, _, rfl, Or.inr (Or.inr ⟨Or.inl rfl, Or.inr rfl⟩)⟩
      | exact ⟨_, _, rfl, Or.inr (Or.inr ⟨Or.inr rfl, Or.inl rfl⟩)⟩
      | exact ⟨_, _, rfl, Or.inr (Or.inr ⟨Or.inr rfl, Or.inr rfl⟩)⟩

/-- C21: for each integer PCM encoding (U8, S16NE, S16RE, S32NE, S32RE), every volume
and every block in which each byte is the silence byte of the encoding, the general
per-sample scaling path of `pa_volume_memchunk` leaves the block as it is. Hence, under
the alignment precondition and for a volume that is not muted on every channel, the
call returns the same bytes whether or not the block is flagged as silence. -/
theorem volume_switch_keeps_silence (P : Platform) (c : pa_memchunk) (spec : pa_sample_spec)
    (volume : pa_cvolume) (b : Byte)
    (hf : integer_pcm spec.format = true)
    (hb : silence_byte spec.format = some b)
    (hall : ∀ x ∈ c.memblock.data, x = b) :
    volume_switch P c spec volume = c.memblock.data
      ∧ (c.length % P.pa_frame_size spec = 0 →
          pa_cvolume_channels_equal_to volume P.PA_VOLUME_MUTED = false →
          ∃ c2, pa_volume_memchunk P c spec volume = some c2
            ∧ c2.memblock.data = c.memblock.data
            ∧ c2.index = c.index ∧ c2.length = c.length) := by
  have hsw : volume_switch P c spec volume = c.memblock.data := by
    obtain ⟨w, step, hv, hcase⟩ := volume_switch_integer P c spec volume hf
    rw [hv]
    apply volume_loop_fixed
    intro d x
    rcases hcase with ⟨hfmt, rfl⟩ | ⟨hfmt, hstep⟩ | ⟨hfmt, hstep⟩
    · rw [hfmt] at hb
      have hb2 : b = 0x80 := (Option.some.inj hb).symm
      rw [hb2] at hall
      exact volume_u8_silence _ d x hall
    · have hb2 : b = 0 := by
        rcases hfmt with h | h <;> (rw [h] at hb; exact (Option.some.inj hb).symm)
      rw [hb2] at hall
      apply poke_of_all 0 _ d _ hall
      rcases hstep with rfl | rfl
      · rw [volume_s16ne_zero P _ d x hall]; simp
      · rw [volume_s16re_zero P _ d x hall]; simp
    · have hb2 : b = 0 := by
        rcases hfmt with h | h <;> (rw [h] at hb; exact (Option.some.inj hb).symm)
      rw [hb2] at hall
      apply poke_of_all 0 _ d _ hall
      rcases hstep with rfl | rfl
      · rw [volume_s32ne_zero P _ d x hall]; simp
      · rw [volume_s32re_zero P _ d x hall]; simp
  refine ⟨hsw, ?_⟩
  intro ha hm
  unfold pa_volume_memchunk
  rw [if_neg (by omega), hm, hsw]
  by_cases hs : c.memblock.is_silence = true
  · rw [if_pos hs]
    exact ⟨c, rfl, rfl, rfl, rfl⟩
  · rw [if_neg hs]
    by_cases hn : pa_cvolume_channels_equal_to volume P.PA_VOLUME_NORM = true
    · rw [if_pos hn]
      exact ⟨c, rfl, rfl, rfl, rfl⟩
    · rw [if_neg hn, if_neg (by simp)]
      exact ⟨_, rfl, rfl, rfl, rfl⟩

/-- C21, at a concrete input: two frames of 8-bit stereo silence scaled by one half. -/
theorem volume_switch_keeps_silence_witness :
    (integer_pcm stereo_u8.format = true
        ∧ silence_byte stereo_u8.format = some 0x80
        ∧ ∀ x ∈ (chunk_of [0x80, 0x80, 0x80, 0x80] 0 4).memblock.data, x = 0x80)
      ∧ volume_switch little_endian_host (chunk_of [0x80, 0x80, 0x80, 0x80] 0 4) stereo_u8
          (stereo_volume 0x8000)
        = (chunk_of [0x80, 0x80, 0x80, 0x80] 0 4).memblock.data :=
  ⟨⟨rfl, rfl, by simp [chunk_of]⟩,
    (volume_switch_keeps_silence little_endian_host (chunk_of [0x80, 0x80, 0x80, 0x80] 0 4)
      stereo_u8 (stereo_volume 0x8000) 0x80 rfl rfl (by simp [chunk_of])).1⟩

/-- C22, the code at the failing input: the 16-bit sample +32767 and the gain `0x20000`
(positive and representable in 32 bits) have a product above `2^31 - 1`; the 32-bit
intermediate of the S16 cases wraps, `pa_mix` scales the sample to -2 and
`pa_volume_memchunk` stores -2 where +32767 is the saturated value, and already the gain
`0x10001` overflows on the sample -32768.  At the same gain the U8 and the S32 case of
`pa_volume_memchunk` saturate the greatest sample.  The clamp that the S16 cases apply
after scaling can never act, since the quotient of a 32-bit value by `0x10000` is within
16 bits. -/
theorem s16_gain_product_overflows :
    ((mix_s16ne little_endian_host).read [0xff, 0x7f] 0 = 32767
      ∧ (0 : Int) < 0x20000 ∧ (0x20000 : Int) ≤ 0x7FFFFFFF
      ∧ ¬ ((mix_s16ne little_endian_host).read [0xff, 0x7f] 0 * 0x20000 ≤ 0x7FFFFFFF)
      ∧ int32_t ((mix_s16ne little_endian_host).read [0xff, 0x7f] 0 * 0x20000)
          ≠ (mix_s16ne little_endian_host).read [0xff, 0x7f] 0 * 0x20000
      ∧ (mix_s16ne little_endian_host).scale
          ((mix_s16ne little_endian_host).read [0xff, 0x7f] 0) 0x20000 = -2
      ∧ volume_s16ne little_endian_host [0xff, 0x7f] 0 0x20000 = [0xfe, 0xff]
      ∧ (mix_s16ne little_endian_host).read [0x00, 0x80] 0 = -32768
      ∧ ¬ (-0x80000000 ≤ (mix_s16ne little_endian_host).read [0x00, 0x80] 0 * 0x10001)
      ∧ volume_u8 [0xff] 0 0x20000 = [0xff]
      ∧ volume_s32ne little_endian_host [0xff, 0xff, 0xff, 0x7f] 0 0x20000
          = [0xff, 0xff, 0xff, 0x7f])
      ∧ ∀ v g : Int, PA_CLAMP_UNLIKELY (scale_int32 v g) (-0x8000) 0x7FFF = scale_int32 v g :=
  ⟨by decide, fun v g => clamp_id _ _ _ (scale_int32_bounds v g).1 (scale_int32_bounds v g).2⟩

theorem s16_product_bounds (v g : Int) (hv1 : -0x8000 ≤ v) (hv2 : v ≤ 0x7FFF)
    (hg0 : 0 < g) (hg1 : g ≤ 0x10000) :
    -0x80000000 ≤ v * g ∧ v * g ≤ 0x7FFFFFFF := by
  constructor
  · nlinarith [mul_nonneg (sub_nonneg.2 hv1) hg0.le]
  · nlinarith [mul_nonneg (sub_nonneg.2 hv2) hg0.le]

/-- In the S16 cases of `pa_mix` and `pa_volume_memchunk` every decoded sample `v` lies in
[-32768, 32767], and for a gain `g` with `0 < g <= 0x10000` the product `v * g` lies in
[-2^31, 2^31 - 1]: the 32-bit intermediate holds it unchanged and the scaled sample is
the exact quotient `(v * g) / 0x10000`. -/
theorem s16_gain_product_fits (P : Platform) (p : List Byte) (d : Nat) (g : Int)
    (hg0 : 0 < g) (hg1 : g ≤ 0x10000) :
    (-0x8000 ≤ (mix_s16ne P).read p d ∧ (mix_s16ne P).read p d ≤ 0x7FFF)
      ∧ (-0x8000 ≤ (mix_s16re P).read p d ∧ (mix_s16re P).read p d ≤ 0x7FFF)
      ∧ (∀ v, -0x8000 ≤ v → v ≤ 0x7FFF →
          (-0x80000000 ≤ v * g ∧ v * g ≤ 0x7FFFFFFF)
          ∧ int32_t (v * g) = v * g
          ∧ (mix_s16ne P).scale v g = Int.tdiv (v * g) 0x10000
          ∧ (mix_s16re P).scale v g = Int.tdiv (v * g) 0x10000)
      ∧ volume_s16ne P p d g
          = store_u16 P.WORDS_BIGENDIAN (int16_t (PA_CLAMP_UNLIKELY
              (Int.tdiv ((mix_s16ne P).read p d * g) 0x10000) (-0x8000) 0x7FFF))
      ∧ volume_s16re P p d g
          = store_u16 P.WORDS_BIGENDIAN (PA_INT16_SWAP (int16_t (PA_CLAMP_UNLIKELY
              (Int.tdiv ((mix_s16re P).read p d * g) 0x10000) (-0x8000) 0x7FFF))) := by
  have hne : -0x8000 ≤ (mix_s16ne P).read p d ∧ (mix_s16ne P).read p d ≤ 0x7FFF :=
    int16_t_bounds _
  have hre : -0x8000 ≤ (mix_s16re P).read p d ∧ (mix_s16re P).read p d ≤ 0x7FFF :=
    swap16_bounds _
  have hfit : ∀ v, -0x8000 ≤ v → v ≤ 0x7FFF → int32_t (v * g) = v * g := by
    intro v hv1 hv2
    have hb := s16_product_bounds v g hv1 hv2 hg0 hg1
    exact int32_t_id _ hb.1 hb.2
  refine ⟨hne, hre, ?_, ?_, ?_⟩
  · intro v hv1 hv2
    refine ⟨s16_product_bounds v g hv1 hv2 hg0 hg1, hfit v hv1 hv2, ?_, ?_⟩
    · show scale_int32 v g = _
      unfold scale_int32
      rw [hfit v hv1 hv2]
    · show scale_int32 v g = _
      unfold scale_int32
      rw [hfit v hv1 hv2]
  · have h := hfit _ hne.1 hne.2
    simp only [mix_s16ne] at h
    simp only [volume_s16ne, mix_s16ne, scale_int32]
    rw [h]
  · have h := hfit _ hre.1 hre.2
    simp only [mix_s16re] at h
    simp only [volume_s16re, mix_s16re, scale_int32]
    rw [h]

/-! ## Accumulation in 64 bits -/

theorem int64_t_bounds (x : Int) :
    -0x8000000000000000 ≤ int64_t x ∧ int64_t x ≤ 0x7FFFFFFFFFFFFFFF := by
  unfold int64_t; omega

theorem int64_t_add_left (x y : Int) : int64_t (int64_t x + y) = int64_t (x + y) := by
  unfold int64_t; omega

theorem foldl_int64_add {α : Type} (f : α → Int) (l : List α) (a : Int) :
    l.foldl (fun sum m => int64_t (sum + f m)) (int64_t a) = int64_t (a + (l.map f).sum) := by
  induction l generalizing a with
  | nil => simp
  | cons x xs ih =>
    simp only [List.foldl_cons, List.map_cons, List.sum_cons]
    rw [int64_t_add_left, ih, Int.add_assoc]

theorem foldl_int64_add_zero {α : Type} (f : α → Int) (l : List α) :
    l.foldl (fun sum m => int64_t (sum + f m)) 0 = int64_t ((l.map f).sum) := by
  have h := foldl_int64_add f l 0
  rw [show int64_t 0 = 0 by decide, Int.zero_add] at h
  exact h

theorem s32_product_bounds (v g : Int) (hv1 : -0x80000000 ≤ v) (hv2 : v ≤ 0x7FFFFFFF)
    (hg1 : -0x80000000 ≤ g) (hg2 : g ≤ 0x7FFFFFFF) :
    -0x4000000000000000 ≤ v * g ∧ v * g ≤ 0x4000000000000000 := by
  have h1 := mul_nonneg (sub_nonneg.2 hv1) (sub_nonneg.2 hg1)
  have h2 := mul_nonneg (sub_nonneg.2 hv2) (sub_nonneg.2 hg2)
  have h3 := mul_nonneg (sub_nonneg.2 hv1) (sub_nonneg.2 hg2)
  have h4 := mul_nonneg (sub_nonneg.2 hv2) (sub_nonneg.2 hg1)
  constructor <;> nlinarith

theorem scale_int64_exact (v g : Int) (hv1 : -0x80000000 ≤ v) (hv2 : v ≤ 0x7FFFFFFF)
    (hg1 : -0x80000000 ≤ g) (hg2 : g ≤ 0x7FFFFFFF) :
    int64_t (v * g) = v * g
      ∧ scale_int64 v g = Int.tdiv (v * g) 0x10000
      ∧ -0x400000000000 ≤ scale_int64 v g ∧ scale_int64 v g ≤ 0x400000000000 := by
  have hb := s32_product_bounds v g hv1 hv2 hg1 hg2
  have hid : int64_t (v * g) = v * g := int64_t_id _ (by omega) (by omega)
  have hs : scale_int64 v g = Int.tdiv (v * g) 0x10000 := by
    unfold scale_int64
    rw [hid]
  refine ⟨hid, hs, ?_⟩
  rw [hs, tdiv_65536]
  split <;> omega

theorem master_gain_bounds (P : Platform) (spec : pa_sample_spec)
    (volume : Option pa_cvolume) (channel : Nat) :
    -0x80000000 ≤ master_gain P spec volume channel
      ∧ master_gain P spec volume channel ≤ 0x7FFFFFFF := by
  unfold master_gain calc_linear_integer_volume
  by_cases h : channel < (mix_volume P spec volume).channels
  · rw [getD_map_range _ _ _ h]
    exact int32_t_bounds _
  · rw [List.getD_eq_default _ _ (by simpa using h)]
    decide

theorem stream_gain_bounds (P : Platform) (m : pa_mix_info) (channel : Nat) :
    -0x80000000 ≤ stream_gain P m channel ∧ stream_gain P m channel ≤ 0x7FFFFFFF :=
  int32_t_bounds _

theorem s32_sample_bounds (P : Platform) (K : mix_codec)
    (hK : K = mix_s32ne P ∨ K = mix_s32re P) (p : List Byte) (i : Nat) :
    -0x80000000 ≤ K.read p i ∧ K.read p i ≤ 0x7FFFFFFF := by
  rcases hK with rfl | rfl
  · exact int32_t_bounds _
  · exact swap32_bounds _

theorem s32_sum_exact (P : Platform) (K : mix_codec)
    (hK : K = mix_s32ne P ∨ K = mix_s32re P) (streams : List pa_mix_info)
    (spec : pa_sample_spec) (mute : Bool) (linear : Int) (channel k : Nat)
    (hn : streams.length < 0x10000) (hc : channel < spec.channels) :
    mix_sum K mute linear channel (shift_streams K.width k (mix_setup P false streams spec))
        = (streams.map (fun m =>
            if decide (stream_gain P m channel ≤ 0) || mute || decide (linear ≤ 0) then 0
            else Int.tdiv (stream_sample K m k * stream_gain P m channel) 0x10000)).sum
      ∧ -0x4000000000000000 ≤ (streams.map (fun m =>
            if decide (stream_gain P m channel ≤ 0) || mute || decide (linear ≤ 0) then 0
            else Int.tdiv (stream_sample K m k * stream_gain P m channel) 0x10000)).sum
      ∧ (streams.map (fun m =>
            if decide (stream_gain P m channel ≤ 0) || mute || decide (linear ≤ 0) then 0
            else Int.tdiv (stream_sample K m k * stream_gain P m channel) 0x10000)).sum
          ≤ 0x4000000000000000 := by
  have hterm : ∀ m ∈ streams,
      -0x400000000000 ≤ (if decide (stream_gain P m channel ≤ 0) || mute || decide (linear ≤ 0)
          then 0 else Int.tdiv (stream_sample K m k * stream_gain P m channel) 0x10000)
      ∧ (if decide (stream_gain P m channel ≤ 0) || mute || decide (linear ≤ 0)
          then 0 else Int.tdiv (stream_sample K m k * stream_gain P m channel) 0x10000)
        ≤ 0x400000000000 := by
    intro m _
    have hv : -0x80000000 ≤ stream_sample K m k ∧ stream_sample K m k ≤ 0x7FFFFFFF :=
      s32_sample_bounds P K hK _ _
    have hg := stream_gain_bounds P m channel
    have he := scale_int64_exact _ _ hv.1 hv.2 hg.1 hg.2
    split
    · decide
    · rw [← he.2.1]
      exact he.2.2
  have hsum := sum_bounds _ streams _ _ hterm
  have hlen : (streams.length : Int) < 0x10000 := by exact_mod_cast hn
  have hlen0 : (0 : Int) ≤ streams.length := Int.ofNat_nonneg _
  refine ⟨?_, by omega, by omega⟩
  rw [mix_sum_integer P K spec mute linear channel k streams hc]
  have hadd : K.add = fun sum v => int64_t (sum + v) := by
    rcases hK with rfl | rfl <;> rfl
  have hle : K.le_zero = fun x => decide (x ≤ 0) := by
    rcases hK with rfl | rfl <;> rfl
  have hscale : K.scale = scale_int64 := by
    rcases hK with rfl | rfl <;> rfl
  rw [hadd, hle, hscale]
  simp only []
  have hfun : (fun sum (m : pa_mix_info) => int64_t (sum +
        if (decide (stream_gain P m channel ≤ 0) || mute || decide (linear ≤ 0)) = true then 0
        else scale_int64 (stream_sample K m k) (stream_gain P m channel)))
      = (fun sum (m : pa_mix_info) => int64_t (sum +
        (fun m : pa_mix_info =>
          if (decide (stream_gain P m channel ≤ 0) || mute || decide (linear ≤ 0)) = true then 0
          else Int.tdiv (stream_sample K m k * stream_gain P m channel) 0x10000) m)) := by
    funext sum m
    have hv : -0x80000000 ≤ stream_sample K m k ∧ stream_sample K m k ≤ 0x7FFFFFFF :=
      s32_sample_bounds P K hK _ _
    have hg := stream_gain_bounds P m channel
    have he := scale_int64_exact _ _ hv.1 hv.2 hg.1 hg.2
    simp only []
    rw [show scale_int64 (stream_sample K m k) (stream_gain P m channel)
      = Int.tdiv (stream_sample K m k * stream_gain P m channel) 0x10000 from he.2.1]
  rw [hfun, foldl_int64_add_zero, int64_t_id _ (by omega) (by omega)]

/-- C23: in the S32 paths of `pa_mix` and `pa_volume_memchunk` no step leaves the
64-bit signed range. For every decoded 32-bit sample and every gain, which the code
holds in an `int32_t`, the product that is formed in an `int64_t` is exact; with fewer
than 2^16 streams the sum accumulated over any number of leading streams equals the
exact sum of the scaled samples and lies in the range; and the product of the
saturated sum with the master gain is exact. The same holds for the product in the
32-bit cases of `pa_volume_memchunk`. -/
theorem s32_arithmetic_fits (P : Platform) (K : mix_codec) (streams : List pa_mix_info)
    (spec : pa_sample_spec) (master : Option pa_cvolume) (mute : Bool) (channel k : Nat)
    (hK : K = mix_s32ne P ∨ K = mix_s32re P)
    (hn : streams.length < 0x10000) (hc : channel < spec.channels) :
    (∀ m : pa_mix_info,
        (-0x8000000000000000 ≤ stream_sample K m k * stream_gain P m channel
          ∧ stream_sample K m k * stream_gain P m channel ≤ 0x7FFFFFFFFFFFFFFF)
        ∧ K.scale (stream_sample K m k) (stream_gain P m channel)
            = Int.tdiv (stream_sample K m k * stream_gain P m channel) 0x10000)
      ∧ (∀ i,
          mix_sum K mute (master_gain P spec master channel) channel
              (shift_streams K.width k (mix_setup P false (streams.take i) spec))
            = ((streams.take i).map (fun m =>
                if decide (stream_gain P m channel ≤ 0) || mute
                    || decide (master_gain P spec master channel ≤ 0) then 0
                else Int.tdiv (stream_sample K m k * stream_gain P m channel) 0x10000)).sum
          ∧ -0x8000000000000000 ≤ mix_sum K mute (master_gain P spec master channel) channel
              (shift_streams K.width k (mix_setup P false (streams.take i) spec))
          ∧ mix_sum K mute (master_gain P spec master channel) channel
              (shift_streams K.width k (mix_setup P false (streams.take i) spec))
            ≤ 0x7FFFFFFFFFFFFFFF)
      ∧ (∀ sum : Int,
          (-0x8000000000000000 ≤ PA_CLAMP_UNLIKELY sum (-0x80000000) 0x7FFFFFFF
              * master_gain P spec master channel
            ∧ PA_CLAMP_UNLIKELY sum (-0x80000000) 0x7FFFFFFF
              * master_gain P spec master channel ≤ 0x7FFFFFFFFFFFFFFF)
          ∧ scale_int64 (PA_CLAMP_UNLIKELY sum (-0x80000000) 0x7FFFFFFF)
              (master_gain P spec master channel)
            = Int.tdiv (PA_CLAMP_UNLIKELY sum (-0x80000000) 0x7FFFFFFF
                * master_gain P spec master channel) 0x10000)
      ∧ (∀ (p : List Byte) (d : Nat) (x : Int),
          (-0x8000000000000000 ≤ K.read p d * int32_t x
            ∧ K.read p d * int32_t x ≤ 0x7FFFFFFFFFFFFFFF)
          ∧ volume_s32ne P p d (int32_t x)
            = store_u32 P.WORDS_BIGENDIAN (int32_t (PA_CLAMP_UNLIKELY
                (Int.tdiv ((mix_s32ne P).read p d * int32_t x) 0x10000)
                (-0x80000000) 0x7FFFFFFF))
          ∧ volume_s32re P p d (int32_t x)
            = store_u32 P.WORDS_BIGENDIAN (PA_INT32_SWAP (int32_t (PA_CLAMP_UNLIKELY
                (Int.tdiv ((mix_s32re P).read p d * int32_t x) 0x10000)
                (-0x80000000) 0x7FFFFFFF)))) := by
  have hscale : K.scale = scale_int64 := by
    rcases hK with rfl | rfl <;> rfl
  have hL := master_gain_bounds P spec master channel
  refine ⟨?_, ?_, ?_, ?_⟩
  · intro m
    have hv : -0x80000000 ≤ stream_sample K m k ∧ stream_sample K m k ≤ 0x7FFFFFFF :=
      s32_sample_bounds P K hK _ _
    have hg := stream_gain_bounds P m channel
    have hb := s32_product_bounds _ _ hv.1 hv.2 hg.1 hg.2
    have he := scale_int64_exact _ _ hv.1 hv.2 hg.1 hg.2
    rw [hscale]
    exact ⟨⟨by omega, by omega⟩, he.2.1⟩
  · intro i
    have hlen : (streams.take i).length < 0x10000 := by
      rw [List.length_take]; omega
    have h := s32_sum_exact P K hK (streams.take i) spec mute
      (master_gain P spec master channel) channel k hlen hc
    refine ⟨h.1, ?_, ?_⟩
    · rw [h.1]; omega
    · rw [h.1]; omega
  · intro sum
    have hs := clamp_bounds sum (-0x80000000) 0x7FFFFFFF (by decide)
    have hb := s32_product_bounds _ _ hs.1 hs.2 hL.1 hL.2
    have he := scale_int64_exact _ _ hs.1 hs.2 hL.1 hL.2
    exact ⟨⟨by omega, by omega⟩, he.2.1⟩
  · intro p d x
    have hx := int32_t_bounds x
    have hv := s32_sample_bounds P K hK p d
    have hb := s32_product_bounds _ _ hv.1 hv.2 hx.1 hx.2
    have hne := s32_sample_bounds P (mix_s32ne P) (Or.inl rfl) p d
    have hre := s32_sample_bounds P (mix_s32re P) (Or.inr rfl) p d
    have ene := (scale_int64_exact _ _ hne.1 hne.2 hx.1 hx.2).2.1
    have ere := (scale_int64_exact _ _ hre.1 hre.2 hx.1 hx.2).2.1
    refine ⟨⟨by omega, by omega⟩, ?_, ?_⟩
    · rw [← ene]; rfl
    · rw [← ere]; rfl

/-- C23, at a concrete input: two 32-bit streams whose first sample is the least value,
at unity gain. -/
theorem s32_arithmetic_fits_witness :
    ([stream_of [0, 0, 0, 0x80] 4 0x10000, stream_of [0, 0, 0, 0x80] 4 0x10000].length
          < 0x10000 ∧ 0 < stereo_s32le.channels)
      ∧ mix_sum (mix_s32ne little_endian_host) false
          (master_gain little_endian_host stereo_s32le none 0) 0
          (shift_streams (mix_s32ne little_endian_host).width 0
            (mix_setup little_endian_host false
              ([stream_of [0, 0, 0, 0x80] 4 0x10000, stream_of [0, 0, 0, 0x80] 4 0x10000].take 2)
              stereo_s32le))
        ≤ 0x7FFFFFFFFFFFFFFF
      ∧ mix_sum (mix_s32ne little_endian_host) false
          (master_gain little_endian_host stereo_s32le none 0) 0
          (shift_streams (mix_s32ne little_endian_host).width 0
            (mix_setup little_endian_host false
              [stream_of [0, 0, 0, 0x80] 4 0x10000, stream_of [0, 0, 0, 0x80] 4 0x10000]
              stereo_s32le))
        = -0x100000000 :=
  ⟨by decide,
    ((s32_arithmetic_fits little_endian_host (mix_s32ne little_endian_host)
      [stream_of [0, 0, 0, 0x80] 4 0x10000, stream_of [0, 0, 0, 0x80] 4 0x10000]
      stereo_s32le none false 0 0 (Or.inl rfl) (by decide) (by decide)).2.1 2).2.2,
    by decide⟩

theorem length_store_u16 (be : Bool) (x : Int) : (store_u16 be x).length = 2 := by
  unfold store_u16; split <;> rfl

theorem length_store_u32 (be : Bool) (x : Int) : (store_u32 be x).length = 4 := by
  unfold store_u32; split <;> rfl

theorem mix_case_write_length (P : Platform) (format : pa_sample_format_t) (float : Bool)
    (K : mix_codec) (h : mix_case P format = some (float, K)) (sum linear : Int) :
    (K.write sum linear).length = K.width := by
  revert h
  unfold mix_case PA_SAMPLE_S16NE PA_SAMPLE_S16RE PA_SAMPLE_S32NE PA_SAMPLE_S32RE
    PA_SAMPLE_FLOAT32NE PA_SAMPLE_FLOAT32RE
  cases P.WORDS_BIGENDIAN <;> cases format <;> simp <;>
    (intro _ h; subst h;
     first
      | exact length_store_u16 _ _
      | exact length_store_u32 _ _
      | rfl)

/-- C24: for every encoding `pa_mix` supports, with sample width `w`, every stream
list and every length > 0, the value `pa_mix` returns is the least multiple of `w` that
is at least the least of the output length and the chunk lengths of the streams, and
exactly that many bytes are written to the output. -/
theorem pa_mix_returns_least_multiple (P : Platform) (streams : List pa_mix_info)
    (length : Nat) (spec : pa_sample_spec) (volume : Option pa_cvolume) (mute : Bool)
    (hl : 0 < length) (hf : spec.format ≠ PA_SAMPLE_MAX) :
    ∃ r, pa_mix P streams length spec volume mute = some r
      ∧ sample_width spec.format ∣ r.d
      ∧ mix_limit length streams ≤ r.d
      ∧ (∀ d, sample_width spec.format ∣ d → mix_limit length streams ≤ d → r.d ≤ d)
      ∧ r.data.length = r.d := by
  obtain ⟨float, K, hc, hw⟩ := mix_case_supported P spec.format hf
  have hpos := (mix_case_width P spec.format float K hc).2
  have hb := mix_count_bounds K.width length streams hpos
  refine ⟨_, pa_mix_eq P streams length spec volume mute float K hl hc, ?_, ?_, ?_, ?_⟩
  · rw [← hw]
    exact Dvd.intro_left _ rfl
  · exact hb.1
  · rintro d ⟨q, rfl⟩ hd
    simp only []
    rw [← hw] at hd ⊢
    have hq : mix_count K.width length streams ≤ q := by
      by_contra hlt
      have : K.width * (q + 1) ≤ K.width * mix_count K.width length streams :=
        Nat.mul_le_mul_left _ (by omega)
      rw [Nat.mul_succ, Nat.mul_comm K.width (mix_count K.width length streams)] at this
      omega
    rw [Nat.mul_comm]
    exact Nat.mul_le_mul_left _ hq
  · simp only []
    apply length_flatMap_const
    intro j
    unfold mix_sample
    exact mix_case_write_length P spec.format float K hc _ _

/-- C24, at a concrete input: one 16-bit stream of 3 bytes mixed into 3 bytes of output
gives 4 bytes, the least multiple of 2 that is at least 3. -/
theorem pa_mix_returns_least_multiple_witness :
    (0 < 3 ∧ stereo_s16le.format ≠ PA_SAMPLE_MAX)
      ∧ (∃ r, pa_mix little_endian_host [stream_of [1, 0, 2, 0, 3] 3 0x10000] 3 stereo_s16le
            none false = some r
          ∧ sample_width stereo_s16le.format ∣ r.d
          ∧ mix_limit 3 [stream_of [1, 0, 2, 0, 3] 3 0x10000] ≤ r.d
          ∧ (∀ d, sample_width stereo_s16le.format ∣ d →
              mix_limit 3 [stream_of [1, 0, 2, 0, 3] 3 0x10000] ≤ d → r.d ≤ d)
          ∧ r.data.length = r.d)
      ∧ (pa_mix little_endian_host [stream_of [1, 0, 2, 0, 3] 3 0x10000] 3 stereo_s16le
            none false).map (fun r => (r.d, r.data.length)) = some (4, 4) :=
  ⟨by decide,
    pa_mix_returns_least_multiple little_endian_host [stream_of [1, 0, 2, 0, 3] 3 0x10000] 3
      stereo_s16le none false (by decide) (by decide),
    by decide⟩

/-! ## Memory accesses stay in bounds -/

theorem mix_loop_traced_fst (K : mix_codec) (mute : Bool) (linear : List Int)
    (channels length fuel : Nat) (streams : List pa_mix_info) (d channel : Nat)
    (data : List Byte) (trace : List mix_access) :
    (mix_loop_traced K mute linear channels length fuel streams d channel data trace).map
        (fun r => (r.1, r.2.1))
      = mix_loop K mute linear channels length fuel streams d channel data := by
  induction fuel generalizing streams d channel data trace with
  | zero => rfl
  | succ fuel ih =>
    simp only [mix_loop_traced, mix_loop]
    by_cases hd : d ≥ length
    · rw [if_pos hd, if_pos hd]; rfl
    · rw [if_neg hd, if_neg hd]
      cases hm : mix_streams K mute (linear.getD channel 0) channel d streams 0 with
      | none => rfl
      | some r =>
        obtain ⟨sum, next⟩ := r
        exact ih _ _ _ _ _

theorem pa_mix_traced_fst (P : Platform) (streams : List pa_mix_info) (length : Nat)
    (spec : pa_sample_spec) (volume : Option pa_cvolume) (mute : Bool) :
    (pa_mix_traced P streams length spec volume mute).map (fun r => r.1)
      = pa_mix P streams length spec volume mute := by
  unfold pa_mix_traced pa_mix
  by_cases hl : length = 0
  · rw [if_pos hl, if_pos hl]; rfl
  · rw [if_neg hl, if_neg hl]
    cases hc : mix_case P spec.format with
    | none => rfl
    | some r =>
      obtain ⟨float, K⟩ := r
      simp only []
      rw [← mix_loop_traced_fst K mute _ _ _ _ _ _ _ _ []]
      simp only [Option.map_map]
      rfl

theorem mix_streams_next (K : mix_codec) (mute : Bool) (linear : Int) (channel d : Nat)
    (streams : List pa_mix_info) (sum s : Int) (next : List pa_mix_info)
    (h : mix_streams K mute linear channel d streams sum = some (s, next)) :
    next = streams.map (fun m => { m with ptr := m.ptr + K.width }) := by
  induction streams generalizing sum s next with
  | nil =>
    simp only [mix_streams, Option.some.injEq, Prod.mk.injEq] at h
    rw [← h.2]; rfl
  | cons m ms ih =>
    simp only [mix_streams] at h
    by_cases hd : d ≥ m.chunk.length
    · rw [if_pos hd] at h; cases h
    · rw [if_neg hd] at h
      cases hr : mix_streams K mute linear channel d ms
          (K.add sum (mix_term K mute linear channel m)) with
      | none => rw [hr] at h; cases h
      | some r =>
        obtain ⟨s2, next2⟩ := r
        rw [hr] at h
        simp only [Option.some.injEq, Prod.mk.injEq] at h
        rw [← h.2, ih _ _ _ hr]
        rfl

theorem mix_streams_reads_spec (K : mix_codec) (mute : Bool) (linear : Int)
    (channel d : Nat) (i0 : Nat) (streams : List pa_mix_info) (a : mix_access)
    (ha : a ∈ mix_streams_reads K mute linear channel d i0 streams) :
    ∃ n m, a = mix_access.read (i0 + n) m.ptr ∧ streams[n]? = some m ∧ d < m.chunk.length := by
  induction streams generalizing i0 with
  | nil => simp [mix_streams_reads] at ha
  | cons m ms ih =>
    simp only [mix_streams_reads] at ha
    by_cases hd : d ≥ m.chunk.length
    · rw [if_pos hd] at ha; simp at ha
    · rw [if_neg hd] at ha
      rcases List.mem_append.1 ha with h | h
      · split at h
        · simp at h
        · simp only [List.mem_singleton] at h
          exact ⟨0, m, by rw [h]; rfl, by simp, by omega⟩
      · obtain ⟨n, m2, h1, h2, h3⟩ := ih (i0 + 1) h
        refine ⟨n + 1, m2, ?_, ?_, h3⟩
        · rw [h1]; congr 1; omega
        · simpa using h2

theorem aligned_step (w d l : Nat) (hd : w ∣ d) (hl : w ∣ l) (h : d < l) : d + w ≤ l := by
  obtain ⟨a, rfl⟩ := hd
  obtain ⟨b, rfl⟩ := hl
  have hab : a < b := Nat.lt_of_mul_lt_mul_left h
  have : w * (a + 1) ≤ w * b := Nat.mul_le_mul_left _ hab
  rw [Nat.mul_succ] at this
  exact this

theorem mix_loop_traced_ok (K : mix_codec) (mute : Bool) (linear : List Int)
    (channels length : Nat) (streams : List pa_mix_info)
    (hwl : ∀ sum lin, (K.write sum lin).length = K.width)
    (hal : K.width ∣ length) (has : ∀ m ∈ streams, K.width ∣ m.chunk.length) :
    ∀ (fuel : Nat) (cur : List pa_mix_info) (d channel : Nat) (data : List Byte)
      (trace : List mix_access) (res : Nat × List Byte × List mix_access),
      (∀ (n : Nat) (m : pa_mix_info), cur[n]? = some m →
        ∃ m0, streams[n]? = some m0 ∧ m.chunk = m0.chunk ∧ m.ptr = m0.chunk.index + d) →
      data.length = d → K.width ∣ d →
      (∀ a ∈ trace, access_in_bounds K.width length streams a) →
      mix_loop_traced K mute linear channels length fuel cur d channel data trace = some res →
      ∀ a ∈ res.2.2, access_in_bounds K.width length streams a := by
  intro fuel
  induction fuel with
  | zero =>
    intro cur d channel data trace res _ _ _ _ h
    simp [mix_loop_traced] at h
  | succ fuel ih =>
    intro cur d channel data trace res hinv hdata hdvd htrace h
    simp only [mix_loop_traced] at h
    by_cases hd : d ≥ length
    · rw [if_pos hd] at h
      cases h
      exact htrace
    · rw [if_neg hd] at h
      have hreads : ∀ a ∈ mix_streams_reads K mute (linear.getD channel 0) channel d 0 cur,
          access_in_bounds K.width length streams a := by
        intro a ha
        obtain ⟨n, m, h1, h2, h3⟩ := mix_streams_reads_spec K mute _ channel d 0 cur a ha
        obtain ⟨m0, h4, h5, h6⟩ := hinv n m h2
        rw [h1, Nat.zero_add]
        refine ⟨m0, h4, by omega, ?_⟩
        have hm0 : m0 ∈ streams := List.getElem?_mem h4
        have := aligned_step K.width d m0.chunk.length hdvd (has m0 hm0) (by rw [← h5]; exact h3)
        omega
      cases hm : mix_streams K mute (linear.getD channel 0) channel d cur 0 with
      | none =>
        rw [hm] at h
        cases h
        intro a ha
        rcases List.mem_append.1 ha with h1 | h1
        · exact htrace a h1
        · exact hreads a h1
      | some r =>
        obtain ⟨sum, next⟩ := r
        rw [hm] at h
        have hnext := mix_streams_next K mute _ channel d cur 0 sum next hm
        refine ih next (d + K.width) _ _ _ res ?_ ?_ ?_ ?_ h
        · intro n m hn
          rw [hnext, List.getElem?_map] at hn
          cases hc : cur[n]? with
          | none => rw [hc] at hn; cases hn
          | some mc =>
            rw [hc] at hn
            simp only [Option.map_some', Option.some.injEq] at hn
            obtain ⟨m0, h4, h5, h6⟩ := hinv n mc hc
            refine ⟨m0, h4, ?_, ?_⟩
            · rw [← hn]; exact h5
            · rw [← hn]; simp only []; omega
        · rw [List.length_append, hwl, hdata]
        · exact Nat.dvd_add hdvd (Nat.dvd_refl _)
        · intro a ha
          rcases List.mem_append.1 ha with h1 | h1
          · rcases List.mem_append.1 h1 with h2 | h2
            · exact htrace a h2
            · exact hreads a h2
          · simp only [List.mem_singleton] at h1
            rw [h1, hdata]
            exact aligned_step K.width d length hdvd hal (by omega)

theorem mix_setup_getElem (P : Platform) (float : Bool) (streams : List pa_mix_info)
    (spec : pa_sample_spec) (n : Nat) (m : pa_mix_info)
    (h : (mix_setup P float streams spec)[n]? = some m) :
    ∃ m0, streams[n]? = some m0 ∧ m.chunk = m0.chunk ∧ m.ptr = m0.chunk.index + 0 := by
  unfold mix_setup calc_linear_float_stream_volumes calc_linear_integer_stream_volumes at h
  cases float <;>
    (simp only [Bool.false_eq_true, if_false, if_true, List.map_map, List.getElem?_map] at h
     cases hs : streams[n]? with
     | none => rw [hs] at h; cases h
     | some m0 =>
       rw [hs] at h
       simp only [Option.map_some', Option.some.injEq, Function.comp] at h
       exact ⟨m0, rfl, by rw [← h], by rw [← h]; rfl⟩)

/-- C25: if the output length and the chunk length of every stream are multiples of the
sample width `w` of the encoding, then `pa_mix` returns, and every load it makes from a
stream covers `w` bytes inside the chunk of that stream and every store to the output
covers `w` bytes inside the first `length` bytes: no sample is read or written beyond
the declared lengths. -/
theorem pa_mix_accesses_in_bounds (P : Platform) (streams : List pa_mix_info)
    (length : Nat) (spec : pa_sample_spec) (volume : Option pa_cvolume) (mute : Bool)
    (hl : 0 < length) (hf : spec.format ≠ PA_SAMPLE_MAX)
    (hal : sample_width spec.format ∣ length)
    (has : ∀ m ∈ streams, sample_width spec.format ∣ m.chunk.length) :
    ∃ r t, pa_mix_traced P streams length spec volume mute = some (r, t)
      ∧ pa_mix P streams length spec volume mute = some r
      ∧ ∀ a ∈ t, access_in_bounds (sample_width spec.format) length streams a := by
  obtain ⟨float, K, hc, hw⟩ := mix_case_supported P spec.format hf
  have hmix := pa_mix_eq P streams length spec volume mute float K hl hc
  have hfst := pa_mix_traced_fst P streams length spec volume mute
  rw [hmix] at hfst
  cases htr : pa_mix_traced P streams length spec volume mute with
  | none => rw [htr] at hfst; cases hfst
  | some rt =>
    obtain ⟨r, t⟩ := rt
    rw [htr] at hfst
    simp only [Option.map_some', Option.some.injEq] at hfst
    refine ⟨r, t, rfl, by rw [hmix, hfst], ?_⟩
    unfold pa_mix_traced at htr
    rw [if_neg (by omega), hc] at htr
    simp only [] at htr
    cases hloop : mix_loop_traced K mute (mix_linear P float (mix_volume P spec volume))
        spec.channels length (length + 1) (mix_setup P float streams spec) 0 0 [] [] with
    | none => rw [hloop] at htr; cases htr
    | some res =>
      rw [hloop] at htr
      simp only [Option.map_some', Option.some.injEq, Prod.mk.injEq] at htr
      rw [← htr.2, ← hw]
      exact mix_loop_traced_ok K mute _ spec.channels length streams
        (mix_case_write_length P spec.format float K hc) (hw ▸ hal)
        (fun m hm => hw ▸ has m hm) (length + 1) _ 0 0 [] [] res
        (mix_setup_getElem P float streams spec) rfl (Nat.dvd_zero _)
        (fun a ha => by simp at ha) hloop

/-- C25, at a concrete input: 16-bit stereo streams of 8 and 4 bytes mixed into 8 bytes;
the last load is the one of the first stream in the turn that finds the second stream
exhausted. -/
theorem pa_mix_accesses_in_bounds_witness :
    (0 < 8 ∧ stereo_s16le.format ≠ PA_SAMPLE_MAX ∧ sample_width stereo_s16le.format ∣ 8
        ∧ ∀ m ∈ two_streams, sample_width stereo_s16le.format ∣ m.chunk.length)
      ∧ (∃ r t, pa_mix_traced little_endian_host two_streams 8 stereo_s16le none false
            = some (r, t)
          ∧ pa_mix little_endian_host two_streams 8 stereo_s16le none false = some r
          ∧ ∀ a ∈ t, access_in_bounds (sample_width stereo_s16le.format) 8 two_streams a)
      ∧ (pa_mix_traced little_endian_host two_streams 8 stereo_s16le none false).map
          (fun r => r.2)
        = some [mix_access.read 0 0, mix_access.read 1 0, mix_access.write 0,
            mix_access.read 0 2, mix_access.read 1 2, mix_access.write 2,
            mix_access.read 0 4] :=
  ⟨by decide,
    pa_mix_accesses_in_bounds little_endian_host two_streams 8 stereo_s16le none false
      (by decide) (by decide) (by decide) (by decide),
    by decide⟩

/-! ## The order of the streams -/

theorem mix_limit_perm (length : Nat) (s1 s2 : List pa_mix_info) (hp : List.Perm s1 s2) :
    mix_limit length s1 = mix_limit length s2 := by
  unfold mix_limit
  induction hp with
  | nil => rfl
  | cons x _ ih => simp only [List.foldr_cons, ih]
  | swap x y l =>
    simp only [List.foldr_cons]
    omega
  | trans _ _ ih1 ih2 => rw [ih1, ih2]

theorem integer_add_right_comm (P : Platform) (K : mix_codec)
    (h : K = mix_u8 ∨ K = mix_s16ne P ∨ K = mix_s16re P ∨ K = mix_s32ne P ∨ K = mix_s32re P)
    (z x y : Int) : K.add (K.add z x) y = K.add (K.add z y) x := by
  rcases h with rfl | rfl | rfl | rfl | rfl <;>
    simp only [mix_u8, mix_s16ne, mix_s16re, mix_s32ne, mix_s32re] <;>
    first
      | (unfold int32_t; omega)
      | (unfold int64_t; omega)

theorem mix_sum_perm (P : Platform) (K : mix_codec)
    (h : K = mix_u8 ∨ K = mix_s16ne P ∨ K = mix_s16re P ∨ K = mix_s32ne P ∨ K = mix_s32re P)
    (mute : Bool) (linear : Int) (channel : Nat) (s1 s2 : List pa_mix_info)
    (hp : List.Perm s1 s2) :
    mix_sum K mute linear channel s1 = mix_sum K mute linear channel s2 := by
  unfold mix_sum
  exact List.Perm.foldl_eq' hp (fun x _ y _ z => integer_add_right_comm P K h z _ _) 0

theorem mix_setup_perm (P : Platform) (spec : pa_sample_spec) (w k : Nat)
    (s1 s2 : List pa_mix_info) (hp : List.Perm s1 s2) :
    List.Perm (shift_streams w k (mix_setup P false s1 spec))
      (shift_streams w k (mix_setup P false s2 spec)) := by
  unfold shift_streams mix_setup calc_linear_integer_stream_volumes
  simp only [Bool.false_eq_true, if_false]
  exact ((hp.map _).map _).map _

/-- C26: for each integer PCM encoding (U8, S16NE, S16RE, S32NE, S32RE) the result of
`pa_mix`, that is the bytes it writes and the length it returns, is the same for any
two stream lists that are permutations of each other. -/
theorem pa_mix_perm (P : Platform) (s1 s2 : List pa_mix_info) (length : Nat)
    (spec : pa_sample_spec) (volume : Option pa_cvolume) (mute : Bool)
    (hf : integer_pcm spec.format = true) (hp : List.Perm s1 s2) :
    pa_mix P s1 length spec volume mute = pa_mix P s2 length spec volume mute := by
  by_cases hl : length = 0
  · unfold pa_mix
    rw [if_pos hl, if_pos hl]
  · obtain ⟨K, hc, _, hK⟩ := integer_pcm_case P spec.format hf
    have hK2 : K = mix_u8 ∨ K = mix_s16ne P ∨ K = mix_s16re P ∨ K = mix_s32ne P
        ∨ K = mix_s32re P := by
      rcases hK with ⟨_, h⟩ | ⟨_, h⟩ | ⟨_, h⟩ | ⟨_, h⟩ | ⟨_, h⟩
      · exact Or.inl h
      · exact Or.inr (Or.inl h)
      · exact Or.inr (Or.inr (Or.inl h))
      · exact Or.inr (Or.inr (Or.inr (Or.inl h)))
      · exact Or.inr (Or.inr (Or.inr (Or.inr h)))
    rw [pa_mix_eq P s1 length spec volume mute false K (by omega) hc,
      pa_mix_eq P s2 length spec volume mute false K (by omega) hc]
    have hcount : mix_count K.width length s1 = mix_count K.width length s2 := by
      unfold mix_count
      rw [mix_limit_perm length s1 s2 hp]
    rw [hcount]
    congr 3
    funext k
    unfold mix_sample
    rw [mix_sum_perm P K hK2 mute _ _ _ _ (mix_setup_perm P spec K.width k s1 s2 hp)]

/-- C26, at a concrete input: two 16-bit stereo streams of different lengths, mixed in
either order. -/
theorem pa_mix_perm_witness :
    (integer_pcm stereo_s16le.format = true
        ∧ List.Perm [four_frames_unity, four_frames_half] [four_frames_half, four_frames_unity])
      ∧ pa_mix little_endian_host [four_frames_unity, four_frames_half] 16 stereo_s16le none
          false
        = pa_mix little_endian_host [four_frames_half, four_frames_unity] 16 stereo_s16le none
          false :=
  ⟨⟨by decide, List.Perm.swap _ _ _⟩,
    pa_mix_perm little_endian_host [four_frames_unity, four_frames_half]
      [four_frames_half, four_frames_unity] 16 stereo_s16le none false (by decide)
      (List.Perm.swap _ _ _)⟩

/-! ## Reverse-endian mixing -/

theorem uint8_t_congr (a b : Int) (h : a % 256 = b % 256) : uint8_t a = uint8_t b := by
  unfold uint8_t
  apply Fin.ext
  show (a % 256).toNat = (b % 256).toNat
  rw [h]

theorem load_u16_range (be : Bool) (p : List Byte) (i : Nat) :
    0 ≤ load_u16 be p i ∧ load_u16 be p i < 0x10000 := by
  have h0 := peek_bounds p i
  have h1 := peek_bounds p (i + 1)
  unfold load_u16
  split <;> omega

theorem load_u32_range (be : Bool) (p : List Byte) (i : Nat) :
    0 ≤ load_u32 be p i ∧ load_u32 be p i < 0x100000000 := by
  have h0 := peek_bounds p i
  have h1 := peek_bounds p (i + 1)
  have h2 := peek_bounds p (i + 2)
  have h3 := peek_bounds p (i + 3)
  unfold load_u32
  split <;> omega

theorem load_u16_swapped (be : Bool) (p q : List Byte) (i : Nat)
    (h0 : q.getD i 0 = p.getD (i + 1) 0) (h1 : q.getD (i + 1) 0 = p.getD i 0) :
    load_u16 be q i = bswap16 (load_u16 be p i) := by
  have b0 := peek_bounds p i
  have b1 := peek_bounds p (i + 1)
  have e0 : peek q i = peek p (i + 1) := by unfold peek; rw [h0]
  have e1 : peek q (i + 1) = peek p i := by unfold peek; rw [h1]
  unfold load_u16 bswap16
  rw [e0, e1]
  generalize peek p i = a at *
  generalize peek p (i + 1) = b at *
  cases be <;> simp only [if_true, if_false, Bool.false_eq_true] <;> omega

theorem load_u32_swapped (be : Bool) (p q : List Byte) (i : Nat)
    (h0 : q.getD i 0 = p.getD (i + 3) 0) (h1 : q.getD (i + 1) 0 = p.getD (i + 2) 0)
    (h2 : q.getD (i + 2) 0 = p.getD (i + 1) 0) (h3 : q.getD (i + 3) 0 = p.getD i 0) :
    load_u32 be q i = bswap32 (load_u32 be p i) := by
  have b0 := peek_bounds p i
  have b1 := peek_bounds p (i + 1)
  have b2 := peek_bounds p (i + 2)
  have b3 := peek_bounds p (i + 3)
  have e0 : peek q i = peek p (i + 3) := by unfold peek; rw [h0]
  have e1 : peek q (i + 1) = peek p (i + 2) := by unfold peek; rw [h1]
  have e2 : peek q (i + 2) = peek p (i + 1) := by unfold peek; rw [h2]
  have e3 : peek q (i + 3) = peek p i := by unfold peek; rw [h3]
  unfold load_u32 bswap32
  rw [e0, e1, e2, e3]
  generalize peek p i = a at *
  generalize peek p (i + 1) = b at *
  generalize peek p (i + 2) = c at *
  generalize peek p (i + 3) = d at *
  cases be <;> simp only [if_true, if_false, Bool.false_eq_true] <;> omega

theorem read_s16_swapped (P : Platform) (p q : List Byte) (i : Nat)
    (h0 : q.getD i 0 = p.getD (i + 1) 0) (h1 : q.getD (i + 1) 0 = p.getD i 0) :
    (mix_s16re P).read q i = (mix_s16ne P).read p i := by
  have hr := load_u16_range P.WORDS_BIGENDIAN p i
  have hb := bswap16_bounds (load_u16 P.WORDS_BIGENDIAN p i)
  simp only [mix_s16re, mix_s16ne]
  rw [load_u16_swapped _ p q i h0 h1]
  unfold PA_INT16_SWAP
  rw [uint16_int16 _ hb.1 hb.2, bswap16_bswap16 _ hr.1 hr.2]

theorem read_s32_swapped (P : Platform) (p q : List Byte) (i : Nat)
    (h0 : q.getD i 0 = p.getD (i + 3) 0) (h1 : q.getD (i + 1) 0 = p.getD (i + 2) 0)
    (h2 : q.getD (i + 2) 0 = p.getD (i + 1) 0) (h3 : q.getD (i + 3) 0 = p.getD i 0) :
    (mix_s32re P).read q i = (mix_s32ne P).read p i := by
  have hr := load_u32_range P.WORDS_BIGENDIAN p i
  have hb := bswap32_bounds (load_u32 P.WORDS_BIGENDIAN p i)
  simp only [mix_s32re, mix_s32ne]
  rw [load_u32_swapped _ p q i h0 h1 h2 h3]
  unfold PA_INT32_SWAP
  rw [uint32_int32 _ hb.1 hb.2, bswap32_bswap32 _ hr.1 hr.2]

theorem bswap16_bytes (u : Int) :
    bswap16 u % 0x100 = u / 0x100 % 0x100 ∧ bswap16 u / 0x100 % 0x100 = u % 0x100 := by
  have h0 : 0 ≤ u % 0x100 ∧ u % 0x100 < 0x100 := by omega
  have h1 : 0 ≤ u / 0x100 % 0x100 ∧ u / 0x100 % 0x100 < 0x100 := by omega
  unfold bswap16
  generalize u % 0x100 = a at *
  generalize u / 0x100 % 0x100 = b at *
  omega

theorem bswap32_bytes (u : Int) :
    bswap32 u % 0x100 = u / 0x1000000 % 0x100
      ∧ bswap32 u / 0x100 % 0x100 = u / 0x10000 % 0x100
      ∧ bswap32 u / 0x10000 % 0x100 = u / 0x100 % 0x100
      ∧ bswap32 u / 0x1000000 % 0x100 = u % 0x100 := by
  have h0 : 0 ≤ u % 0x100 ∧ u % 0x100 < 0x100 := by omega
  have h1 : 0 ≤ u / 0x100 % 0x100 ∧ u / 0x100 % 0x100 < 0x100 := by omega
  have h2 : 0 ≤ u / 0x10000 % 0x100 ∧ u / 0x10000 % 0x100 < 0x100 := by omega
  have h3 : 0 ≤ u / 0x1000000 % 0x100 ∧ u / 0x1000000 % 0x100 < 0x100 := by omega
  unfold bswap32
  generalize u % 0x100 = a at *
  generalize u / 0x100 % 0x100 = b at *
  generalize u / 0x10000 % 0x100 = c at *
  generalize u / 0x1000000 % 0x100 = d at *
  omega

theorem store_u16_swapped (be : Bool) (x : Int) :
    store_u16 be (PA_INT16_SWAP x) = (store_u16 be x).reverse := by
  have hb := bswap16_bounds (uint16_t x)
  have hy := bswap16_bytes (uint16_t x)
  unfold store_u16 PA_INT16_SWAP
  rw [uint16_int16 _ hb.1 hb.2]
  cases be <;>
    simp only [if_true, if_false, Bool.false_eq_true, List.reverse_cons, List.reverse_nil,
      List.nil_append, List.singleton_append, List.cons.injEq, and_true] <;>
    constructor <;> apply uint8_t_congr <;> omega

theorem store_u32_swapped (be : Bool) (x : Int) :
    store_u32 be (PA_INT32_SWAP x) = (store_u32 be x).reverse := by
  have hb := bswap32_bounds (uint32_t x)
  have hy := bswap32_bytes (uint32_t x)
  unfold store_u32 PA_INT32_SWAP
  rw [uint32_int32 _ hb.1 hb.2]
  cases be <;>
    simp only [if_true, if_false, Bool.false_eq_true, List.reverse_cons, List.reverse_nil,
      List.nil_append, List.singleton_append, List.cons_append, List.cons.injEq, and_true] <;>
    refine ⟨?_, ?_, ?_, ?_⟩ <;> apply uint8_t_congr <;> omega

theorem length_swap_samples (w : Nat) (data : List Byte) (index n : Nat) :
    (swap_samples w data index n).length = data.length := by
  simp [swap_samples]

theorem getD_swap_samples (w : Nat) (data : List Byte) (index n i : Nat)
    (hi : i < data.length) :
    (swap_samples w data index n).getD i 0
      = if index ≤ i ∧ i < index + n * w then
          data.getD (index + (i - index) / w * w + (w - 1 - (i - index) % w)) 0
        else data.getD i 0 := by
  unfold swap_samples
  rw [List.getD_eq_getElem?_getD, List.getElem?_map, List.getElem?_range hi]
  rfl

theorem swap_samples_sample (w : Nat) (data : List Byte) (index n k j : Nat)
    (hk : k < n) (hj : j < w) (hb : index + n * w ≤ data.length) :
    (swap_samples w data index n).getD (index + k * w + j) 0
      = data.getD (index + k * w + (w - 1 - j)) 0 := by
  have hkw : k * w + w ≤ n * w := by
    have : (k + 1) * w ≤ n * w := Nat.mul_le_mul_right _ hk
    rw [Nat.succ_mul] at this
    exact this
  have hsub : index + k * w + j - index = w * k + j := by
    rw [Nat.mul_comm w k]; omega
  have hdiv : (w * k + j) / w = k := by
    rw [Nat.mul_add_div (by omega), Nat.div_eq_of_lt hj, Nat.add_zero]
  have hmod : (w * k + j) % w = j := by
    rw [Nat.mul_add_mod, Nat.mod_eq_of_lt hj]
  rw [getD_swap_samples _ _ _ _ _ (by omega), if_pos (by omega), hsub, hdiv, hmod]

theorem swap_samples_flatMap (f : Nat → List Byte) (w : Nat) (hf : ∀ j, (f j).length = w)
    (n : Nat) :
    swap_samples w ((List.range n).flatMap f) 0 n
      = (List.range n).flatMap (fun k => (f k).reverse) := by
  have hlen := length_flatMap_const f w hf n
  have hlen2 := length_flatMap_const (fun k => (f k).reverse) w
    (fun j => by rw [List.length_reverse, hf]) n
  apply ext_getD_bytes
  · rw [length_swap_samples, hlen, hlen2]
  · intro i hi
    rw [length_swap_samples, hlen] at hi
    have hw : 0 < w := by
      by_contra h0
      have : w = 0 := by omega
      rw [this, Nat.mul_zero] at hi
      omega
    have hk : i / w < n := by
      rw [Nat.div_lt_iff_lt_mul hw]
      exact hi
    have hj : i % w < w := Nat.mod_lt _ hw
    have hi2 : i = i / w * w + i % w := by
      have := Nat.div_add_mod i w
      rw [Nat.mul_comm] at this
      omega
    obtain ⟨k, j, hk2, hj2, rfl⟩ : ∃ k j, k < n ∧ j < w ∧ i = k * w + j :=
      ⟨i / w, i % w, hk, hj, hi2⟩
    have h1 := swap_samples_sample w ((List.range n).flatMap f) 0 n k j hk2 hj2
      (by rw [hlen]; omega)
    rw [Nat.zero_add] at h1
    rw [h1, getD_flatMap_const f w hf n _ _ hk2 (by omega),
      getD_flatMap_const (fun k => (f k).reverse) w
        (fun j => by rw [List.length_reverse, hf]) n _ _ hk2 hj2,
      List.getD_eq_getElem _ _ (by rw [hf]; omega),
      List.getD_eq_getElem _ _ (by rw [List.length_reverse, hf]; exact hj2),
      List.getElem_reverse]
    congr 1
    rw [hf]

theorem mix_limit_swap (w length : Nat) (streams : List pa_mix_info) :
    mix_limit length (streams.map (swap_stream w)) = mix_limit length streams := by
  induction streams with
  | nil => rfl
  | cons m ms ih =>
    simp only [List.map_cons, mix_limit, List.foldr_cons] at ih ⊢
    rw [ih]
    rfl

theorem mix_case_s16re (P : Platform) (format : pa_sample_format_t)
    (hf : format = PA_SAMPLE_S16RE P) : mix_case P format = some (false, mix_s16re P) := by
  have h1 : format ≠ PA_SAMPLE_S16NE P := by
    rw [hf]; unfold PA_SAMPLE_S16RE PA_SAMPLE_S16NE
    cases P.WORDS_BIGENDIAN <;> simp
  unfold mix_case
  rw [if_neg h1, if_pos hf]

theorem mix_case_s32re (P : Platform) (format : pa_sample_format_t)
    (hf : format = PA_SAMPLE_S32RE P) : mix_case P format = some (false, mix_s32re P) := by
  have h1 : format ≠ PA_SAMPLE_S16NE P := by
    rw [hf]; unfold PA_SAMPLE_S32RE PA_SAMPLE_S16NE
    cases P.WORDS_BIGENDIAN <;> simp
  have h2 : format ≠ PA_SAMPLE_S16RE P := by
    rw [hf]; unfold PA_SAMPLE_S32RE PA_SAMPLE_S16RE
    cases P.WORDS_BIGENDIAN <;> simp
  have h3 : format ≠ PA_SAMPLE_S32NE P := by
    rw [hf]; unfold PA_SAMPLE_S32RE PA_SAMPLE_S32NE
    cases P.WORDS_BIGENDIAN <;> simp
  unfold mix_case
  rw [if_neg h1, if_neg h2, if_neg h3, if_pos hf]

theorem read_swapped_s16 (P : Platform) (p : List Byte) (index n k : Nat) (hk : k < n)
    (hb : index + n * 2 ≤ p.length) :
    (mix_s16re P).read (swap_samples 2 p index n) (index + k * 2)
      = (mix_s16ne P).read p (index + k * 2) := by
  have h0 := swap_samples_sample 2 p index n k 0 hk (by omega) hb
  have h1 := swap_samples_sample 2 p index n k 1 hk (by omega) hb
  exact read_s16_swapped P p _ _ h0 h1

theorem read_swapped_s32 (P : Platform) (p : List Byte) (index n k : Nat) (hk : k < n)
    (hb : index + n * 4 ≤ p.length) :
    (mix_s32re P).read (swap_samples 4 p index n) (index + k * 4)
      = (mix_s32ne P).read p (index + k * 4) := by
  have h0 := swap_samples_sample 4 p index n k 0 hk (by omega) hb
  have h1 := swap_samples_sample 4 p index n k 1 hk (by omega) hb
  have h2 := swap_samples_sample 4 p index n k 2 hk (by omega) hb
  have h3 := swap_samples_sample 4 p index n k 3 hk (by omega) hb
  exact read_s32_swapped P p _ _ h0 h1 h2 h3

theorem mix_sum_swapped (P : Platform) (Kn Kr : mix_codec) (w : Nat)
    (hwn : Kn.width = w) (hwr : Kr.width = w)
    (hle : Kr.le_zero = Kn.le_zero) (hscale : Kr.scale = Kn.scale) (hadd : Kr.add = Kn.add)
    (hread : ∀ (p : List Byte) (index n k : Nat), k < n → index + n * w ≤ p.length →
      Kr.read (swap_samples w p index n) (index + k * w) = Kn.read p (index + k * w))
    (streams : List pa_mix_info) (spec spec2 : pa_sample_spec)
    (hch : spec2.channels = spec.channels) (mute : Bool) (linear : Int) (channel k : Nat)
    (hs : ∀ m ∈ streams, w ∣ m.chunk.length
      ∧ m.chunk.index + m.chunk.length ≤ m.chunk.memblock.data.length)
    (hk : ∀ m ∈ streams, k * w < m.chunk.length) :
    mix_sum Kr mute linear channel
        (shift_streams Kr.width k (mix_setup P false (streams.map (swap_stream w)) spec2))
      = mix_sum Kn mute linear channel
        (shift_streams Kn.width k (mix_setup P false streams spec)) := by
  unfold mix_sum shift_streams mix_setup calc_linear_integer_stream_volumes
  simp only [Bool.false_eq_true, if_false, List.map_map, List.foldl_map]
  apply List.foldl_ext
  intro a m hm
  obtain ⟨hdvd, hin⟩ := hs m hm
  have hkm := hk m hm
  have hn : m.chunk.length / w * w = m.chunk.length := Nat.div_mul_cancel hdvd
  have hkn : k < m.chunk.length / w := by
    rw [Nat.lt_div_iff_mul_lt hdvd]
    rw [Nat.mul_comm]; exact hkm
  simp only [Function.comp, mix_term, swap_stream, hch, hle, hscale, hadd, hwn, hwr]
  rw [hread _ _ _ _ hkn (by rw [hn]; exact hin)]

theorem pa_mix_swapped (P : Platform) (Kn Kr : mix_codec) (w : Nat)
    (hwn : Kn.width = w) (hwr : Kr.width = w) (hw : 0 < w)
    (hle : Kr.le_zero = Kn.le_zero) (hscale : Kr.scale = Kn.scale) (hadd : Kr.add = Kn.add)
    (hread : ∀ (p : List Byte) (index n k : Nat), k < n → index + n * w ≤ p.length →
      Kr.read (swap_samples w p index n) (index + k * w) = Kn.read p (index + k * w))
    (hwrite : ∀ sum linear, Kr.write sum linear = (Kn.write sum linear).reverse)
    (hwl : ∀ sum linear, (Kn.write sum linear).length = w)
    (streams : List pa_mix_info) (length : Nat) (spec spec2 : pa_sample_spec)
    (volume : Option pa_cvolume) (mute : Bool)
    (hcn : mix_case P spec.format = some (false, Kn))
    (hcr : mix_case P spec2.format = some (false, Kr))
    (hch : spec2.channels = spec.channels)
    (hs : ∀ m ∈ streams, w ∣ m.chunk.length
      ∧ m.chunk.index + m.chunk.length ≤ m.chunk.memblock.data.length) :
    pa_mix P (streams.map (swap_stream w)) length spec2 volume mute
      = (pa_mix P streams length spec volume mute).map (swap_result w) := by
  by_cases hl : length = 0
  · unfold pa_mix
    rw [if_pos hl, if_pos hl]
    rfl
  · rw [pa_mix_eq P _ length spec2 volume mute false Kr (by omega) hcr,
      pa_mix_eq P _ length spec volume mute false Kn (by omega) hcn]
    have hcount : mix_count Kr.width length (streams.map (swap_stream w))
        = mix_count Kn.width length streams := by
      unfold mix_count
      rw [mix_limit_swap, hwn, hwr]
    simp only [Option.map_some', swap_result, Option.some.injEq]
    rw [hcount, hwn, hwr, Nat.mul_div_cancel _ hw]
    congr 1
    have hvol : mix_volume P spec2 volume = mix_volume P spec volume := by
      unfold mix_volume
      rw [hch]
    rw [swap_samples_flatMap _ w (fun j => by unfold mix_sample; exact hwl _ _), hch, hvol]
    apply flatMap_congr_range
    intro k hk
    have hkl : k * w < mix_limit length streams := by
      rw [← hwn] at hk ⊢
      exact (lt_mix_count Kn.width k _ (by omega)).1 hk
    have hall := ((lt_mix_limit _ _ _).1 hkl).2
    unfold mix_sample
    rw [hwrite, mix_sum_swapped P Kn Kr w hwn hwr hle hscale hadd hread streams spec spec2
      hch mute _ _ k hs hall]

/-- C27: the reverse-endian S16 and S32 cases of `pa_mix` agree with the native-endian
cases up to byte swapping. For streams whose chunks lie inside their blocks and hold
whole samples, every volume, mute setting and length, mixing in S16RE (S32RE) the
streams with the bytes of every sample reversed gives the result of mixing the original
streams in S16NE (S32NE) with the bytes of every output sample reversed: the same
length, and the per-sample byte swap of the data. -/
theorem pa_mix_reverse_endian (P : Platform) (streams : List pa_mix_info) (length : Nat)
    (spec spec2 : pa_sample_spec) (volume : Option pa_cvolume) (mute : Bool)
    (hf : (spec.format = PA_SAMPLE_S16NE P ∧ spec2.format = PA_SAMPLE_S16RE P)
      ∨ (spec.format = PA_SAMPLE_S32NE P ∧ spec2.format = PA_SAMPLE_S32RE P))
    (hch : spec2.channels = spec.channels)
    (hs : ∀ m ∈ streams, sample_width spec.format ∣ m.chunk.length
      ∧ m.chunk.index + m.chunk.length ≤ m.chunk.memblock.data.length) :
    pa_mix P (streams.map (swap_stream (sample_width spec.format))) length spec2 volume mute
      = (pa_mix P streams length spec volume mute).map
          (swap_result (sample_width spec.format)) := by
  rcases hf with ⟨h1, h2⟩ | ⟨h1, h2⟩
  · have hw : sample_width spec.format = 2 := by rw [h1]; exact (sample_width_native P).1
    rw [hw] at hs ⊢
    exact pa_mix_swapped P (mix_s16ne P) (mix_s16re P) 2 rfl rfl (by decide) rfl rfl rfl
      (read_swapped_s16 P) (fun sum linear => store_u16_swapped _ _)
      (fun sum linear => length_store_u16 _ _) streams length spec spec2 volume mute
      (mix_case_s16ne P _ h1) (mix_case_s16re P _ h2) hch hs
  · have hw : sample_width spec.format = 4 := by rw [h1]; exact (sample_width_native P).2
    rw [hw] at hs ⊢
    exact pa_mix_swapped P (mix_s32ne P) (mix_s32re P) 4 rfl rfl (by decide) rfl rfl rfl
      (read_swapped_s32 P) (fun sum linear => store_u32_swapped _ _)
      (fun sum linear => length_store_u32 _ _) streams length spec spec2 volume mute
      (mix_case_s32ne P _ h1) (mix_case_s32re P _ h2) hch hs

/-- C27, at a concrete input: two 16-bit stereo streams of four frames, one at unity and
one at half gain, mixed as little-endian and, byte-swapped, as big-endian samples on a
little-endian host. -/
theorem pa_mix_reverse_endian_witness :
    (((stereo_s16le.format = PA_SAMPLE_S16NE little_endian_host
            ∧ stereo_s16be.format = PA_SAMPLE_S16RE little_endian_host)
          ∨ (stereo_s16le.format = PA_SAMPLE_S32NE little_endian_host
            ∧ stereo_s16be.format = PA_SAMPLE_S32RE little_endian_host))
        ∧ stereo_s16be.channels = stereo_s16le.channels
        ∧ ∀ m ∈ [four_frames_unity, four_frames_half],
            sample_width stereo_s16le.format ∣ m.chunk.length
            ∧ m.chunk.index + m.chunk.length ≤ m.chunk.memblock.data.length)
      ∧ pa_mix little_endian_host
          ([four_frames_unity, four_frames_half].map
            (swap_stream (sample_width stereo_s16le.format))) 16 stereo_s16be none false
        = (pa_mix little_endian_host [four_frames_unity, four_frames_half] 16 stereo_s16le
            none false).map (swap_result (sample_width stereo_s16le.format)) :=
  ⟨by decide,
    pa_mix_reverse_endian little_endian_host [four_frames_unity, four_frames_half] 16
      stereo_s16le stereo_s16be none false (Or.inl ⟨rfl, rfl⟩) rfl (by decide)⟩

/-! ## Reference counting -/

theorem refs_of_pool_set (pool : pa_mempool) (b : Nat) (x : pool_block) (c : Nat) :
    refs_of (pool_set pool b x) c
      = if b = c ∧ b < pool.blocks.length then x.refs else refs_of pool c := by
  unfold refs_of pool_set
  simp only [List.get?_eq_getElem?]
  by_cases hbc : b = c
  · subst hbc
    by_cases hlt : b < pool.blocks.length
    · rw [List.getElem?_set_self hlt, if_pos ⟨rfl, hlt⟩]
    · rw [if_neg (by omega), List.set_eq_of_length_le (by omega)]
  · rw [List.getElem?_set_ne hbc, if_neg (by omega)]

theorem refs_of_lt (pool : pa_mempool) (b : Nat) (h : pool.blocks.length ≤ b) :
    refs_of pool b = 0 := by
  unfold refs_of
  simp only [List.get?_eq_getElem?]
  rw [List.getElem?_eq_none h]

theorem refs_of_ref (pool : pa_mempool) (b c : Nat) :
    refs_of (pa_memblock_ref pool b) c
      = refs_of pool c + (if b = c ∧ b < pool.blocks.length then 1 else 0) := by
  unfold pa_memblock_ref
  cases hx : pool.blocks.get? b with
  | none =>
    simp only []
    have hge : pool.blocks.length ≤ b := by
      by_contra hlt
      simp only [List.get?_eq_getElem?] at hx
      rw [List.getElem?_eq_getElem (by omega)] at hx
      cases hx
    rw [if_neg (by omega)]
    rfl
  | some x =>
    simp only []
    rw [refs_of_pool_set]
    by_cases h : b = c ∧ b < pool.blocks.length
    · rw [if_pos h, if_pos h]
      obtain ⟨rfl, _⟩ := h
      unfold refs_of
      rw [hx]
    · rw [if_neg h, if_neg h]
      rfl

theorem refs_of_unref (pool : pa_mempool) (b c : Nat) :
    refs_of (pa_memblock_unref pool b) c = refs_of pool c - (if b = c then 1 else 0) := by
  unfold pa_memblock_unref
  cases hx : pool.blocks.get? b with
  | none =>
    simp only []
    by_cases hbc : b = c
    · subst hbc
      rw [if_pos rfl]
      unfold refs_of
      rw [hx]
      rfl
    · rw [if_neg hbc]
      rfl
  | some x =>
    simp only []
    have hlt : b < pool.blocks.length := by
      by_contra hge
      simp only [List.get?_eq_getElem?] at hx
      rw [List.getElem?_eq_none (by omega)] at hx
      cases hx
    rw [refs_of_pool_set]
    by_cases hbc : b = c
    · subst hbc
      rw [if_pos ⟨rfl, hlt⟩, if_pos rfl]
      unfold refs_of
      rw [hx]
    · rw [if_neg (by omega), if_neg hbc]
      rfl

theorem refs_of_new (PA_PAGE_SIZE : Nat) (pool : pa_mempool) (c : Byte) (b : Nat) :
    refs_of (silence_memblock_new PA_PAGE_SIZE pool c).1 b
      = if b = pool.blocks.length then 1 else refs_of pool b := by
  unfold silence_memblock_new pa_memblock_new pa_mempool_block_size_max
  simp only [List.get?_eq_getElem?, List.getElem?_concat_length]
  rw [refs_of_pool_set]
  simp only [List.length_append, List.length_singleton]
  by_cases hb : b = pool.blocks.length
  · rw [if_pos ⟨hb.symm, by omega⟩, if_pos hb]
  · rw [if_neg (by omega), if_neg hb]
    unfold refs_of
    simp only [List.get?_eq_getElem?]
    by_cases hlt : b < pool.blocks.length
    · rw [List.getElem?_append_left hlt]
    · rw [List.getElem?_eq_none (by simp; omega), List.getElem?_eq_none (by omega)]

theorem refs_of_cache_unref (cache : pa_silence_cache) (fs : List pa_sample_format_t)
    (pool : pa_mempool) (b : Nat) :
    refs_of (silence_cache_unref cache fs pool) b
      = refs_of pool b - slots_holding cache b fs := by
  induction fs generalizing pool with
  | nil => simp [silence_cache_unref, slots_holding]
  | cons f fs ih =>
    unfold slots_holding at ih ⊢
    simp only [silence_cache_unref, List.filter_cons]
    cases hf : cache.blocks f with
    | none =>
      simp only []
      rw [ih, if_neg (by simp)]
    | some b2 =>
      simp only []
      rw [ih, refs_of_unref]
      by_cases hb : b2 = b
      · subst hb
        rw [if_pos rfl, if_pos (by simp), List.length_cons]
        omega
      · rw [if_neg hb, if_neg (by simp [hb])]
        omega

theorem slots_holding_fill (c c2 : pa_silence_cache) (f0 : pa_sample_format_t) (bn b : Nat)
    (hblocks : ∀ g, c2.blocks g = if same_slot f0 g = true then some bn else c.blocks g)
    (hnone : ∀ g, same_slot f0 g = true → c.blocks g = none)
    (hfresh : ∀ g, c.blocks g ≠ some bn) (l : List pa_sample_format_t) :
    slots_holding c2 b l
      = if b = bn then (l.filter (fun g => same_slot f0 g)).length else slots_holding c b l := by
  unfold slots_holding
  induction l with
  | nil => simp
  | cons g gs ih =>
    simp only [List.filter_cons]
    rw [hblocks g]
    by_cases hs : same_slot f0 g = true
    · rw [if_pos hs, hnone g hs]
      by_cases hb : b = bn
      · subst hb
        rw [if_pos rfl] at ih ⊢
        rw [if_pos (by simp), if_pos hs, List.length_cons, List.length_cons, ih]
      · rw [if_neg hb] at ih ⊢
        rw [if_neg (by simp; omega), if_neg (by simp), ih]
    · rw [if_neg hs]
      by_cases hb : b = bn
      · subst hb
        rw [if_pos rfl] at ih ⊢
        rw [if_neg (by simpa using hfresh g), if_neg hs, ih]
      · rw [if_neg hb] at ih ⊢
        by_cases hg : c.blocks g = some b
        · rw [if_pos (by simpa using hg), if_pos (by simpa using hg), List.length_cons,
            List.length_cons, ih]
        · rw [if_neg (by simpa using hg), if_neg (by simpa using hg), ih]

theorem chunk_count_append (chs : List pa_memchunk_ptr) (ch : pa_memchunk_ptr) (b : Nat) :
    chunk_count (chs ++ [ch]) b = chunk_count chs b + (if ch.memblock = b then 1 else 0) := by
  unfold chunk_count
  rw [List.filter_append, List.length_append]
  by_cases h : ch.memblock = b
  · simp [h]
  · simp [h]

theorem chunk_count_fresh (chs : List pa_memchunk_ptr) (b : Nat)
    (h : ∀ ch ∈ chs, ch.memblock < b) : chunk_count chs b = 0 := by
  unfold chunk_count
  rw [List.length_eq_zero, List.filter_eq_nil_iff]
  intro ch hch
  have := h ch hch
  simp only [decide_eq_true_eq]
  omega

theorem silence_cache_fill_refs (PA_PAGE_SIZE : Nat) (cache : pa_silence_cache)
    (pool : pa_mempool) (format : pa_sample_format_t) (c2 : pa_silence_cache)
    (p2 : pa_mempool) (bn : Nat)
    (h : silence_cache_fill PA_PAGE_SIZE cache pool format = some (c2, p2, bn)) (b : Nat) :
    refs_of p2 b
      = if b = pool.blocks.length
        then (all_formats.filter (fun g => same_slot format g)).length
        else refs_of pool b := by
  have h0 := silence_memblock_new_spec PA_PAGE_SIZE pool 0
  cases format
  case PA_SAMPLE_MAX => simp [silence_cache_fill] at h
  all_goals
    simp only [silence_cache_fill, Option.some.injEq, Prod.mk.injEq] at h
    obtain ⟨_, hp, _⟩ := h
    rw [← hp]
    simp only [refs_of_ref, refs_of_new, pa_memblock_ref_length, h0.1, h0.2.1]
    by_cases hb : b = pool.blocks.length
    · subst hb
      simp only [if_true, true_and, Nat.lt_succ_self]
      rfl
    · have hne : ¬ (pool.blocks.length = b ∧ pool.blocks.length < pool.blocks.length + 1) := by
        omega
      simp only [if_neg hb, if_neg hne, Nat.add_zero]

theorem silence_get_refs (P : Platform) (PA_PAGE_SIZE : Nat) (cache : pa_silence_cache)
    (pool : pa_mempool) (spec : pa_sample_spec) (length : Nat)
    (chs : List pa_memchunk_ptr) (c2 : pa_silence_cache) (p2 : pa_mempool)
    (ch : pa_memchunk_ptr)
    (hv : pa_sample_spec_valid spec = true)
    (hwf : cache_wf cache pool) (hal : cache_aliased cache)
    (hok : cache_refs_ok cache pool chs)
    (h : pa_silence_memchunk_get P PA_PAGE_SIZE cache pool spec length = some (c2, p2, ch)) :
    cache_refs_ok c2 p2 (chs ++ [ch]) := by
  have hfmt := valid_format spec hv
  unfold pa_silence_memchunk_get at h
  rw [if_neg (by simp [hv])] at h
  cases hslot : cache.blocks spec.format with
  | some b0 =>
    rw [hslot] at h
    simp only [Option.some.injEq, Prod.mk.injEq] at h
    obtain ⟨hc, hp, hch⟩ := h
    subst hc
    have hb0 := hwf _ _ hslot
    have hmb : ch.memblock = b0 := by rw [← hch]
    constructor
    · intro f b hfb
      rw [← hp, refs_of_ref, chunk_count_append, hok.1 f b hfb, hmb]
      by_cases hbb : b0 = b
      · rw [if_pos ⟨hbb, hb0⟩, if_pos hbb]; omega
      · rw [if_neg (by omega), if_neg hbb]; omega
    · intro x hx
      rw [← hp, pa_memblock_ref_length]
      rcases List.mem_append.1 hx with h1 | h1
      · exact hok.2 x h1
      · simp only [List.mem_singleton] at h1
        rw [h1, hmb]
        exact hb0
  | none =>
    rw [hslot] at h
    obtain ⟨cf, pf, hfill, hlen, _, hblocks⟩ :=
      silence_cache_fill_spec PA_PAGE_SIZE cache pool spec.format hfmt
    have hrefs := silence_cache_fill_refs PA_PAGE_SIZE cache pool spec.format cf pf _ hfill
    rw [hfill] at h
    simp only [Option.some.injEq, Prod.mk.injEq] at h
    obtain ⟨hc, hp, hch⟩ := h
    subst hc
    have hmb : ch.memblock = pool.blocks.length := by rw [← hch]
    have hnone : ∀ g, same_slot spec.format g = true → cache.blocks g = none := by
      intro g hs
      unfold same_slot at hs
      simp only [Bool.or_eq_true, Bool.and_eq_true, decide_eq_true_eq] at hs
      rcases hs with ⟨hz1, hz2⟩ | rfl
      · rw [hal.1 g spec.format hz2 hz1]
        exact hslot
      · exact hslot
    have hfresh : ∀ g, cache.blocks g ≠ some pool.blocks.length := by
      intro g hg
      have := hwf g _ hg
      omega
    have hslots : ∀ b, slot_count cf b
        = if b = pool.blocks.length
          then (all_formats.filter (fun g => same_slot spec.format g)).length
          else slot_count cache b :=
      fun b => slots_holding_fill cache cf spec.format _ b hblocks hnone hfresh all_formats
    constructor
    · intro f b hfb
      rw [← hp, refs_of_ref, hrefs, hslots, chunk_count_append, hmb, hlen]
      by_cases hb : b = pool.blocks.length
      · subst hb
        rw [if_pos rfl, if_pos rfl, if_pos ⟨rfl, by omega⟩, if_pos rfl,
          chunk_count_fresh chs _ hok.2]
      · rw [if_neg hb, if_neg hb, if_neg (by omega), if_neg (by omega)]
        rw [hblocks f] at hfb
        split at hfb
        · simp only [Option.some.injEq] at hfb
          omega
        · rw [hok.1 f b hfb]
          omega
    · intro x hx
      rw [← hp, pa_memblock_ref_length, hlen]
      rcases List.mem_append.1 hx with h1 | h1
      · have := hok.2 x h1
        omega
      · simp only [List.mem_singleton] at h1
        rw [h1, hmb]
        omega

theorem silence_cache_run_refs (P : Platform) (PA_PAGE_SIZE : Nat)
    (reqs : List (pa_sample_spec × Nat)) :
    ∀ (cache : pa_silence_cache) (pool : pa_mempool) (chs0 : List pa_memchunk_ptr),
      (∀ r ∈ reqs, pa_sample_spec_valid r.1 = true) →
      cache_wf cache pool → cache_aliased cache → cache_refs_ok cache pool chs0 →
      ∃ cache2 pool2 chunks,
        silence_cache_run P PA_PAGE_SIZE cache pool reqs = some (cache2, pool2, chunks) ∧
        cache_refs_ok cache2 pool2 (chs0 ++ chunks) := by
  induction reqs with
  | nil =>
    intro cache pool chs0 _ _ _ hok
    exact ⟨cache, pool, [], rfl, by rw [List.append_nil]; exact hok⟩
  | cons r rest ih =>
    intro cache pool chs0 hv hwf hal hok
    obtain ⟨c1, p1, ch, hget, hwf1, hal1, _⟩ :=
      silence_get_step P PA_PAGE_SIZE cache pool r.1 r.2 (hv r (List.mem_cons_self _ _)) hwf hal
    have hok1 := silence_get_refs P PA_PAGE_SIZE cache pool r.1 r.2 chs0 c1 p1 ch
      (hv r (List.mem_cons_self _ _)) hwf hal hok hget
    obtain ⟨c2, p2, chs, hrun, hok2⟩ :=
      ih c1 p1 (chs0 ++ [ch]) (fun x hx => hv x (List.mem_cons_of_mem _ hx)) hwf1 hal1 hok1
    refine ⟨c2, p2, ch :: chs, ?_, ?_⟩
    · simp only [silence_cache_run, hget, hrun]
    · rw [List.append_assoc] at hok2
      exact hok2

/-- C28: starting from `pa_silence_cache_init`, after any sequence of
`pa_silence_memchunk_get` calls the reference count of every cached silence block is
the number of cache slots that hold it plus the number of chunks returned for it; after
`pa_silence_cache_done` every slot is empty, every block has lost exactly one reference
per slot that held it, and the reference count of each block that was cached is the
number of chunks returned for it. -/
theorem silence_cache_refcounts (P : Platform) (PA_PAGE_SIZE : Nat) (pool : pa_mempool)
    (reqs : List (pa_sample_spec × Nat))
    (hr : ∀ r ∈ reqs, pa_sample_spec_valid r.1 = true) :
    ∃ cache pool1 chunks,
      silence_cache_run P PA_PAGE_SIZE pa_silence_cache_init pool reqs
        = some (cache, pool1, chunks)
      ∧ (∀ f b, cache.blocks f = some b →
          refs_of pool1 b = slot_count cache b + chunk_count chunks b)
      ∧ (∀ f, (pa_silence_cache_done cache pool1).1.blocks f = none)
      ∧ (∀ b, refs_of (pa_silence_cache_done cache pool1).2 b
          = refs_of pool1 b - slot_count cache b)
      ∧ (∀ f b, cache.blocks f = some b →
          refs_of (pa_silence_cache_done cache pool1).2 b = chunk_count chunks b) := by
  obtain ⟨hwf0, hal0⟩ := cache_init_inv pool
  have hok0 : cache_refs_ok pa_silence_cache_init pool [] := by
    constructor
    · intro f b h
      simp [pa_silence_cache_init] at h
    · intro ch hch
      simp at hch
  obtain ⟨c, p, chs, hrun, hok⟩ :=
    silence_cache_run_refs P PA_PAGE_SIZE reqs pa_silence_cache_init pool [] hr hwf0 hal0 hok0
  rw [List.nil_append] at hok
  have hdone : ∀ b, refs_of (pa_silence_cache_done c p).2 b = refs_of p b - slot_count c b :=
    fun b => refs_of_cache_unref c all_formats p b
  refine ⟨c, p, chs, hrun, hok.1, fun _ => rfl, hdone, ?_⟩
  intro f b hfb
  rw [hdone, hok.1 f b hfb]
  omega

/-- C28, at a concrete input: requests for U8, S16LE, A-law and S16BE silence on an empty
pool leave three blocks with 2, 8 and 2 references; `pa_silence_cache_done` leaves them
with 1, 2 and 1, one per chunk handed out. -/
theorem silence_cache_refcounts_witness :
    (∀ r ∈ [(stereo_u8, 0), (stereo_s16le, 0), (mono_alaw, 4), (stereo_s16be, 4)],
        pa_sample_spec_valid r.1 = true)
      ∧ (∃ cache pool1 chunks,
          silence_cache_run little_endian_host 4096 pa_silence_cache_init small_pool
            [(stereo_u8, 0), (stereo_s16le, 0), (mono_alaw, 4), (stereo_s16be, 4)]
            = some (cache, pool1, chunks)
          ∧ (∀ f b, cache.blocks f = some b →
              refs_of pool1 b = slot_count cache b + chunk_count chunks b)
          ∧ (∀ f, (pa_silence_cache_done cache pool1).1.blocks f = none)
          ∧ (∀ b, refs_of (pa_silence_cache_done cache pool1).2 b
              = refs_of pool1 b - slot_count cache b)
          ∧ (∀ f b, cache.blocks f = some b →
              refs_of (pa_silence_cache_done cache pool1).2 b = chunk_count chunks b))
      ∧ (silence_cache_run little_endian_host 4096 pa_silence_cache_init small_pool
            [(stereo_u8, 0), (stereo_s16le, 0), (mono_alaw, 4), (stereo_s16be, 4)]).map
          (fun r => (r.2.1.blocks.map (fun x => x.refs),
            (pa_silence_cache_done r.1 r.2.1).2.blocks.map (fun x => x.refs)))
        = some ([2, 8, 2], [1, 2, 1]) :=
  ⟨by decide,
    silence_cache_refcounts little_endian_host 4096 small_pool
      [(stereo_u8, 0), (stereo_s16le, 0), (mono_alaw, 4), (stereo_s16be, 4)] (by decide),
    by decide⟩

/-! ## The seven integer cases -/

theorem integer_case_cases (P : Platform) (format : pa_sample_format_t) (K : mix_codec)
    (h : mix_case P format = some (false, K)) :
    (format = PA_SAMPLE_U8 ∧ K = mix_u8) ∨
      (format = PA_SAMPLE_S16NE P ∧ K = mix_s16ne P) ∨
      (format = PA_SAMPLE_S16RE P ∧ K = mix_s16re P) ∨
      (format = PA_SAMPLE_S32NE P ∧ K = mix_s32ne P) ∨
      (format = PA_SAMPLE_S32RE P ∧ K = mix_s32re P) ∨
      (format = PA_SAMPLE_ULAW ∧ K = mix_ulaw P) ∨
      (format = PA_SAMPLE_ALAW ∧ K = mix_alaw P) := by
  revert h
  unfold mix_case PA_SAMPLE_S16NE PA_SAMPLE_S16RE PA_SAMPLE_S32NE PA_SAMPLE_S32RE
    PA_SAMPLE_FLOAT32NE PA_SAMPLE_FLOAT32RE
  cases P.WORDS_BIGENDIAN <;> cases format <;> simp <;> (intro h; subst h; simp)

theorem companded_zero (P : Platform) :
    (mix_ulaw P).add 0 0 = 0 ∧ (mix_alaw P).add 0 0 = 0
      ∧ (∀ linear, (mix_ulaw P).write 0 linear = [uint8_t (P.st_14linear2ulaw 0)])
      ∧ (∀ linear, (mix_alaw P).write 0 linear = [uint8_t (P.st_13linear2alaw 0)]) := by
  have h0 : int32_t (0 + 0) = 0 := by decide
  refine ⟨h0, h0, fun linear => ?_, fun linear => ?_⟩
  · simp only [mix_ulaw]
    rw [clamp_id _ _ _ (by decide) (by decide), scale_int32_zero]
    rfl
  · simp only [mix_alaw]
    rw [clamp_id _ _ _ (by decide) (by decide), scale_int32_zero]
    rfl

theorem integer_case_zero (P : Platform) (format : pa_sample_format_t) (K : mix_codec)
    (h : mix_case P format = some (false, K))
    (hu : format = PA_SAMPLE_ULAW → uint8_t (P.st_14linear2ulaw 0) = 0xff)
    (ha : format = PA_SAMPLE_ALAW → uint8_t (P.st_13linear2alaw 0) = 0xd5) :
    K.add 0 0 = 0 ∧
      ∃ b, silence_byte format = some b ∧ ∀ linear, K.write 0 linear = List.replicate K.width b := by
  have hz := companded_zero P
  rcases integer_case_cases P format K h with h1 | h1 | h1 | h1 | h1 | ⟨hf, rfl⟩ | ⟨hf, rfl⟩
  · obtain ⟨hadd, _, hb⟩ := integer_pcm_zero P format K (Or.inl h1)
    exact ⟨hadd, hb⟩
  · obtain ⟨hadd, _, hb⟩ := integer_pcm_zero P format K (Or.inr (Or.inl h1))
    exact ⟨hadd, hb⟩
  · obtain ⟨hadd, _, hb⟩ := integer_pcm_zero P format K (Or.inr (Or.inr (Or.inl h1)))
    exact ⟨hadd, hb⟩
  · obtain ⟨hadd, _, hb⟩ := integer_pcm_zero P format K (Or.inr (Or.inr (Or.inr (Or.inl h1))))
    exact ⟨hadd, hb⟩
  · obtain ⟨hadd, _, hb⟩ := integer_pcm_zero P format K (Or.inr (Or.inr (Or.inr (Or.inr h1))))
    exact ⟨hadd, hb⟩
  · refine ⟨hz.1, 0xff, by rw [hf]; rfl, fun linear => ?_⟩
    rw [hz.2.2.1, hu hf]
    rfl
  · refine ⟨hz.2.1, 0xd5, by rw [hf]; rfl, fun linear => ?_⟩
    rw [hz.2.2.2, ha hf]
    rfl

/-- C6: in the integer cases of `pa_mix` (the seven cases that are not float: U8, S16
and S32 of either byte order, u-law and A-law), a stream contributes exactly 0 to the
accumulated sum of an output sample of channel `c` whenever its fixed-point gain for `c`
is <= 0, the mute flag is set, or the master fixed-point gain for `c` is <= 0;
consequently, when mute is set or the master gain of `c` is <= 0, every written sample
of channel `c` is the silence value of the encoding, whatever the input samples are.
For u-law and A-law the sample written is the code of the linear value 0, which the
companding tables of `g711.h` give as `0xff` and `0xd5`. -/
theorem pa_mix_muted_is_silent (P : Platform) (streams : List pa_mix_info) (length : Nat)
    (spec : pa_sample_spec) (volume : Option pa_cvolume) (mute : Bool) (K : mix_codec)
    (hl : 0 < length) (hK : mix_case P spec.format = some (false, K))
    (hu : spec.format = PA_SAMPLE_ULAW → uint8_t (P.st_14linear2ulaw 0) = 0xff)
    (ha : spec.format = PA_SAMPLE_ALAW → uint8_t (P.st_13linear2alaw 0) = 0xd5) :
    (∀ (m : pa_mix_info) (linear : Int) (c : Nat),
        (m.linear.getD c 0 ≤ 0 ∨ mute = true ∨ linear ≤ 0) →
        mix_term K mute linear c m = 0) ∧
    ∃ r b, pa_mix P streams length spec volume mute = some r ∧
      silence_byte spec.format = some b ∧
      ∀ k, k * sample_width spec.format < r.d →
        (mute = true ∨ master_gain P spec volume (channel_at spec.channels k) ≤ 0) →
        sample_at (sample_width spec.format) r.data k
          = List.replicate (sample_width spec.format) b := by
  have hle := integer_case_le_zero P spec.format K hK
  refine ⟨fun m linear c h => mix_term_zero_of_guard K mute linear c m hle h, ?_⟩
  have hw := (mix_case_width P spec.format false K hK).1
  obtain ⟨hadd, b, hb, hwrite⟩ := integer_case_zero P spec.format K hK hu ha
  refine ⟨_, b, pa_mix_eq P streams length spec volume mute false K hl hK, hb, ?_⟩
  simp only []
  rw [← hw]
  intro k hk hmute
  have hkn := lt_mix_count_of_lt K.width length k streams hk
  rw [mix_sample_at K
    (mix_sample K mute (mix_linear P false (mix_volume P spec volume)) spec.channels
      (mix_setup P false streams spec))
    (fun j => mix_case_write_length P spec.format false K hK _ _) _ k hkn]
  unfold mix_sample
  rw [mix_sum_zero K mute _ _ _ hadd, hwrite]
  intro y _
  apply mix_term_zero_of_guard K mute _ _ y hle
  rw [master_gain_eq]
  rcases hmute with h | h
  · exact Or.inr (Or.inl h)
  · exact Or.inr (Or.inr h)

/-- C6, at a concrete input: an A-law stream of four samples mixed with the mute flag
set; every sample written is the A-law silence byte. -/
theorem pa_mix_muted_is_silent_witness :
    (0 < 4
        ∧ mix_case little_endian_host mono_alaw.format
            = some (false, mix_alaw little_endian_host)
        ∧ (mono_alaw.format = PA_SAMPLE_ULAW →
            uint8_t (little_endian_host.st_14linear2ulaw 0) = 0xff)
        ∧ (mono_alaw.format = PA_SAMPLE_ALAW →
            uint8_t (little_endian_host.st_13linear2alaw 0) = 0xd5))
      ∧ ((∀ (m : pa_mix_info) (linear : Int) (c : Nat),
            (m.linear.getD c 0 ≤ 0 ∨ true = true ∨ linear ≤ 0) →
            mix_term (mix_alaw little_endian_host) true linear c m = 0)
        ∧ ∃ r b, pa_mix little_endian_host [stream_of [1, 2, 3, 4] 4 0x10000] 4 mono_alaw
              none true = some r ∧
            silence_byte mono_alaw.format = some b ∧
            ∀ k, k * sample_width mono_alaw.format < r.d →
              (true = true ∨ master_gain little_endian_host mono_alaw none
                  (channel_at mono_alaw.channels k) ≤ 0) →
              sample_at (sample_width mono_alaw.format) r.data k
                = List.replicate (sample_width mono_alaw.format) b)
      ∧ pa_mix little_endian_host [stream_of [1, 2, 3, 4] 4 0x10000] 4 mono_alaw none true
        = some { d := 4, data := [0xd5, 0xd5, 0xd5, 0xd5] } :=
  ⟨⟨by decide, rfl, fun h => absurd h (by decide), fun _ => rfl⟩,
    pa_mix_muted_is_silent little_endian_host [stream_of [1, 2, 3, 4] 4 0x10000] 4 mono_alaw
      none true (mix_alaw little_endian_host) (by decide) rfl
      (fun h => absurd h (by decide)) (fun _ => rfl),
    by decide⟩

theorem volume_switch_s16re (P : Platform) (c : pa_memchunk) (spec : pa_sample_spec)
    (volume : pa_cvolume) (hf : spec.format = PA_SAMPLE_S16RE P) :
    volume_switch P c spec volume
      = volume_loop 2 (volume_s16re P) (calc_linear_integer_volume P volume) spec.channels
          (c.length / 2) c.memblock.data c.index 0 := by
  have h1 : spec.format ≠ PA_SAMPLE_S16NE P := by
    rw [hf]; unfold PA_SAMPLE_S16RE PA_SAMPLE_S16NE
    cases P.WORDS_BIGENDIAN <;> simp
  unfold volume_switch
  rw [if_neg h1, if_pos hf]

theorem volume_switch_s32re (P : Platform) (c : pa_memchunk) (spec : pa_sample_spec)
    (volume : pa_cvolume) (hf : spec.format = PA_SAMPLE_S32RE P) :
    volume_switch P c spec volume
      = volume_loop 4 (volume_s32re P) (calc_linear_integer_volume P volume) spec.channels
          (c.length / 4) c.memblock.data c.index 0 := by
  have h1 : spec.format ≠ PA_SAMPLE_S16NE P := by
    rw [hf]; unfold PA_SAMPLE_S32RE PA_SAMPLE_S16NE
    cases P.WORDS_BIGENDIAN <;> simp
  have h2 : spec.format ≠ PA_SAMPLE_S16RE P := by
    rw [hf]; unfold PA_SAMPLE_S32RE PA_SAMPLE_S16RE
    cases P.WORDS_BIGENDIAN <;> simp
  have h3 : spec.format ≠ PA_SAMPLE_S32NE P := by
    rw [hf]; unfold PA_SAMPLE_S32RE PA_SAMPLE_S32NE
    cases P.WORDS_BIGENDIAN <;> simp
  unfold volume_switch
  rw [if_neg h1, if_neg h2, if_neg h3, if_pos hf]

theorem volume_switch_ulaw (P : Platform) (c : pa_memchunk) (spec : pa_sample_spec)
    (volume : pa_cvolume) (hf : spec.format = PA_SAMPLE_ULAW) :
    volume_switch P c spec volume
      = volume_loop 1 (volume_ulaw P) (calc_linear_integer_volume P volume) spec.channels
          (c.length / 1) c.memblock.data c.index 0 := by
  unfold volume_switch PA_SAMPLE_S16NE PA_SAMPLE_S16RE PA_SAMPLE_S32NE PA_SAMPLE_S32RE
  rw [hf]
  cases P.WORDS_BIGENDIAN <;> simp

theorem volume_switch_alaw (P : Platform) (c : pa_memchunk) (spec : pa_sample_spec)
    (volume : pa_cvolume) (hf : spec.format = PA_SAMPLE_ALAW) :
    volume_switch P c spec volume
      = volume_loop 1 (volume_alaw P) (calc_linear_integer_volume P volume) spec.channels
          (c.length / 1) c.memblock.data c.index 0 := by
  unfold volume_switch PA_SAMPLE_S16NE PA_SAMPLE_S16RE PA_SAMPLE_S32NE PA_SAMPLE_S32RE
  rw [hf]
  cases P.WORDS_BIGENDIAN <;> simp

theorem integer_case_scale_width (P : Platform) (format : pa_sample_format_t)
    (K : mix_codec) (h : mix_case P format = some (false, K)) :
    ((format = PA_SAMPLE_U8 ∨ format = PA_SAMPLE_S16LE ∨ format = PA_SAMPLE_S16BE
          ∨ format = PA_SAMPLE_ULAW ∨ format = PA_SAMPLE_ALAW) ∧ K.scale = scale_int32)
      ∨ ((format = PA_SAMPLE_S32LE ∨ format = PA_SAMPLE_S32BE) ∧ K.scale = scale_int64) := by
  revert h
  unfold mix_case PA_SAMPLE_S16NE PA_SAMPLE_S16RE PA_SAMPLE_S32NE PA_SAMPLE_S32RE
    PA_SAMPLE_FLOAT32NE PA_SAMPLE_FLOAT32RE
  cases P.WORDS_BIGENDIAN <;> cases format <;> simp <;>
    (intro h; subst h; first | exact Or.inl rfl | exact Or.inr rfl | rfl)

theorem mix_term_unguarded (K : mix_codec) (mute : Bool) (linear : Int) (c : Nat)
    (m : pa_mix_info) (h1 : K.le_zero (m.linear.getD c 0) = false) (h2 : mute = false)
    (h3 : K.le_zero linear = false) :
    mix_term K mute linear c m
      = K.scale (K.read m.chunk.memblock.data m.ptr) (m.linear.getD c 0) := by
  unfold mix_term
  simp only [h1, h2, h3, Bool.or_self, Bool.false_eq_true, if_false]

/-- C8 (amended): in every integer case of `pa_mix` and of `pa_volume_memchunk`, scaling
a decoded sample `v` by a 16.16 fixed-point gain `g` is the C division
`(v * g) / 0x10000` in 32 bits (64 bits for S32); when the product fits the width it
yields `v * g / 65536` truncated toward zero, which is the floor when the product is not
negative and one more than the floor when the product is negative and not a multiple of
65536. In `pa_mix` the cases U8, S16LE, S16BE, u-law and A-law scale with the 32-bit
division and the cases S32LE and S32BE with the 64-bit one, and a term that no guard
zeroes is that division applied to the decoded sample and the channel gain. In
`pa_volume_memchunk` the `switch` runs, for each of the seven integer encodings, the loop
over the body of its case, and each body decodes, divides (32 bits for U8, S16NE, S16RE,
u-law and A-law, 64 bits for S32NE and S32RE), clamps and encodes. -/
theorem integer_scale_truncates (P : Platform) (v g : Int) :
    (∀ format K, mix_case P format = some (false, K) →
        ((format = PA_SAMPLE_U8 ∨ format = PA_SAMPLE_S16LE ∨ format = PA_SAMPLE_S16BE
            ∨ format = PA_SAMPLE_ULAW ∨ format = PA_SAMPLE_ALAW) ∧ K.scale = scale_int32)
          ∨ ((format = PA_SAMPLE_S32LE ∨ format = PA_SAMPLE_S32BE) ∧ K.scale = scale_int64))
      ∧ (∀ (K : mix_codec) (mute : Bool) (linear : Int) (c : Nat) (m : pa_mix_info),
          K.le_zero (m.linear.getD c 0) = false → mute = false → K.le_zero linear = false →
          mix_term K mute linear c m
            = K.scale (K.read m.chunk.memblock.data m.ptr) (m.linear.getD c 0))
      ∧ (∀ (c : pa_memchunk) (spec : pa_sample_spec) (volume : pa_cvolume),
          (spec.format = PA_SAMPLE_U8 →
              volume_switch P c spec volume
                = volume_loop 1 volume_u8 (calc_linear_integer_volume P volume) spec.channels
                    (c.length / 1) c.memblock.data c.index 0)
            ∧ (spec.format = PA_SAMPLE_S16NE P →
              volume_switch P c spec volume
                = volume_loop 2 (volume_s16ne P) (calc_linear_integer_volume P volume)
                    spec.channels (c.length / 2) c.memblock.data c.index 0)
            ∧ (spec.format = PA_SAMPLE_S16RE P →
              volume_switch P c spec volume
                = volume_loop 2 (volume_s16re P) (calc_linear_integer_volume P volume)
                    spec.channels (c.length / 2) c.memblock.data c.index 0)
            ∧ (spec.format = PA_SAMPLE_S32NE P →
              volume_switch P c spec volume
                = volume_loop 4 (volume_s32ne P) (calc_linear_integer_volume P volume)
                    spec.channels (c.length / 4) c.memblock.data c.index 0)
            ∧ (spec.format = PA_SAMPLE_S32RE P →
              volume_switch P c spec volume
                = volume_loop 4 (volume_s32re P) (calc_linear_integer_volume P volume)
                    spec.channels (c.length / 4) c.memblock.data c.index 0)
            ∧ (spec.format = PA_SAMPLE_ULAW →
              volume_switch P c spec volume
                = volume_loop 1 (volume_ulaw P) (calc_linear_integer_volume P volume)
                    spec.channels (c.length / 1) c.memblock.data c.index 0)
            ∧ (spec.format = PA_SAMPLE_ALAW →
              volume_switch P c spec volume
                = volume_loop 1 (volume_alaw P) (calc_linear_integer_volume P volume)
                    spec.channels (c.length / 1) c.memblock.data c.index 0))
      ∧ (∀ p d,
          volume_u8 p d g
              = [uint8_t (PA_CLAMP_UNLIKELY (scale_int32 (peek p d - 0x80) g) (-0x80) 0x7F
                  + 0x80)]
            ∧ volume_s16ne P p d g
              = store_u16 P.WORDS_BIGENDIAN (int16_t (PA_CLAMP_UNLIKELY
                  (scale_int32 (int16_t (load_u16 P.WORDS_BIGENDIAN p d)) g) (-0x8000) 0x7FFF))
            ∧ volume_s16re P p d g
              = store_u16 P.WORDS_BIGENDIAN (PA_INT16_SWAP (int16_t (PA_CLAMP_UNLIKELY
                  (scale_int32 (PA_INT16_SWAP (int16_t (load_u16 P.WORDS_BIGENDIAN p d))) g)
                  (-0x8000) 0x7FFF)))
            ∧ volume_s32ne P p d g
              = store_u32 P.WORDS_BIGENDIAN (int32_t (PA_CLAMP_UNLIKELY
                  (scale_int64 (int32_t (load_u32 P.WORDS_BIGENDIAN p d)) g)
                  (-0x80000000) 0x7FFFFFFF))
            ∧ volume_s32re P p d g
              = store_u32 P.WORDS_BIGENDIAN (PA_INT32_SWAP (int32_t (PA_CLAMP_UNLIKELY
                  (scale_int64 (PA_INT32_SWAP (int32_t (load_u32 P.WORDS_BIGENDIAN p d))) g)
                  (-0x80000000) 0x7FFFFFFF)))
            ∧ volume_ulaw P p d g
              = [uint8_t (P.st_14linear2ulaw (Int.fdiv (PA_CLAMP_UNLIKELY
                  (scale_int32 (int16_t (P.st_ulaw2linear16 (p.getD d 0))) g)
                  (-0x8000) 0x7FFF) 4))]
            ∧ volume_alaw P p d g
              = [uint8_t (P.st_13linear2alaw (Int.fdiv (PA_CLAMP_UNLIKELY
                  (scale_int32 (int16_t (P.st_alaw2linear16 (p.getD d 0))) g)
                  (-0x8000) 0x7FFF) 8))])
      ∧ (-0x80000000 ≤ v * g → v * g ≤ 0x7FFFFFFF →
          scale_int32 v g = Int.tdiv (v * g) 0x10000)
      ∧ (-0x8000000000000000 ≤ v * g → v * g ≤ 0x7FFFFFFFFFFFFFFF →
          scale_int64 v g = Int.tdiv (v * g) 0x10000)
      ∧ (0 ≤ v * g → Int.tdiv (v * g) 0x10000 = Int.fdiv (v * g) 0x10000)
      ∧ (v * g < 0 → (v * g) % 0x10000 ≠ 0 →
          Int.tdiv (v * g) 0x10000 = Int.fdiv (v * g) 0x10000 + 1) := by
  refine ⟨integer_case_scale_width P, mix_term_unguarded,
    fun c spec volume => ⟨volume_switch_u8 P c spec volume, volume_switch_s16ne P c spec volume,
      volume_switch_s16re P c spec volume, volume_switch_s32ne P c spec volume,
      volume_switch_s32re P c spec volume, volume_switch_ulaw P c spec volume,
      volume_switch_alaw P c spec volume⟩,
    fun _ _ => ⟨rfl, rfl, rfl, rfl, rfl, rfl, rfl⟩, ?_, ?_, ?_, ?_⟩
  · intro h1 h2
    unfold scale_int32
    rw [int32_t_id _ h1 h2]
  · intro h1 h2
    unfold scale_int64
    rw [int64_t_id _ h1 h2]
  · intro h
    rw [Int.fdiv_eq_ediv _ (by decide), Int.tdiv_eq_ediv h (by decide)]
  · intro h1 h2
    rw [Int.fdiv_eq_ediv _ (by decide), tdiv_65536]
    generalize v * g = p at *
    rw [if_neg (by omega)]
    omega

/-- C8 (amended), at the sample -3 and the gain `0x8000`: the product fits 32 bits, is
negative and is not a multiple of 65536; the scaled sample is -1 and the floor is -2. On
a little-endian host the S16BE case of `pa_volume_memchunk` runs the byte-swapping body,
which turns the stored sample -3 into -1. -/
theorem integer_scale_truncates_witness :
    (-0x80000000 ≤ (-3 : Int) * 0x8000 ∧ (-3 : Int) * 0x8000 ≤ 0x7FFFFFFF
      ∧ (-3 : Int) * 0x8000 < 0 ∧ ((-3 : Int) * 0x8000) % 0x10000 ≠ 0
      ∧ PA_SAMPLE_S16BE = PA_SAMPLE_S16RE little_endian_host)
      ∧ scale_int32 (-3) 0x8000 = Int.tdiv ((-3) * 0x8000) 0x10000
      ∧ Int.tdiv ((-3 : Int) * 0x8000) 0x10000 = Int.fdiv ((-3) * 0x8000) 0x10000 + 1
      ∧ scale_int32 (-3) 0x8000 = -1
      ∧ Int.fdiv ((-3 : Int) * 0x8000) 0x10000 = -2
      ∧ volume_switch little_endian_host (chunk_of [0xff, 0xfd] 0 2)
            { format := PA_SAMPLE_S16BE, rate := 44100, channels := 2 }
            (stereo_volume 0x8000)
          = volume_loop 2 (volume_s16re little_endian_host)
              (calc_linear_integer_volume little_endian_host
                (stereo_volume 0x8000)) 2
              ((chunk_of [0xff, 0xfd] 0 2).length / 2) (chunk_of [0xff, 0xfd] 0 2).memblock.data
              (chunk_of [0xff, 0xfd] 0 2).index 0
      ∧ volume_s16re little_endian_host [0xff, 0xfd] 0 0x8000 = [0xff, 0xff] :=
  ⟨by decide,
    (integer_scale_truncates little_endian_host (-3) 0x8000).2.2.2.2.1 (by decide) (by decide),
    (integer_scale_truncates little_endian_host (-3) 0x8000).2.2.2.2.2.2.2 (by decide)
      (by decide),
    by decide, by decide,
    ((integer_scale_truncates little_endian_host (-3) 0x8000).2.2.1
      (chunk_of [0xff, 0xfd] 0 2) { format := PA_SAMPLE_S16BE, rate := 44100, channels := 2 }
      (stereo_volume 0x8000)).2.2.1 rfl,
    by decide⟩

end PulseAudio
